import Mathlib

/-!
Verification of the AA-tree ordered map engine (apasel422/tree).

The definitions below are a shallow embedding of the Rust sources:
  * src/src/node/mod.rs  — node representation, skew/split/rebalance,
    insert, path-based removal, rank/select, extreme/closest traversals,
    and the entry API,
  * src/src/node/iter.rs — the deque-based double-ended (range) iterator,
  * src/src/map.rs       — the map facade maintaining the length field.

Links (`Option<Box<Node>>`) are modelled by the `Tree` type itself, with
`Tree.nil` playing the role of the empty link.  The caller-supplied
three-way comparator is a function `c : K → K → Ordering`; machine sizes
(`usize`) are modelled by `Nat`.  The augmentation hook (the `Augment`
trait and the order-statistics `Rank` augment live in a crate root that is
not part of the sources) is modelled from the spec as the `AugOps`
structure: a leaf value and a bottom-up recombination of the children's
augments, with the order-statistics instance being subtree size.
-/

namespace TreeCrate

inductive Tree (K V A : Type) where
  | nil : Tree K V A
  | node (left : Tree K V A) (right : Tree K V A) (level : Nat)
      (key : K) (value : V) (augment : A) : Tree K V A
  deriving DecidableEq

namespace Tree

variable {K V A : Type}

/-- Modelled from the spec: the `Augment` extension point (src's `Augment`
trait lives outside src/): `anew` is a freshly created leaf's augment and
`abu` recomputes a node's augment from the children's augments
(`none` for an empty child link). -/
structure AugOps (A : Type) where
  anew : A
  abu : Option A → Option A → A

/-- The trivial augmentation, the default `A = ()` instantiation. -/
def unitAug : AugOps Unit := ⟨(), fun _ _ => ()⟩

/-- Modelled from the spec: the order-statistics augment (`Rank`): a
node's augment is its subtree size, `1 + size(left) + size(right)`. -/
def rankAug : AugOps Nat := ⟨1, fun l r => 1 + l.getD 0 + r.getD 0⟩

def lvl : Tree K V A → Nat
  | nil => 0
  | node _ _ lv _ _ _ => lv

def aug? : Tree K V A → Option A
  | nil => none
  | node _ _ _ _ _ a => some a

def leftOf : Tree K V A → Tree K V A
  | nil => nil
  | node l _ _ _ _ _ => l

def rightOf : Tree K V A → Tree K V A
  | nil => nil
  | node _ r _ _ _ _ => r

def sz : Tree K V A → Nat
  | nil => 0
  | node l r _ _ _ _ => sz l + sz r + 1

def inorder : Tree K V A → List (K × V)
  | nil => []
  | node l r _ k v _ => inorder l ++ (k, v) :: inorder r

def keyList (t : Tree K V A) : List K := (inorder t).map Prod.fst

/-- `Node::bottom_up` (node/mod.rs:58): recompute this node's augment from
its children's augments. -/
def bottomUp (g : AugOps A) : Tree K V A → Tree K V A
  | nil => nil
  | node l r lv k v _ => node l r lv k v (g.abu (aug? l) (aug? r))

/-- `Node::skew` (node/mod.rs:66): remove a left horizontal link by a
right rotation.  The demoted node's augment is recomputed (`bottom_up`);
the promoted node keeps its own augment and level, exactly as in the
source. -/
def skew (g : AugOps A) : Tree K V A → Tree K V A
  | nil => nil
  | node l r lv k v a =>
    match l with
    | node ll lr llv lk lv2 la =>
      if llv = lv then
        node ll (bottomUp g (node lr r lv k v a)) llv lk lv2 la
      else node l r lv k v a
    | nil => node l r lv k v a

/-- `Node::split` (node/mod.rs:80): remove a double right horizontal link
by a left rotation, incrementing the promoted node's level. -/
def split (g : AugOps A) : Tree K V A → Tree K V A
  | nil => nil
  | node l r lv k v a =>
    match r with
    | node rl rr rlv rk rv2 ra =>
      if lvl rr = lv then
        node (bottomUp g (node l rl lv k v a)) rr (rlv + 1) rk rv2 ra
      else node l (node rl rr rlv rk rv2 ra) lv k v a
    | nil => node l r lv k v a

def setLvl : Tree K V A → Nat → Tree K V A
  | nil, _ => nil
  | node l r _ k v a, n => node l r n k v a

/-- Apply a function to the right child of a node (helper used to mirror
the `node.right` / `right.right` steps of `rebalance`). -/
def onRight (f : Tree K V A → Tree K V A) : Tree K V A → Tree K V A
  | nil => nil
  | node l r lv k v a => node l (f r) lv k v a

/-- `Node::rebalance` (node/mod.rs:33): after a removal, if either child's
level is two below this node's, decrement the level, clamp the right
child's level down to it, and run the fixed skew/skew/skew/split/split
sequence. -/
def rebalance (g : AugOps A) : Tree K V A → Tree K V A
  | nil => nil
  | node l r lv k v a =>
    if lvl l < lv - 1 ∨ lvl r < lv - 1 then
      let lv2 := lv - 1
      let r2 := if lvl r > lv2 then setLvl r lv2 else r
      let t1 := skew g (node l r2 lv2 k v a)
      let t2 := onRight (skew g) t1
      let t3 := onRight (onRight (skew g)) t2
      let t4 := split g t3
      onRight (split g) t4
    else node l r lv k v a

/-- `insert` (node/mod.rs:93): recursive descent; an empty link receives a
fresh level-1 leaf; an equal key has its value replaced (the stored key is
kept) with an early return; otherwise the child is updated and then
`skew`, `split`, `bottom_up` run at this node.  Returns the new subtree
and the previous value, if any. -/
def insert (g : AugOps A) (c : K → K → Ordering) :
    Tree K V A → K → V → Tree K V A × Option V
  | nil, k, v => (node nil nil 1 k v g.anew, none)
  | node l r lv k' v' a, k, v =>
    match c k k' with
    | .eq => (node l r lv k' v a, some v')
    | .lt =>
      let p := insert g c l k v
      (bottomUp g (split g (skew g (node p.1 r lv k' v' a))), p.2)
    | .gt =>
      let p := insert g c r k v
      (bottomUp g (split g (skew g (node l p.1 lv k' v' a))), p.2)

/-- `find` with the read-only `Get` builder (node/mod.rs:268,172): descend
by comparison and return the key/value at the terminal link. -/
def find (c : K → K → Ordering) : Tree K V A → K → Option (K × V)
  | nil, _ => none
  | node l r _ k' v' _, k =>
    match c k k' with
    | .lt => find c l k
    | .eq => some (k', v')
    | .gt => find c r k

/-- The `Result<usize, usize>` returned by `rank`. -/
inductive RankResult where
  | ok (r : Nat) : RankResult
  | err (r : Nat) : RankResult
  deriving DecidableEq

/-- `rank` (node/mod.rs:285): `ok` of the in-order rank of a present key,
`err` of the insertion rank of an absent one, accumulating the left
subtree sizes (stored in the `Rank` augment) of every right turn. -/
def rankOf (c : K → K → Ordering) : Tree K V Nat → K → Nat → RankResult
  | nil, _, r => .err r
  | node l rr _ k' _ _, k, r =>
    match c k k' with
    | .lt => rankOf c l k r
    | .eq => .ok (r + ((aug? l).getD 0))
    | .gt => rankOf c rr k (r + ((aug? l).getD 0) + 1)

/-- `select` (node/mod.rs:305): descend comparing the index with the left
subtree's size (read from the `Rank` augment). -/
def select : Tree K V Nat → Nat → Option (K × V)
  | nil, _ => none
  | node l r _ k v _, i =>
    let rk := (aug? l).getD 0
    if i = rk then some (k, v)
    else if i < rk then select l i
    else select r (i - (rk + 1))

/-- `Extreme::extreme` with the `Get` builder (node/mod.rs:336):
always-left (`isMin = true`, `Min`) or always-right (`Max`) descent. -/
def extreme (isMin : Bool) : Tree K V A → Option (K × V)
  | nil => none
  | node l r _ k v _ =>
    if isMin then
      match l with
      | nil => some (k, v)
      | node .. => extreme isMin l
    else
      match r with
      | nil => some (k, v)
      | node .. => extreme isMin r

/-- `Extreme::closest` with the `Get` builder (node/mod.rs:352).
`isMin = true` is `Min` (predecessor search), `isMin = false` is `Max`
(successor search); `save` is the best-so-far ancestor. -/
def closest (isMin : Bool) (c : K → K → Ordering) :
    Tree K V A → K → Bool → Option (K × V) → Option (K × V)
  | nil, _, _, save => save
  | node l r _ k' v' _, k, inc, save =>
    match c k k' with
    | .eq =>
      if inc then some (k', v')
      else if isMin then
        match l with
        | nil => save
        | node .. => extreme false l
      else
        match r with
        | nil => save
        | node .. => extreme true r
    | .lt =>
      if isMin then closest isMin c l k inc save
      else closest isMin c l k inc (some (k', v'))
    | .gt =>
      if isMin then closest isMin c r k inc (some (k', v'))
      else closest isMin c r k inc save

/-- `Max::extreme` with the path builder followed by `Path::remove_`
(node/mod.rs:443): descend the right spine to the maximum node and remove
it there by `Path::remove_` (a maximum has no right child, so its
replacement is extracted from its own left subtree's maximum, or the leaf
is unlinked); every spine node is rebalanced on the way back up. -/
def removeMaxLink (g : AugOps A) : Tree K V A → Tree K V A × Option (K × V)
  | nil => (nil, none)
  | node l r lv k v a =>
    match r with
    | node .. =>
      let p := removeMaxLink g r
      (rebalance g (node l p.1 lv k v a), p.2)
    | nil =>
      match l with
      | nil => (nil, some (k, v))
      | node .. =>
        match removeMaxLink g l with
        | (l2, some rep) => (rebalance g (node l2 nil lv rep.1 rep.2 a), some (k, v))
        | (_, none) => (nil, some (k, v))

/-- `Min::extreme` with the path builder followed by `Path::remove_`
(node/mod.rs:445): the mirror image of `removeMaxLink`. -/
def removeMinLink (g : AugOps A) : Tree K V A → Tree K V A × Option (K × V)
  | nil => (nil, none)
  | node l r lv k v a =>
    match l with
    | node .. =>
      let p := removeMinLink g l
      (rebalance g (node p.1 r lv k v a), p.2)
    | nil =>
      match r with
      | nil => (nil, some (k, v))
      | node .. =>
        match removeMinLink g r with
        | (r2, some rep) => (rebalance g (node nil r2 lv rep.1 rep.2 a), some (k, v))
        | (_, none) => (nil, some (k, v))

/-- `Path::remove_` at an occupied terminal link (node/mod.rs:438): if a
left subtree exists its maximum is extracted and spliced into this node
(which is then rebalanced); else symmetrically with the right subtree's
minimum; a leaf is unlinked.  Returns the new subtree together with the
removed key/value.  (The `none` replacement branches are unreachable:
extracting the extreme of a non-empty subtree always succeeds.) -/
def removeHere (g : AugOps A) : Tree K V A → Tree K V A × Option (K × V)
  | nil => (nil, none)
  | node l r lv k v a =>
    match l with
    | node .. =>
      match removeMaxLink g l with
      | (l2, some rep) => (rebalance g (node l2 r lv rep.1 rep.2 a), some (k, v))
      | (_, none) => (nil, some (k, v))
    | nil =>
      match r with
      | node .. =>
        match removeMinLink g r with
        | (r2, some rep) => (rebalance g (node l r2 lv rep.1 rep.2 a), some (k, v))
        | (_, none) => (nil, some (k, v))
      | nil => (nil, some (k, v))

/-- `Map::remove` (map.rs:187): a `Find` traversal with the path builder,
then `Path::remove_`: the found node is removed by `removeHere` and every
ancestor on the search path is rebalanced (also when nothing was found,
as in the source). -/
def removeGo (g : AugOps A) (c : K → K → Ordering) :
    Tree K V A → K → Tree K V A × Option (K × V)
  | nil, _ => (nil, none)
  | node l r lv k' v' a, k =>
    match c k k' with
    | .eq => removeHere g (node l r lv k' v' a)
    | .lt =>
      let p := removeGo g c l k
      (rebalance g (node p.1 r lv k' v' a), p.2)
    | .gt =>
      let p := removeGo g c r k
      (rebalance g (node l p.1 lv k' v' a), p.2)

/-- Outcome of a path-capturing `closest` traversal followed by
`Path::remove_`: either some node was removed, or the traversal fell
through to its saved ancestor (which the caller owns). -/
inductive ROut (K V : Type) where
  | removed (k : K) (v : V)
  | useSave
  deriving DecidableEq

/-- `Extreme::closest` with the path builder followed by `Path::remove_`
(node/mod.rs:352,438; map.rs:502,618).  The `save` bookkeeping of the
source is realized by the `ROut.useSave` signal: a nil terminal (or an
exclusive exact match with no forward child) reports `useSave`, which the
nearest save-turn ancestor (a right turn for `Min`/pred, a left turn for
`Max`/succ) consumes by removing itself via `Path::remove_`; above the
removal point every path node is rebalanced, below it nothing is touched,
matching the path truncation of `PathBuilder::build_closed`. -/
def removeClosest (g : AugOps A) (c : K → K → Ordering) (isMin : Bool) :
    Tree K V A → K → Bool → Tree K V A × ROut K V
  | nil, _, _ => (nil, .useSave)
  | node l r lv k' v' a, k, inc =>
    match c k k' with
    | .eq =>
      if inc then
        match removeHere g (node l r lv k' v' a) with
        | (t2, some rep) => (t2, .removed rep.1 rep.2)
        | (t2, none) => (t2, .useSave)
      else if isMin then
        match l with
        | nil => (node l r lv k' v' a, .useSave)
        | node .. =>
          match removeMaxLink g l with
          | (l2, some rep) => (rebalance g (node l2 r lv k' v' a), .removed rep.1 rep.2)
          | (l2, none) => (rebalance g (node l2 r lv k' v' a), .useSave)
      else
        match r with
        | nil => (node l r lv k' v' a, .useSave)
        | node .. =>
          match removeMinLink g r with
          | (r2, some rep) => (rebalance g (node l r2 lv k' v' a), .removed rep.1 rep.2)
          | (r2, none) => (rebalance g (node l r2 lv k' v' a), .useSave)
    | .lt =>
      match removeClosest g c isMin l k inc with
      | (l2, .removed rk rv) => (rebalance g (node l2 r lv k' v' a), .removed rk rv)
      | (_, .useSave) =>
        if isMin then (node l r lv k' v' a, .useSave)
        else
          match removeHere g (node l r lv k' v' a) with
          | (t2, some rep) => (t2, .removed rep.1 rep.2)
          | (t2, none) => (t2, .useSave)
    | .gt =>
      match removeClosest g c isMin r k inc with
      | (r2, .removed rk rv) => (rebalance g (node l r2 lv k' v' a), .removed rk rv)
      | (_, .useSave) =>
        if isMin then
          match removeHere g (node l r lv k' v' a) with
          | (t2, some rep) => (t2, .removed rep.1 rep.2)
          | (t2, none) => (t2, .useSave)
        else (node l r lv k' v' a, .useSave)

/-- When a path-capturing `closest` traversal finds no candidate at all,
`Path::remove_` still rebalances every node pushed on the search path
(node/mod.rs:459); the descent direction is the comparison's, for `Min`
and `Max` alike. -/
def rebalanceSearchPath (g : AugOps A) (c : K → K → Ordering) :
    Tree K V A → K → Tree K V A
  | nil, _ => nil
  | node l r lv k' v' a, k =>
    match c k k' with
    | .eq => rebalance g (node l r lv k' v' a)
    | .lt => rebalance g (node (rebalanceSearchPath g c l k) r lv k' v' a)
    | .gt => rebalance g (node l (rebalanceSearchPath g c r k) lv k' v' a)

/-- `Map::remove_pred` / `Map::remove_succ` (map.rs:502,618): a `Neighbor`
traversal with the path builder, then `Path::remove_`. -/
def removeNeighbor (g : AugOps A) (c : K → K → Ordering) (isMin : Bool)
    (t : Tree K V A) (k : K) (inc : Bool) : Tree K V A × Option (K × V) :=
  match removeClosest g c isMin t k inc with
  | (t2, .removed rk rv) => (t2, some (rk, rv))
  | (_, .useSave) => (rebalanceSearchPath g c t k, none)

/-- `Map::entry` followed by `Entry::or_insert` (map.rs:211,1138;
node/mod.rs:421,515): on an occupied terminal link nothing is touched and
the existing value is returned; on a vacant one a fresh level-1 leaf is
materialized and `skew`/`split`/`bottom_up` replay up the captured path. -/
def orInsertGo (g : AugOps A) (c : K → K → Ordering) :
    Tree K V A → K → V → Tree K V A × Option V
  | nil, k, v => (node nil nil 1 k v g.anew, none)
  | node l r lv k' v' a, k, v =>
    match c k k' with
    | .eq => (node l r lv k' v' a, some v')
    | .lt =>
      match orInsertGo g c l k v with
      | (_, some old) => (node l r lv k' v' a, some old)
      | (l2, none) => (bottomUp g (split g (skew g (node l2 r lv k' v' a))), none)
    | .gt =>
      match orInsertGo g c r k v with
      | (_, some old) => (node l r lv k' v' a, some old)
      | (r2, none) => (bottomUp g (split g (skew g (node l r2 lv k' v' a))), none)

/-- `OccupiedEntry::remove` reached through `Map::entry` (map.rs:211;
node/mod.rs:498): the entry traversal is the same `Find` descent; at a
present key the removal replays exactly like `Map::remove`; a vacant
entry is simply dropped, leaving the tree untouched. -/
def entryRemove (g : AugOps A) (c : K → K → Ordering) :
    Tree K V A → K → Tree K V A × Option (K × V)
  | nil, _ => (nil, none)
  | node l r lv k' v' a, k =>
    match c k k' with
    | .eq => removeHere g (node l r lv k' v' a)
    | .lt =>
      match entryRemove g c l k with
      | (_, none) => (node l r lv k' v' a, none)
      | (l2, some rep) => (rebalance g (node l2 r lv k' v' a), some rep)
    | .gt =>
      match entryRemove g c r k with
      | (_, none) => (node l r lv k' v' a, none)
      | (r2, some rep) => (rebalance g (node l r2 lv k' v' a), some rep)

end Tree

open Tree in
/-- `Map` (map.rs:25): the root link and the entry count.  The comparator
is passed to the operations explicitly. -/
structure Map (K V A : Type) where
  root : Tree K V A
  len : Nat
  deriving DecidableEq

namespace Map

variable {K V A : Type}

open Tree

def empty : Map K V A := ⟨.nil, 0⟩

/-- `Map::insert` (map.rs:161). -/
def insert (g : AugOps A) (c : K → K → Ordering) (m : Map K V A) (k : K) (v : V) :
    Map K V A × Option V :=
  let p := Tree.insert g c m.root k v
  (⟨p.1, if p.2.isNone then m.len + 1 else m.len⟩, p.2)

/-- `Map::remove` (map.rs:187). -/
def remove (g : AugOps A) (c : K → K → Ordering) (m : Map K V A) (k : K) :
    Map K V A × Option (K × V) :=
  let p := Tree.removeGo g c m.root k
  (⟨p.1, if p.2.isSome then m.len - 1 else m.len⟩, p.2)

/-- `Map::get` (map.rs:241). -/
def get (c : K → K → Ordering) (m : Map K V A) (k : K) : Option V :=
  (Tree.find c m.root k).map Prod.snd

/-- `Map::remove_min` (map.rs:398). -/
def removeMin (g : AugOps A) (m : Map K V A) : Map K V A × Option (K × V) :=
  let p := Tree.removeMinLink g m.root
  (⟨p.1, if p.2.isSome then m.len - 1 else m.len⟩, p.2)

/-- `Map::remove_max` (map.rs:328). -/
def removeMax (g : AugOps A) (m : Map K V A) : Map K V A × Option (K × V) :=
  let p := Tree.removeMaxLink g m.root
  (⟨p.1, if p.2.isSome then m.len - 1 else m.len⟩, p.2)

/-- `Map::remove_pred` (map.rs:502). -/
def removePred (g : AugOps A) (c : K → K → Ordering) (m : Map K V A) (k : K)
    (inc : Bool) : Map K V A × Option (K × V) :=
  let p := Tree.removeNeighbor g c true m.root k inc
  (⟨p.1, if p.2.isSome then m.len - 1 else m.len⟩, p.2)

/-- `Map::remove_succ` (map.rs:618). -/
def removeSucc (g : AugOps A) (c : K → K → Ordering) (m : Map K V A) (k : K)
    (inc : Bool) : Map K V A × Option (K × V) :=
  let p := Tree.removeNeighbor g c false m.root k inc
  (⟨p.1, if p.2.isSome then m.len - 1 else m.len⟩, p.2)

/-- `Map::pred` (map.rs:439). -/
def pred (c : K → K → Ordering) (m : Map K V A) (k : K) (inc : Bool) :
    Option (K × V) :=
  Tree.closest true c m.root k inc none

/-- `Map::succ` (map.rs:555). -/
def succ (c : K → K → Ordering) (m : Map K V A) (k : K) (inc : Bool) :
    Option (K × V) :=
  Tree.closest false c m.root k inc none

/-- `map.entry(k).or_insert(v)` (map.rs:1138): returns the updated map and
the value the returned mutable reference denotes.  `VacantEntry::insert`
increments the length (node/mod.rs:516). -/
def entryOrInsert (g : AugOps A) (c : K → K → Ordering) (m : Map K V A)
    (k : K) (v : V) : Map K V A × V :=
  match Tree.orInsertGo g c m.root k v with
  | (t2, some old) => (⟨t2, m.len⟩, old)
  | (t2, none) => (⟨t2, m.len + 1⟩, v)

/-- Entry-based removal: `Map::entry` then `OccupiedEntry::remove`
(node/mod.rs:498), a no-op on a vacant entry. -/
def entryRemove (g : AugOps A) (c : K → K → Ordering) (m : Map K V A) (k : K) :
    Map K V A × Option (K × V) :=
  let p := Tree.entryRemove g c m.root k
  (⟨p.1, if p.2.isSome then m.len - 1 else m.len⟩, p.2)

end Map

/-- The laws of a caller-supplied three-way comparator implementing a
strict total order whose equivalence is equality (`compare::natural` and
any law-abiding `Ord`): exactness of `Equal`, transitivity, and the
`Less`/`Greater` flip. -/
structure TotalCmp {K : Type} (c : K → K → Ordering) : Prop where
  eq_iff : ∀ a b, c a b = .eq ↔ a = b
  lt_trans : ∀ a b d, c a b = .lt → c b d = .lt → c a d = .lt
  lt_swap : ∀ a b, c a b = .lt ↔ c b a = .gt

/-- The natural comparator of an ordered key type (`compare::natural`). -/
def ordCmp {K : Type} [LinearOrder K] (a b : K) : Ordering :=
  if a < b then .lt else if a = b then .eq else .gt

theorem ordCmp_total {K : Type} [LinearOrder K] : TotalCmp (ordCmp (K := K)) := by
  refine ⟨?_, ?_, ?_⟩
  · intro a b
    unfold ordCmp
    rcases lt_trichotomy a b with h | h | h
    · simp only [if_pos h]
      constructor
      · intro hx; exact absurd hx (by simp)
      · intro hx; exact absurd (hx ▸ h) (lt_irrefl b)
    · subst h; simp
    · rw [if_neg (not_lt_of_gt h), if_neg (ne_of_gt h)]
      constructor
      · intro hx; exact absurd hx (by simp)
      · intro hx; exact absurd (hx ▸ h) (lt_irrefl b)
  · intro a b d hab hbd
    unfold ordCmp at *
    have h1 : a < b := by
      by_contra h
      rw [if_neg h] at hab
      split at hab <;> exact Ordering.noConfusion hab
    have h2 : b < d := by
      by_contra h
      rw [if_neg h] at hbd
      split at hbd <;> exact Ordering.noConfusion hbd
    rw [if_pos (h1.trans h2)]
  · intro a b
    unfold ordCmp
    rcases lt_trichotomy a b with h | h | h
    · rw [if_pos h, if_neg (not_lt_of_gt h), if_neg (ne_of_gt h)]
      simp
    · subst h; simp
    · rw [if_neg (not_lt_of_gt h), if_neg (ne_of_gt h), if_pos h]
      simp

namespace TotalCmp

variable {K : Type} {c : K → K → Ordering}

theorem eq_self (hc : TotalCmp c) (a : K) : c a a = .eq := (hc.eq_iff a a).2 rfl

theorem gt_swap (hc : TotalCmp c) (a b : K) : c a b = .gt ↔ c b a = .lt :=
  (hc.lt_swap b a).symm

theorem lt_ne (hc : TotalCmp c) {a b : K} (h : c a b = .lt) : a ≠ b := by
  intro he; subst he; rw [hc.eq_self] at h; exact Ordering.noConfusion h

theorem gt_ne (hc : TotalCmp c) {a b : K} (h : c a b = .gt) : a ≠ b := by
  intro he; subst he; rw [hc.eq_self] at h; exact Ordering.noConfusion h

theorem lt_asymm (hc : TotalCmp c) {a b : K} (h : c a b = .lt) :
    c b a ≠ .lt := by
  intro h2
  have h3 := hc.lt_trans a b a h h2
  exact hc.lt_ne h3 rfl

theorem lt_or_gt_of_ne (hc : TotalCmp c) {a b : K} (h : a ≠ b) :
    c a b = .lt ∨ c a b = .gt := by
  cases hcc : c a b
  · exact Or.inl rfl
  · exact absurd ((hc.eq_iff a b).1 hcc) h
  · exact Or.inr rfl

end TotalCmp

namespace Tree

variable {K V A : Type}

/-- Strictly-increasing key order of an entry list, the in-order
invariant of the map. -/
def ordered (c : K → K → Ordering) (l : List (K × V)) : Prop :=
  l.Pairwise (fun x y => c x.1 y.1 = .lt)

/-- A search tree: its in-order entry list is strictly increasing under
the comparator. -/
def srtd (c : K → K → Ordering) (t : Tree K V A) : Prop :=
  ordered c (inorder t)

instance (c : K → K → Ordering) (l : List (K × V)) : Decidable (ordered c l) :=
  List.instDecidablePairwise l

instance (c : K → K → Ordering) [DecidableEq K] (t : Tree K V A) :
    Decidable (srtd c t) := by unfold srtd; infer_instance

end Tree

section Sanity

open Tree

private def m0 : Map Nat String Unit := Map.empty
private def m3 : Map Nat String Unit :=
  (Map.insert unitAug ordCmp
    ((Map.insert unitAug ordCmp
      ((Map.insert unitAug ordCmp m0 2 "b").1) 1 "a").1) 3 "c").1

example : inorder m3.root = [(1, "a"), (2, "b"), (3, "c")] := by decide
example : m3.len = 3 := by decide
example : Map.get ordCmp m3 1 = some "a" := by decide
example : Map.pred ordCmp m3 2 false = some (1, "a") := by decide
example : Map.pred ordCmp m3 2 true = some (2, "b") := by decide
example : Map.pred ordCmp m3 1 false = none := by decide
example : Map.pred ordCmp m3 4 true = some (3, "c") := by decide
example : Map.succ ordCmp m3 3 false = none := by decide
example : Map.succ ordCmp m3 0 false = some (1, "a") := by decide
example : Map.succ ordCmp m3 1 true = some (1, "a") := by decide
example : (Map.remove unitAug ordCmp m3 1).2 = some (1, "a") := by decide
example : inorder (Map.remove unitAug ordCmp m3 2).1.root = [(1, "a"), (3, "c")] := by decide
example : (Map.remove unitAug ordCmp m3 1).1.len = 2 := by decide
example : (Map.removeMin unitAug m3).2 = some (1, "a") := by decide
example : (Map.removeMax unitAug m3).2 = some (3, "c") := by decide

private def s3 : Map Nat Unit Nat :=
  (Map.insert rankAug ordCmp
    ((Map.insert rankAug ordCmp
      ((Map.insert rankAug ordCmp (Map.empty) 2 ()).1) 1 ()).1) 3 ()).1

example : select s3.root 0 = some (1, ()) := by decide
example : select s3.root 1 = some (2, ()) := by decide
example : select s3.root 2 = some (3, ()) := by decide
example : select s3.root 3 = none := by decide
example : rankOf ordCmp s3.root 2 0 = .ok 1 := by decide

end Sanity

namespace Tree

variable {K V A : Type}

/-- The AA-tree level invariant (spec §3 items 2–3, checked by
`assert_andersson_tree` in node/test.rs): an empty link has level 0; a
node's left child sits exactly one level below it, its right child at the
same level or one below, and a right-horizontal child's own right child
sits strictly below (no two consecutive right-horizontal links). -/
def aa : Tree K V A → Prop
  | nil => True
  | node l r lv _ _ _ =>
    aa l ∧ aa r ∧ lv = lvl l + 1 ∧ (lvl r = lv ∨ lvl r + 1 = lv) ∧
      (lvl r = lv → lvl (rightOf r) + 1 = lv)

instance : ∀ t : Tree K V A, Decidable (aa t)
  | nil => .isTrue trivial
  | node l r _ _ _ _ =>
    have := instDecidableAa l
    have := instDecidableAa r
    by unfold aa; infer_instance

/-- A tree whose root is not the left end of a right-horizontal link:
its right child sits strictly below it.  (The empty tree is not `sngl`.) -/
def sngl : Tree K V A → Prop
  | nil => False
  | node _ r lv _ _ _ => lvl r < lv

instance : ∀ t : Tree K V A, Decidable (sngl t)
  | nil => .isFalse id
  | node _ _ _ _ _ _ => by unfold sngl; infer_instance

/-- Every node's augment in a `Rank`-augmented (order-statistics) tree is
its subtree size (spec §3 item 5, §4.6). -/
def sizeAug : Tree K V Nat → Prop
  | nil => True
  | node l r _ _ _ a => sizeAug l ∧ sizeAug r ∧ a = 1 + sz l + sz r

instance : ∀ t : Tree K V Nat, Decidable (sizeAug t)
  | nil => .isTrue trivial
  | node l r _ _ _ _ =>
    have := instDecidableSizeAug l
    have := instDecidableSizeAug r
    by unfold sizeAug; infer_instance

end Tree

section Sanity2

open Tree

private def m46 : Map Nat Unit Unit :=
  (Map.insert unitAug ordCmp
    ((Map.insert unitAug ordCmp (Map.empty) 4 ()).1) 6 ()).1

private def m465 : Map Nat Unit Unit := (Map.insert unitAug ordCmp m46 5 ()).1

example : aa m465.root := by decide
example : lvl m465.root = 2 := by decide

private def r12 : Map Nat Unit Nat :=
  (Map.insert rankAug ordCmp
    ((Map.insert rankAug ordCmp (Map.empty) 1 ()).1) 2 ()).1

example : sizeAug r12.root := by decide
example : ¬ sizeAug (Map.remove rankAug ordCmp r12 1).1.root := by decide

end Sanity2

namespace Tree

variable {K V A : Type} {g : AugOps A} {c : K → K → Ordering}

@[simp] theorem inorder_nil : inorder (nil : Tree K V A) = [] := rfl

@[simp] theorem inorder_node (l r : Tree K V A) (lv k v a) :
    inorder (node l r lv k v a) = inorder l ++ (k, v) :: inorder r := rfl

@[simp] theorem bottomUp_nil : bottomUp g (nil : Tree K V A) = nil := rfl

@[simp] theorem bottomUp_node (l r : Tree K V A) (lv k v a) :
    bottomUp g (node l r lv k v a) =
      node l r lv k v (g.abu (aug? l) (aug? r)) := rfl

@[simp] theorem inorder_bottomUp (t : Tree K V A) :
    inorder (bottomUp g t) = inorder t := by
  cases t <;> simp [bottomUp]

@[simp] theorem inorder_setLvl (t : Tree K V A) (n : Nat) :
    inorder (setLvl t n) = inorder t := by
  cases t <;> simp [setLvl]

@[simp] theorem inorder_skew (t : Tree K V A) :
    inorder (skew g t) = inorder t := by
  cases t with
  | nil => rfl
  | node l r lv k v a =>
    cases l with
    | nil => rfl
    | node ll lr llv lk lv2 la =>
      simp only [skew]
      split <;> simp

@[simp] theorem inorder_split (t : Tree K V A) :
    inorder (split g t) = inorder t := by
  cases t with
  | nil => rfl
  | node l r lv k v a =>
    cases r with
    | nil => rfl
    | node rl rr rlv rk rv2 ra =>
      simp only [split]
      split <;> simp

theorem inorder_onRight (f : Tree K V A → Tree K V A)
    (hf : ∀ u : Tree K V A, inorder (f u) = inorder u) (t : Tree K V A) :
    inorder (onRight f t) = inorder t := by
  cases t <;> simp [onRight, hf]

@[simp] theorem inorder_rebalance (t : Tree K V A) :
    inorder (rebalance g t) = inorder t := by
  cases t with
  | nil => rfl
  | node l r lv k v a =>
    simp only [rebalance]
    split
    · simp only [inorder_split,
        inorder_onRight _ (fun u => inorder_split (g := g) u),
        inorder_onRight _ (fun u => inorder_skew (g := g) u),
        inorder_onRight _ (fun u =>
          inorder_onRight _ (fun w => inorder_skew (g := g) w) u),
        inorder_skew]
      split <;> simp
    · rfl

/-- The effect of `insert` on a sorted association list: prepend before
the first greater key, or replace the value (keeping the stored key) at
an equal one. -/
def listIns (c : K → K → Ordering) (k : K) (v : V) :
    List (K × V) → List (K × V)
  | [] => [(k, v)]
  | x :: xs =>
    match c k x.1 with
    | .lt => (k, v) :: x :: xs
    | .eq => (x.1, v) :: xs
    | .gt => x :: listIns c k v xs

theorem listIns_append_ge {k : K} {v : V} {l1 l2 : List (K × V)}
    (h : ∀ x ∈ l1, c k x.1 = .gt) :
    listIns c k v (l1 ++ l2) = l1 ++ listIns c k v l2 := by
  induction l1 with
  | nil => rfl
  | cons x xs ih =>
    have hx : c k x.1 = .gt := h x (by simp)
    simp only [List.cons_append, listIns, hx]
    simp [ih (fun y hy => h y (by simp [hy]))]

theorem listIns_append_lt {k k' : K} {v v' : V} {l1 l2 : List (K × V)}
    (h : c k k' = .lt) :
    listIns c k v (l1 ++ (k', v') :: l2) =
      listIns c k v l1 ++ (k', v') :: l2 := by
  induction l1 with
  | nil => simp [listIns, h]
  | cons x xs ih =>
    simp only [List.cons_append, listIns]
    cases hx : c k x.1 <;> simp [ih]

/-- `insert` returns exactly what `find` sees: the previous value at the
key, if any.  No ordering assumption is needed: both walk the same
comparison path. -/
theorem insert_ret (t : Tree K V A) (k : K) (v : V) :
    (insert g c t k v).2 = (find c t k).map Prod.snd := by
  induction t with
  | nil => rfl
  | node l r lv k' v' a ihl ihr =>
    simp only [insert, find]
    cases c k k' <;> simp [ihl, ihr]

theorem find_some (t : Tree K V A) (k : K) {e : K × V}
    (h : find c t k = some e) : e ∈ inorder t ∧ c k e.1 = .eq := by
  induction t with
  | nil => exact absurd h (by simp [find])
  | node l r lv k' v' a ihl ihr =>
    simp only [find] at h
    cases hc : c k k' <;> rw [hc] at h
    · rcases ihl h with ⟨h1, h2⟩
      exact ⟨by simp [h1], h2⟩
    · cases h
      exact ⟨by simp, hc⟩
    · rcases ihr h with ⟨h1, h2⟩
      exact ⟨by simp [h1], h2⟩

theorem find_eq_none_of_absent (hc : TotalCmp c) (t : Tree K V A) (k : K)
    (h : k ∉ keyList t) : find c t k = none := by
  cases hf : find c t k with
  | none => rfl
  | some e =>
    rcases find_some t k hf with ⟨h1, h2⟩
    have : k = e.1 := (hc.eq_iff k e.1).1 h2
    exact absurd (this ▸ List.mem_map_of_mem Prod.fst h1) h

theorem ordered_node_split {l r : Tree K V A} {lv k v a}
    (h : srtd c (node l r lv k v a)) :
    srtd c l ∧ srtd c r ∧ (∀ x ∈ inorder l, c x.1 k = .lt) ∧
      (∀ y ∈ inorder r, c k y.1 = .lt) := by
  unfold srtd ordered at h
  rw [inorder_node, List.pairwise_append] at h
  rcases h with ⟨h1, h2, h3⟩
  rw [List.pairwise_cons] at h2
  refine ⟨h1, h2.2, ?_, h2.1⟩
  intro x hx
  exact h3 x hx (k, v) (by simp)

/-- On a sorted tree, `find` locates any present binding. -/
theorem find_of_mem (hc : TotalCmp c) {t : Tree K V A} (hs : srtd c t)
    {k : K} {v : V} (h : (k, v) ∈ inorder t) : find c t k = some (k, v) := by
  induction t with
  | nil => simp at h
  | node l r lv k' v' a ihl ihr =>
    rcases ordered_node_split hs with ⟨hsl, hsr, hkl, hkr⟩
    simp only [inorder_node, List.mem_append, List.mem_cons] at h
    simp only [find]
    rcases h with h | h | h
    · have hlt : c k k' = .lt := hkl (k, v) h
      rw [hlt]; exact ihl hsl h
    · cases h
      rw [hc.eq_self k]
    · have hgt : c k k' = .gt := (hc.gt_swap k k').2 (hkr (k, v) h)
      rw [hgt]; exact ihr hsr h

theorem all_gt_of_left (hc : TotalCmp c) {l : List (K × V)} {k k' : K}
    (hkl : ∀ x ∈ l, c x.1 k' = .lt) (h : c k k' = .gt) :
    ∀ x ∈ l, c k x.1 = .gt := by
  intro x hx
  have h1 : c x.1 k' = .lt := hkl x hx
  have h2 : c k' k = .lt := (hc.gt_swap k k').1 h
  exact (hc.gt_swap k x.1).2 (hc.lt_trans x.1 k' k h1 h2)

/-- The in-order effect of `insert` on a sorted tree is `listIns`. -/
theorem inorder_insert (hc : TotalCmp c) {t : Tree K V A} (hs : srtd c t)
    (k : K) (v : V) :
    inorder (insert g c t k v).1 = listIns c k v (inorder t) := by
  induction t with
  | nil => rfl
  | node l r lv k' v' a ihl ihr =>
    rcases ordered_node_split hs with ⟨hsl, hsr, hkl, hkr⟩
    simp only [insert]
    cases hcc : c k k'
    · simp only [inorder_bottomUp, inorder_split, inorder_skew, inorder_node]
      rw [ihl hsl, listIns_append_lt hcc]
    · have hk : k = k' := (hc.eq_iff k k').1 hcc
      have hge : ∀ x ∈ inorder l, c k x.1 = .gt := by
        intro x hx
        have h1 : c x.1 k' = .lt := hkl x hx
        rw [hk]
        exact (hc.gt_swap k' x.1).2 h1
      simp only [inorder_node]
      rw [listIns_append_ge hge]
      simp [listIns, hcc]
    · have hge : ∀ x ∈ inorder l, c k x.1 = .gt := all_gt_of_left hc hkl hcc
      simp only [inorder_bottomUp, inorder_split, inorder_skew, inorder_node]
      have hge2 : ∀ x ∈ inorder l ++ [(k', v')], c k x.1 = .gt := by
        intro x hx
        rcases List.mem_append.1 hx with h | h
        · exact hge x h
        · simp at h
          rw [h]
          exact hcc
      rw [ihr hsr,
        show inorder l ++ (k', v') :: inorder r =
          (inorder l ++ [(k', v')]) ++ inorder r by simp,
        listIns_append_ge hge2]
      simp

theorem listIns_keys (hc : TotalCmp c) (k : K) (v : V) (l : List (K × V)) :
    ∀ y ∈ listIns c k v l, y.1 = k ∨ y.1 ∈ l.map Prod.fst := by
  induction l with
  | nil => intro y hy; simp [listIns] at hy; simp [hy]
  | cons x xs ih =>
    intro y hy
    simp only [listIns] at hy
    cases hcc : c k x.1 <;> rw [hcc] at hy <;>
      simp only [List.mem_cons] at hy
    · rcases hy with h | h | h
      · exact Or.inl (by rw [h])
      · exact Or.inr (by rw [h]; exact List.mem_map_of_mem Prod.fst (List.mem_cons_self x xs))
      · exact Or.inr (List.mem_map_of_mem Prod.fst (List.mem_cons_of_mem x h))
    · rcases hy with h | h
      · refine Or.inr ?_
        rw [h]
        show x.1 ∈ _
        exact List.mem_map_of_mem Prod.fst (List.mem_cons_self x xs)
      · exact Or.inr (List.mem_map_of_mem Prod.fst (List.mem_cons_of_mem x h))
    · rcases hy with h | h
      · exact Or.inr (by rw [h]; exact List.mem_map_of_mem Prod.fst (List.mem_cons_self x xs))
      · rcases ih y h with h2 | h2
        · exact Or.inl h2
        · rcases List.mem_map.1 h2 with ⟨z, hz, hzy⟩
          exact Or.inr (hzy ▸ List.mem_map_of_mem Prod.fst (List.mem_cons_of_mem x hz))

/-- `listIns` preserves strict ordering. -/
theorem listIns_ordered (hc : TotalCmp c) {l : List (K × V)}
    (hs : ordered c l) (k : K) (v : V) : ordered c (listIns c k v l) := by
  induction l with
  | nil => simp [listIns, ordered]
  | cons x xs ih =>
    rw [ordered, List.pairwise_cons] at hs
    rcases hs with ⟨hx, hxs⟩
    simp only [listIns]
    cases hcc : c k x.1
    · rw [ordered, List.pairwise_cons]
      constructor
      · intro y hy
        rcases List.mem_cons.1 hy with h | h
        · rw [h]; exact hcc
        · exact hc.lt_trans k x.1 y.1 hcc (hx y h)
      · rw [ordered, List.pairwise_cons] at *
        exact ⟨hx, hxs⟩
    · rw [ordered, List.pairwise_cons]
      exact ⟨hx, hxs⟩
    · rw [ordered, List.pairwise_cons]
      constructor
      · intro y hy
        rcases listIns_keys hc k v xs y hy with h | h
        · rw [h]
          exact (hc.gt_swap k x.1).1 hcc
        · rcases List.mem_map.1 h with ⟨z, hz, hzy⟩
          rw [← hzy]
          exact hx z hz
      · exact ih hxs

/-- Insertion into a sorted tree keeps it sorted. -/
theorem srtd_insert (hc : TotalCmp c) {t : Tree K V A} (hs : srtd c t)
    (k : K) (v : V) : srtd c (insert g c t k v).1 := by
  unfold srtd
  rw [inorder_insert hc hs k v]
  exact listIns_ordered hc hs k v

theorem mem_listIns_self (hc : TotalCmp c) (k : K) (v : V)
    (l : List (K × V)) : (k, v) ∈ listIns c k v l := by
  induction l with
  | nil => simp [listIns]
  | cons x xs ih =>
    simp only [listIns]
    cases hcc : c k x.1
    · simp
    · have : k = x.1 := (hc.eq_iff k x.1).1 hcc
      simp [this]
    · simp [ih]

/-- A node's left-horizontal condition failing makes `skew` the
identity. -/
theorem skew_eq_self {l r : Tree K V A} {lv k v a} (h : lvl l ≠ lv) :
    skew g (node l r lv k v a) = node l r lv k v a := by
  cases l with
  | nil => rfl
  | node ll lr llv lk lv2 la =>
    simp only [skew]
    rw [if_neg (by simpa [lvl] using h)]

/-- A node's double-right-horizontal condition failing makes `split` the
identity. -/
theorem split_eq_self {l r : Tree K V A} {lv k v a}
    (h : lvl (rightOf r) ≠ lv) :
    split g (node l r lv k v a) = node l r lv k v a := by
  cases r with
  | nil => rfl
  | node rl rr rlv rk rv2 ra =>
    simp only [split]
    rw [if_neg (by simpa [rightOf] using h)]

theorem aa_lvl_pos {l r : Tree K V A} {lv k v a}
    (h : aa (node l r lv k v a)) : 1 ≤ lv := by
  rcases h with ⟨_, _, h3, _, _⟩
  omega

/-- Replace only the value stored at the (comparator-)equal key, leaving
keys, levels, structure and augments alone. -/
def updateValue (c : K → K → Ordering) : Tree K V A → K → V → Tree K V A
  | nil, _, _ => nil
  | node l r lv k' v' a, k, v =>
    match c k k' with
    | .eq => node l r lv k' v a
    | .lt => node (updateValue c l k v) r lv k' v' a
    | .gt => node l (updateValue c r k v) lv k' v' a

@[simp] theorem lvl_updateValue (t : Tree K V A) (k : K) (v : V) :
    lvl (updateValue c t k v) = lvl t := by
  cases t with
  | nil => rfl
  | node l r lv k' v' a => simp only [updateValue]; cases c k k' <;> rfl

@[simp] theorem keyList_updateValue (t : Tree K V A) (k : K) (v : V) :
    keyList (updateValue c t k v) = keyList t := by
  induction t with
  | nil => rfl
  | node l r lv k' v' a ihl ihr =>
    simp only [updateValue]
    cases c k k' <;> simp [keyList] at * <;> simp [ihl, ihr]

/-- On an AA-invariant plain-map tree, re-inserting a key the comparator
finds present replaces only that node's value: every ancestor's `skew`,
`split` and `bottom_up` are no-ops. -/
theorem insert_found_updates (c : K → K → Ordering) {t : Tree K V Unit}
    (ha : aa t) {k : K} {v1 : V} (hf : ∃ k1, find c t k = some (k1, v1))
    (v : V) :
    insert unitAug c t k v = (updateValue c t k v, some v1) := by
  induction t with
  | nil => simp [find] at hf
  | node l r lv k' v' a ihl ihr =>
    rcases ha with ⟨hal, har, h3, h4, h5⟩
    simp only [find] at hf
    simp only [insert, updateValue]
    cases hcc : c k k' <;> rw [hcc] at hf
    · have hl := ihl hal hf
      rw [hl]
      have h6 : lvl (updateValue c l k v) ≠ lv := by
        rw [lvl_updateValue]; omega
      rw [skew_eq_self h6]
      have h7 : lvl (rightOf r) ≠ lv := by
        rcases h4 with h4 | h4
        · have := h5 h4; omega
        · cases r with
          | nil => simp [rightOf, lvl]; omega
          | node rl rr rlv rk rv2 ra =>
            rcases har with ⟨_, _, _, hr4, _⟩
            simp only [rightOf, lvl] at *
            omega
      rw [split_eq_self h7]
      simp [bottomUp, unitAug]
    · rcases hf with ⟨k1, hk1⟩
      cases hk1
      rfl
    · have hr := ihr har hf
      rw [hr]
      have h6 : lvl l ≠ lv := by omega
      rw [skew_eq_self h6]
      have h7 : lvl (rightOf (updateValue c r k v)) ≠ lv := by
        have hrr : lvl (rightOf (updateValue c r k v)) = lvl (rightOf r) := by
          cases r with
          | nil => rfl
          | node rl rr rlv rk rv2 ra =>
            simp only [updateValue]
            cases c k rk <;> simp [rightOf, lvl_updateValue]
        rw [hrr]
        rcases h4 with h4 | h4
        · have := h5 h4; omega
        · cases r with
          | nil => simp only [rightOf, lvl]; omega
          | node rl rr rlv rk rv2 ra =>
            obtain ⟨_, _, _, hr4, _⟩ := har
            simp only [rightOf, lvl] at *
            omega
      rw [split_eq_self h7]
      simp [bottomUp, unitAug]

@[simp] theorem inorder_ne_nil {l r : Tree K V A} {lv k v a} :
    inorder (node l r lv k v a) ≠ [] := by
  simp

/-- Removing the maximum removes exactly the last in-order entry,
whatever the shape of the tree. -/
theorem removeMaxLink_spec :
    ∀ (t : Tree K V A), t ≠ nil → ∃ e, (removeMaxLink g t).2 = some e ∧
      inorder t = inorder (removeMaxLink g t).1 ++ [e]
  | nil, h => absurd rfl h
  | node l (node rl rr rlv rk rv2 ra) lv k v a, _ => by
    rcases removeMaxLink_spec (node rl rr rlv rk rv2 ra) (by simp) with
      ⟨e, he1, he2⟩
    have hstep : removeMaxLink g (node l (node rl rr rlv rk rv2 ra) lv k v a) =
        (rebalance g (node l (removeMaxLink g (node rl rr rlv rk rv2 ra)).1 lv k v a),
         (removeMaxLink g (node rl rr rlv rk rv2 ra)).2) := rfl
    refine ⟨e, ?_, ?_⟩
    · rw [hstep]; exact he1
    · rw [hstep]
      show inorder (node l (node rl rr rlv rk rv2 ra) lv k v a) =
        inorder (rebalance g
          (node l (removeMaxLink g (node rl rr rlv rk rv2 ra)).1 lv k v a)) ++ [e]
      rw [inorder_node l (node rl rr rlv rk rv2 ra), he2, inorder_rebalance,
        inorder_node]
      simp
  | node l nil lv k v a, _ => by
    cases l with
    | nil => exact ⟨(k, v), rfl, rfl⟩
    | node ll lr llv lk lv2 la =>
      rcases removeMaxLink_spec (node ll lr llv lk lv2 la) (by simp) with
        ⟨e, he1, he2⟩
      have hfull : removeMaxLink g (node ll lr llv lk lv2 la) =
          ((removeMaxLink g (node ll lr llv lk lv2 la)).1, some e) :=
        Prod.ext rfl he1
      have hstep : removeMaxLink g (node (node ll lr llv lk lv2 la) nil lv k v a) =
          (rebalance g (node (removeMaxLink g (node ll lr llv lk lv2 la)).1
            nil lv e.1 e.2 a), some (k, v)) := by
        conv_lhs => rw [show removeMaxLink g
          (node (node ll lr llv lk lv2 la) nil lv k v a) =
            (match removeMaxLink g (node ll lr llv lk lv2 la) with
              | (l2, some rep) =>
                (rebalance g (node l2 nil lv rep.1 rep.2 a), some (k, v))
              | (_, none) => (nil, some (k, v))) from rfl, hfull]
      refine ⟨(k, v), ?_, ?_⟩
      · rw [hstep]
      · rw [hstep]
        show inorder (node (node ll lr llv lk lv2 la) nil lv k v a) =
          inorder (rebalance g (node (removeMaxLink g
            (node ll lr llv lk lv2 la)).1 nil lv e.1 e.2 a)) ++ [(k, v)]
        rw [inorder_node (node ll lr llv lk lv2 la) nil, he2, inorder_rebalance,
          inorder_node]
        simp

/-- Removing the minimum removes exactly the first in-order entry. -/
theorem removeMinLink_spec :
    ∀ (t : Tree K V A), t ≠ nil → ∃ e, (removeMinLink g t).2 = some e ∧
      inorder t = e :: inorder (removeMinLink g t).1
  | nil, h => absurd rfl h
  | node (node ll lr llv lk lv2 la) r lv k v a, _ => by
    rcases removeMinLink_spec (node ll lr llv lk lv2 la) (by simp) with
      ⟨e, he1, he2⟩
    have hstep : removeMinLink g (node (node ll lr llv lk lv2 la) r lv k v a) =
        (rebalance g (node (removeMinLink g (node ll lr llv lk lv2 la)).1 r lv k v a),
         (removeMinLink g (node ll lr llv lk lv2 la)).2) := rfl
    refine ⟨e, ?_, ?_⟩
    · rw [hstep]; exact he1
    · rw [hstep]
      show inorder (node (node ll lr llv lk lv2 la) r lv k v a) =
        e :: inorder (rebalance g
          (node (removeMinLink g (node ll lr llv lk lv2 la)).1 r lv k v a))
      rw [inorder_node (node ll lr llv lk lv2 la) r, he2, inorder_rebalance,
        inorder_node]
      simp
  | node nil r lv k v a, _ => by
    cases r with
    | nil => exact ⟨(k, v), rfl, rfl⟩
    | node rl rr rlv rk rv2 ra =>
      rcases removeMinLink_spec (node rl rr rlv rk rv2 ra) (by simp) with
        ⟨e, he1, he2⟩
      have hfull : removeMinLink g (node rl rr rlv rk rv2 ra) =
          ((removeMinLink g (node rl rr rlv rk rv2 ra)).1, some e) :=
        Prod.ext rfl he1
      have hstep : removeMinLink g (node nil (node rl rr rlv rk rv2 ra) lv k v a) =
          (rebalance g (node nil (removeMinLink g (node rl rr rlv rk rv2 ra)).1
            lv e.1 e.2 a), some (k, v)) := by
        conv_lhs => rw [show removeMinLink g
          (node nil (node rl rr rlv rk rv2 ra) lv k v a) =
            (match removeMinLink g (node rl rr rlv rk rv2 ra) with
              | (r2, some rep) =>
                (rebalance g (node nil r2 lv rep.1 rep.2 a), some (k, v))
              | (_, none) => (nil, some (k, v))) from rfl, hfull]
      refine ⟨(k, v), ?_, ?_⟩
      · rw [hstep]
      · rw [hstep]
        show inorder (node nil (node rl rr rlv rk rv2 ra) lv k v a) =
          (k, v) :: inorder (rebalance g (node nil (removeMinLink g
            (node rl rr rlv rk rv2 ra)).1 lv e.1 e.2 a))
        rw [inorder_node nil (node rl rr rlv rk rv2 ra), he2, inorder_rebalance,
          inorder_node]
        simp

/-- `Path::remove_` at an occupied link removes exactly the node's own
entry from the in-order sequence. -/
theorem removeHere_spec (l r : Tree K V A) (lv k v a) :
    (removeHere g (node l r lv k v a)).2 = some (k, v) ∧
      inorder (removeHere g (node l r lv k v a)).1 = inorder l ++ inorder r := by
  cases l with
  | node ll lr llv lk lv2 la =>
    rcases removeMaxLink_spec (g := g) (node ll lr llv lk lv2 la) (by simp) with
      ⟨e, he1, he2⟩
    have hfull : removeMaxLink g (node ll lr llv lk lv2 la) =
        ((removeMaxLink g (node ll lr llv lk lv2 la)).1, some e) :=
      Prod.ext rfl he1
    have hstep : removeHere g (node (node ll lr llv lk lv2 la) r lv k v a) =
        (rebalance g (node (removeMaxLink g (node ll lr llv lk lv2 la)).1
          r lv e.1 e.2 a), some (k, v)) := by
      conv_lhs => rw [show removeHere g
        (node (node ll lr llv lk lv2 la) r lv k v a) =
          (match removeMaxLink g (node ll lr llv lk lv2 la) with
            | (l2, some rep) =>
              (rebalance g (node l2 r lv rep.1 rep.2 a), some (k, v))
            | (_, none) => (nil, some (k, v))) from rfl, hfull]
    refine ⟨by rw [hstep], ?_⟩
    rw [hstep]
    show inorder (rebalance g (node (removeMaxLink g
      (node ll lr llv lk lv2 la)).1 r lv e.1 e.2 a)) =
        inorder (node ll lr llv lk lv2 la) ++ inorder r
    rw [inorder_rebalance,
      inorder_node (removeMaxLink g (node ll lr llv lk lv2 la)).1 r, he2]
    simp
  | nil =>
    cases r with
    | nil => exact ⟨rfl, rfl⟩
    | node rl rr rlv rk rv2 ra =>
      rcases removeMinLink_spec (g := g) (node rl rr rlv rk rv2 ra) (by simp) with
        ⟨e, he1, he2⟩
      have hfull : removeMinLink g (node rl rr rlv rk rv2 ra) =
          ((removeMinLink g (node rl rr rlv rk rv2 ra)).1, some e) :=
        Prod.ext rfl he1
      have hstep : removeHere g (node nil (node rl rr rlv rk rv2 ra) lv k v a) =
          (rebalance g (node nil (removeMinLink g (node rl rr rlv rk rv2 ra)).1
            lv e.1 e.2 a), some (k, v)) := by
        conv_lhs => rw [show removeHere g
          (node nil (node rl rr rlv rk rv2 ra) lv k v a) =
            (match removeMinLink g (node rl rr rlv rk rv2 ra) with
              | (r2, some rep) =>
                (rebalance g (node nil r2 lv rep.1 rep.2 a), some (k, v))
              | (_, none) => (nil, some (k, v))) from rfl, hfull]
      refine ⟨by rw [hstep], ?_⟩
      rw [hstep]
      show inorder (rebalance g (node nil (removeMinLink g
        (node rl rr rlv rk rv2 ra)).1 lv e.1 e.2 a)) =
          inorder (nil : Tree K V A) ++ inorder (node rl rr rlv rk rv2 ra)
      rw [inorder_rebalance,
        inorder_node nil (removeMinLink g (node rl rr rlv rk rv2 ra)).1, he2]

/-- Removing an absent key leaves the in-order sequence untouched and
returns nothing. -/
theorem removeGo_absent (hc : TotalCmp c) {t : Tree K V A} {k : K}
    (habs : k ∉ keyList t) :
    (removeGo g c t k).2 = none ∧
      inorder (removeGo g c t k).1 = inorder t := by
  induction t with
  | nil => exact ⟨rfl, rfl⟩
  | node l r lv k' v' a ihl ihr =>
    simp only [keyList, inorder_node, List.map_append, List.map_cons,
      List.mem_append, List.mem_cons, not_or] at habs
    rcases habs with ⟨h1, h2, h3⟩
    simp only [removeGo]
    cases hcc : c k k'
    · rcases ihl (by simpa [keyList] using h1) with ⟨ih1, ih2⟩
      exact ⟨ih1, by simp [ih2]⟩
    · exact absurd ((hc.eq_iff k k').1 hcc) h2
    · rcases ihr (by simpa [keyList] using h3) with ⟨ih1, ih2⟩
      exact ⟨ih1, by simp [ih2]⟩

/-- Removing a present key removes exactly its entry from the in-order
sequence and returns the stored binding. -/
theorem removeGo_present (hc : TotalCmp c) {t : Tree K V A}
    (hs : srtd c t) {k : K} {v1 : V} (hmem : (k, v1) ∈ inorder t) :
    (removeGo g c t k).2 = some (k, v1) ∧
      ∃ l1 l2, inorder t = l1 ++ (k, v1) :: l2 ∧
        inorder (removeGo g c t k).1 = l1 ++ l2 := by
  induction t with
  | nil => simp at hmem
  | node l r lv k' v' a ihl ihr =>
    rcases ordered_node_split hs with ⟨hsl, hsr, hkl, hkr⟩
    simp only [inorder_node, List.mem_append, List.mem_cons] at hmem
    simp only [removeGo]
    rcases hmem with hm | hm | hm
    · have hlt : c k k' = .lt := hkl (k, v1) hm
      rw [hlt]
      rcases ihl hsl hm with ⟨ih1, L1, L2, ih2, ih3⟩
      refine ⟨ih1, L1, L2 ++ (k', v') :: inorder r, ?_, ?_⟩
      · simp [ih2]
      · simp [ih3]
    · obtain ⟨hk, hv⟩ := Prod.mk.injEq .. ▸ hm
      subst hk; subst hv
      rw [hc.eq_self k]
      rcases removeHere_spec (g := g) l r lv k v1 a with ⟨h1, h2⟩
      exact ⟨h1, inorder l, inorder r, by simp, h2⟩
    · have hgt : c k k' = .gt := (hc.gt_swap k k').2 (hkr (k, v1) hm)
      rw [hgt]
      rcases ihr hsr hm with ⟨ih1, L1, L2, ih2, ih3⟩
      refine ⟨ih1, inorder l ++ (k', v') :: L1, L2, ?_, ?_⟩
      · simp [ih2]
      · simp [ih3]

/-- Removal never enlarges the in-order sequence: the result is a
sublist, so sortedness and key ordering survive every removal. -/
theorem sublist_of_removeGo (hc : TotalCmp c) {t : Tree K V A}
    (hs : srtd c t) (k : K) :
    (inorder (removeGo g c t k).1).Sublist (inorder t) := by
  by_cases hm : k ∈ keyList t
  · rcases List.mem_map.1 hm with ⟨e, he, hke⟩
    obtain ⟨v1, rfl⟩ : ∃ v1, e = (k, v1) := ⟨e.2, by rw [← hke]⟩
    rcases removeGo_present hc hs he with ⟨_, l1, l2, h2, h3⟩
    rw [h2, h3]
    exact (List.sublist_cons_self (k, v1) l2).append_left l1
  · rw [(removeGo_absent hc hm).2]

/-- `or_insert` behaves exactly like `insert` when the key is absent:
the vacant-path replay is the insert recursion. -/
theorem orInsertGo_absent (hc : TotalCmp c) {t : Tree K V A} {k : K}
    (habs : k ∉ keyList t) (v : V) :
    orInsertGo g c t k v = insert g c t k v := by
  induction t with
  | nil => rfl
  | node l r lv k' v' a ihl ihr =>
    simp only [keyList, inorder_node, List.map_append, List.map_cons,
      List.mem_append, List.mem_cons, not_or] at habs
    rcases habs with ⟨h1, h2, h3⟩
    simp only [orInsertGo, insert]
    cases hcc : c k k'
    · rw [ihl (by simpa [keyList] using h1)]
      have hr : (insert g c l k v).2 = none := by
        rw [insert_ret, find_eq_none_of_absent hc l k
          (by simpa [keyList] using h1)]
        rfl
      rw [show insert g c l k v = ((insert g c l k v).1, none) from
        Prod.ext rfl hr]
    · exact absurd ((hc.eq_iff k k').1 hcc) h2
    · rw [ihr (by simpa [keyList] using h3)]
      have hr : (insert g c r k v).2 = none := by
        rw [insert_ret, find_eq_none_of_absent hc r k
          (by simpa [keyList] using h3)]
        rfl
      rw [show insert g c r k v = ((insert g c r k v).1, none) from
        Prod.ext rfl hr]

/-- `or_insert` leaves the tree untouched and returns the stored value
when the key is present. -/
theorem orInsertGo_present {t : Tree K V A} {k k1 : K} {v1 : V}
    (hf : find c t k = some (k1, v1)) (v : V) :
    orInsertGo g c t k v = (t, some v1) := by
  induction t with
  | nil => exact absurd hf (by simp [find])
  | node l r lv k' v' a ihl ihr =>
    simp only [find] at hf
    simp only [orInsertGo]
    cases hcc : c k k' <;> rw [hcc] at hf
    · rw [ihl hf]
    · cases hf; rfl
    · rw [ihr hf]

/-- `find` at the updated key sees the stored key with the new value. -/
theorem find_updateValue {t : Tree K V A} {k k1 : K} {v1 : V}
    (hf : find c t k = some (k1, v1)) (v : V) :
    find c (updateValue c t k v) k = some (k1, v) := by
  induction t with
  | nil => exact absurd hf (by simp [find])
  | node l r lv k' v' a ihl ihr =>
    simp only [find] at hf
    simp only [updateValue]
    cases hcc : c k k' <;> rw [hcc] at hf <;> simp only [find, hcc]
    · exact ihl hf
    · cases hf; rfl
    · exact ihr hf

/-- Keys, levels and structure of a tree, forgetting values and
augments. -/
def shape : Tree K V A → Tree K Unit Unit
  | nil => nil
  | node l r lv k _ _ => node (shape l) (shape r) lv k () ()

@[simp] theorem shape_updateValue (t : Tree K V A) (k : K) (v : V) :
    shape (updateValue c t k v) = shape t := by
  induction t with
  | nil => rfl
  | node l r lv k' v' a ihl ihr =>
    simp only [updateValue]
    cases c k k' <;> simp [shape, ihl, ihr]

end Tree

open Tree

/-- Claim C1: on a sorted map, inserting an absent key materializes a
fresh level-1 leaf at the empty link, returns `None` and grows `len()` by
one; re-inserting a present key returns the old value, leaves `len()`
alone, and a subsequent `get` sees the new value. -/
theorem claim_C1 {K V A : Type} (c : K → K → Ordering) (hc : TotalCmp c)
    (g : Tree.AugOps A) (m : Map K V A) (k : K) (v : V)
    (hs : srtd c m.root) :
    (k ∉ keyList m.root →
      Tree.insert g c nil k v = (node nil nil 1 k v g.anew, none) ∧
      (Map.insert g c m k v).2 = none ∧
      (Map.insert g c m k v).1.len = m.len + 1) ∧
    (∀ v1, (k, v1) ∈ inorder m.root →
      (Map.insert g c m k v).2 = some v1 ∧
      Map.get c (Map.insert g c m k v).1 k = some v ∧
      (Map.insert g c m k v).1.len = m.len) := by
  constructor
  · intro habs
    have h1 : (Tree.insert g c m.root k v).2 = none := by
      rw [insert_ret, find_eq_none_of_absent hc m.root k habs]
      rfl
    refine ⟨rfl, ?_, ?_⟩
    · simp [Map.insert, h1]
    · simp [Map.insert, h1]
  · intro v1 hmem
    have h1 : (Tree.insert g c m.root k v).2 = some v1 := by
      rw [insert_ret, find_of_mem hc hs hmem]
      rfl
    have h2 : (k, v) ∈ inorder (Tree.insert g c m.root k v).1 := by
      rw [inorder_insert hc hs k v]
      exact mem_listIns_self hc k v _
    refine ⟨by simp [Map.insert, h1], ?_, by simp [Map.insert, h1]⟩
    show (Tree.find c (Tree.insert g c m.root k v).1 k).map Prod.snd = some v
    rw [find_of_mem hc (srtd_insert hc hs k v) h2]
    rfl

private def wm : Map Nat Nat Unit :=
  (Map.insert unitAug ordCmp
    ((Map.insert unitAug ordCmp
      ((Map.insert unitAug ordCmp Map.empty 2 20).1) 1 10).1) 3 30).1

theorem claim_C1_witness :
    TotalCmp (ordCmp (K := Nat)) ∧ srtd ordCmp wm.root ∧
      ((Map.insert unitAug ordCmp wm 5 50).2 = none ∧
        (Map.insert unitAug ordCmp wm 5 50).1.len = wm.len + 1) ∧
      (Map.insert unitAug ordCmp wm 2 99).2 = some 20 :=
  ⟨ordCmp_total, by decide, by
    have h := claim_C1 ordCmp ordCmp_total unitAug wm 5 50 (by decide)
    rcases (h.1 (by decide)) with ⟨_, h2, h3⟩
    exact ⟨h2, h3⟩, by
    have h := claim_C1 ordCmp ordCmp_total unitAug wm 2 99 (by decide)
    exact (h.2 20 (by decide)).1⟩

/-- Claim C2: on a sorted map, `remove` of an absent key returns `None`
and changes nothing; `remove` of a present key returns the stored binding,
drops `len()` by one, and deletes exactly that entry from the in-order
sequence, leaving every other association untouched. -/
theorem claim_C2 {K V A : Type} (c : K → K → Ordering) (hc : TotalCmp c)
    (g : Tree.AugOps A) (m : Map K V A) (k : K) (hs : srtd c m.root) :
    (k ∉ keyList m.root →
      (Map.remove g c m k).2 = none ∧
      (Map.remove g c m k).1.len = m.len ∧
      inorder (Map.remove g c m k).1.root = inorder m.root) ∧
    (∀ v1, (k, v1) ∈ inorder m.root →
      (Map.remove g c m k).2 = some (k, v1) ∧
      (Map.remove g c m k).1.len = m.len - 1 ∧
      ∃ l1 l2, inorder m.root = l1 ++ (k, v1) :: l2 ∧
        inorder (Map.remove g c m k).1.root = l1 ++ l2) := by
  constructor
  · intro habs
    rcases removeGo_absent (g := g) hc habs with ⟨h1, h2⟩
    exact ⟨by simp [Map.remove, h1], by simp [Map.remove, h1], by
      simpa [Map.remove] using h2⟩
  · intro v1 hmem
    rcases removeGo_present (g := g) hc hs hmem with ⟨h1, l1, l2, h2, h3⟩
    exact ⟨by simp [Map.remove, h1], by simp [Map.remove, h1],
      l1, l2, h2, by simpa [Map.remove] using h3⟩

theorem claim_C2_witness :
    TotalCmp (ordCmp (K := Nat)) ∧ srtd ordCmp wm.root ∧
      ((Map.remove unitAug ordCmp wm 5).2 = none ∧
        (Map.remove unitAug ordCmp wm 5).1.len = wm.len) ∧
      ((Map.remove unitAug ordCmp wm 2).2 = some (2, 20) ∧
        (Map.remove unitAug ordCmp wm 2).1.len = wm.len - 1) :=
  ⟨ordCmp_total, by decide, by
    have h := claim_C2 ordCmp ordCmp_total unitAug wm 5 (by decide)
    rcases h.1 (by decide) with ⟨h1, h2, _⟩
    exact ⟨h1, h2⟩, by
    have h := claim_C2 ordCmp ordCmp_total unitAug wm 2 (by decide)
    rcases h.2 20 (by decide) with ⟨h1, h2, _⟩
    exact ⟨h1, h2⟩⟩

/-- Modelled from the claim's reference program for C9: run
`if map.get(k).is_none() { map.insert(k, v); }` and then read the map at
`k` as `get_mut` would. -/
def orInsertSeq {K V A : Type} (g : Tree.AugOps A) (c : K → K → Ordering)
    (m : Map K V A) (k : K) (v : V) : Map K V A × Option V :=
  let m1 := if (Map.get c m k).isNone then (Map.insert g c m k v).1 else m
  (m1, Map.get c m1 k)

/-- Claim C9: `map.entry(k).or_insert(v)` is observationally equivalent
to the direct `get`/`insert`/`get_mut` sequence: it produces the same map
(entries and `len()` alike) and hands back a reference to the value now
associated with `k`. -/
theorem claim_C9 {K V A : Type} (c : K → K → Ordering) (hc : TotalCmp c)
    (g : Tree.AugOps A) (m : Map K V A) (k : K) (v : V)
    (hs : srtd c m.root) :
    (Map.entryOrInsert g c m k v).1 = (orInsertSeq g c m k v).1 ∧
    (orInsertSeq g c m k v).2 = some (Map.entryOrInsert g c m k v).2 := by
  cases hf : Tree.find c m.root k with
  | some e =>
    have hfull : Tree.find c m.root k = some (e.1, e.2) := by
      rw [hf]
    have h1 := orInsertGo_present (g := g) hfull v
    have hget : Map.get c m k = some e.2 := by
      simp [Map.get, hf]
    constructor
    · simp [Map.entryOrInsert, h1, orInsertSeq, hget]
    · simp [Map.entryOrInsert, h1, orInsertSeq, hget]
  | none =>
    have habs : k ∉ keyList m.root := by
      intro hmem
      rcases List.mem_map.1 hmem with ⟨e2, he2, hke⟩
      obtain ⟨v1, rfl⟩ : ∃ v1, e2 = (k, v1) := ⟨e2.2, by rw [← hke]⟩
      rw [find_of_mem hc hs he2] at hf
      exact Option.noConfusion hf
    have h1 := orInsertGo_absent (g := g) hc habs v
    have h2 : (Tree.insert g c m.root k v).2 = none := by
      rw [insert_ret, hf]; rfl
    have hget : Map.get c m k = none := by simp [Map.get, hf]
    have h3 : Tree.insert g c m.root k v = ((Tree.insert g c m.root k v).1, none) :=
      Prod.ext rfl h2
    have he : Map.entryOrInsert g c m k v =
        (⟨(Tree.insert g c m.root k v).1, m.len + 1⟩, v) := by
      simp only [Map.entryOrInsert, h1]
      rw [h3]
    have hi : Map.insert g c m k v =
        (⟨(Tree.insert g c m.root k v).1, m.len + 1⟩, none) := by
      simp [Map.insert, h2]
    have hm1 : (orInsertSeq g c m k v).1 =
        ⟨(Tree.insert g c m.root k v).1, m.len + 1⟩ := by
      simp [orInsertSeq, hget, hi]
    constructor
    · rw [he, hm1]
    · have hmem2 : (k, v) ∈ inorder (Tree.insert g c m.root k v).1 := by
        rw [inorder_insert hc hs k v]
        exact mem_listIns_self hc k v _
      have hfind2 : Tree.find c (Tree.insert g c m.root k v).1 k = some (k, v) :=
        find_of_mem hc (srtd_insert hc hs k v) hmem2
      show (orInsertSeq g c m k v).2 = _
      rw [he, show (orInsertSeq g c m k v).2 =
        Map.get c (orInsertSeq g c m k v).1 k from rfl, hm1]
      simp [Map.get, hfind2]

theorem claim_C9_witness :
    TotalCmp (ordCmp (K := Nat)) ∧ srtd ordCmp wm.root ∧
      ((Map.entryOrInsert unitAug ordCmp wm 5 50).1 =
          (orInsertSeq unitAug ordCmp wm 5 50).1 ∧
        (orInsertSeq unitAug ordCmp wm 5 50).2 =
          some (Map.entryOrInsert unitAug ordCmp wm 5 50).2) :=
  ⟨ordCmp_total, by decide,
    claim_C9 ordCmp ordCmp_total unitAug wm 5 50 (by decide)⟩

/-- Claim C10: when `insert(k2, v2)` finds a stored key `k1` the
comparator deems equal to `k2`, only that node's value changes: the
stored key object, the whole key/level structure, and `len()` survive,
so lookups still observe `k1`. -/
theorem claim_C10 {K V : Type} (c : K → K → Ordering) {t : Tree K V Unit}
    (ha : aa t) {k2 k1 : K} {v1 : V}
    (hf : Tree.find c t k2 = some (k1, v1)) (v2 : V) :
    Tree.insert unitAug c t k2 v2 = (updateValue c t k2 v2, some v1) ∧
    Tree.find c (Tree.insert unitAug c t k2 v2).1 k2 = some (k1, v2) ∧
    shape (Tree.insert unitAug c t k2 v2).1 = shape t ∧
    (∀ n : Nat, (Map.insert unitAug c ⟨t, n⟩ k2 v2).1.len = n) := by
  have h1 := insert_found_updates c ha ⟨k1, hf⟩ v2
  refine ⟨h1, ?_, ?_, ?_⟩
  · rw [h1]
    exact find_updateValue hf v2
  · rw [h1]
    exact shape_updateValue t k2 v2
  · intro n
    simp [Map.insert, show (Tree.insert unitAug c t k2 v2).2 = some v1 from by
      rw [h1]]

/-- A comparator over pairs that only inspects the first component: keys
`(5, 0)` and `(5, 1)` compare `Equal` while being distinct objects. -/
def fstCmp : Nat × Nat → Nat × Nat → Ordering := fun a b => ordCmp a.1 b.1

private def wt10 : Tree (Nat × Nat) Nat Unit :=
  (Tree.insert unitAug fstCmp
    ((Tree.insert unitAug fstCmp nil (5, 0) 10).1) (7, 0) 70).1

theorem claim_C10_witness :
    aa wt10 ∧ Tree.find fstCmp wt10 (5, 1) = some ((5, 0), 10) ∧
      (Tree.insert unitAug fstCmp wt10 (5, 1) 99).1 =
        node nil (node nil nil 1 (7, 0) 70 ()) 1 (5, 0) 99 () ∧
      Tree.find fstCmp (Tree.insert unitAug fstCmp wt10 (5, 1) 99).1 (5, 1) =
        some ((5, 0), 99) :=
  ⟨by decide, by decide, by
    have h := @claim_C10 (Nat × Nat) Nat fstCmp wt10 (by decide)
      (5, 1) (5, 0) 10 (by decide) 99
    rw [h.1]
    decide, by
    have h := @claim_C10 (Nat × Nat) Nat fstCmp wt10 (by decide)
      (5, 1) (5, 0) 10 (by decide) 99
    exact h.2.1⟩

namespace Tree

variable {K V : Type} {c : K → K → Ordering}

theorem sz_eq_length (t : Tree K V A) : sz t = (inorder t).length := by
  induction t with
  | nil => rfl
  | node l r lv k v a ihl ihr => simp [sz, ihl, ihr]; omega

theorem sizeAug_left_size {l r : Tree K V Nat} {lv k v a}
    (h : sizeAug (node l r lv k v a)) : (aug? l).getD 0 = sz l := by
  rcases h with ⟨hl, _, _⟩
  cases l with
  | nil => rfl
  | node ll lr llv lk lv2 la =>
    rcases hl with ⟨_, _, ha⟩
    simp [aug?, ha, sz]
    omega

/-- With correct size augments, `select` is positional indexing into the
in-order sequence. -/
theorem select_eq_getElem (t : Tree K V Nat) (hg : sizeAug t) (i : Nat) :
    select t i = (inorder t)[i]? := by
  induction t generalizing i with
  | nil => simp [select]
  | node l r lv k v a ihl ihr =>
    have hrk := sizeAug_left_size hg
    rcases hg with ⟨hgl, hgr, _⟩
    simp only [select, hrk]
    have hlen : (inorder l).length = sz l := (sz_eq_length l).symm
    by_cases h1 : i = sz l
    · subst h1
      rw [if_pos rfl, inorder_node, List.getElem?_append_right (by omega), hlen,
        Nat.sub_self, List.getElem?_cons_zero]
    · rw [if_neg h1]
      by_cases h2 : i < sz l
      · rw [if_pos h2, inorder_node, List.getElem?_append_left (by omega)]
        exact ihl hgl i
      · rw [if_neg h2, inorder_node, List.getElem?_append_right (by omega), hlen,
          show i - sz l = (i - (sz l + 1)) + 1 by omega, List.getElem?_cons_succ,
          ihr hgr (i - (sz l + 1))]

/-- With correct size augments on a sorted tree, `rank` of a present key
is its in-order index, shifted by the accumulator. -/
theorem rankOf_spec (hc : TotalCmp c) {t : Tree K V Nat} (hs : srtd c t)
    (hg : sizeAug t) {i : Nat} {k : K} {v : V}
    (hi : (inorder t)[i]? = some (k, v)) (acc : Nat) :
    rankOf c t k acc = .ok (acc + i) := by
  induction t generalizing i acc with
  | nil => simp at hi
  | node l r lv k' v' a ihl ihr =>
    rcases ordered_node_split hs with ⟨hsl, hsr, hkl, hkr⟩
    have hrk := sizeAug_left_size hg
    rcases hg with ⟨hgl, hgr, _⟩
    have hlen : (inorder l).length = sz l := (sz_eq_length l).symm
    simp only [rankOf, hrk]
    by_cases h2 : i < sz l
    · rw [inorder_node, List.getElem?_append_left (by omega)] at hi
      have hmem : (k, v) ∈ inorder l := List.mem_iff_getElem?.mpr ⟨i, hi⟩
      have hlt : c k k' = .lt := hkl (k, v) hmem
      rw [hlt]
      exact ihl hsl hgl hi acc
    · rw [inorder_node, List.getElem?_append_right (by omega), hlen] at hi
      by_cases h1 : i = sz l
      · subst h1
        rw [Nat.sub_self] at hi
        simp only [List.getElem?_cons_zero, Option.some.injEq] at hi
        obtain ⟨hk, _⟩ := Prod.mk.injEq .. ▸ hi.symm
        subst hk
        rw [hc.eq_self]
      · have h3 : sz l < i := by omega
        rw [show i - sz l = (i - sz l - 1) + 1 by omega] at hi
        simp only [List.getElem?_cons_succ] at hi
        have hmem : (k, v) ∈ inorder r :=
          List.mem_iff_getElem?.mpr ⟨i - sz l - 1, hi⟩
        have hgt : c k k' = .gt := (hc.gt_swap k k').2 (hkr (k, v) hmem)
        rw [hgt]
        rw [ihr hsr hgr hi (acc + sz l + 1)]
        show RankResult.ok (acc + sz l + 1 + (i - sz l - 1)) =
          RankResult.ok (acc + i)
        congr 1
        omega

end Tree

/-- Context for the claim C8 counterexample: `select` and `rank` are
mutual inverses only under the hypothesis that every augment equals the
subtree size — the invariant removals fail to maintain (claim C5), so
this hypothesis excludes reachable states of the order-statistics map. -/
theorem select_rank_inverse_of_sizeAug {K V : Type} (c : K → K → Ordering)
    (hc : TotalCmp c)
    {t : Tree K V Nat} (hs : srtd c t) (hg : sizeAug t) :
    (∀ k v, (k, v) ∈ inorder t → ∃ i, rankOf c t k 0 = .ok i ∧
      (select t i).map Prod.fst = some k) ∧
    (∀ i, i < sz t → ∃ k v, select t i = some (k, v) ∧
      rankOf c t k 0 = .ok i) ∧
    (∀ i, sz t ≤ i → select t i = none) := by
  refine ⟨?_, ?_, ?_⟩
  · intro k v hmem
    rcases List.getElem_of_mem hmem with ⟨i, hilt, hie⟩
    have hi : (inorder t)[i]? = some (k, v) := by
      rw [List.getElem?_eq_getElem hilt, hie]
    refine ⟨i, by simpa using rankOf_spec hc hs hg hi 0, ?_⟩
    rw [select_eq_getElem t hg i, hi]
    rfl
  · intro i hilt
    rw [sz_eq_length] at hilt
    have hi : ∃ e, (inorder t)[i]? = some e :=
      ⟨(inorder t)[i], List.getElem?_eq_getElem hilt⟩
    rcases hi with ⟨⟨k, v⟩, hi⟩
    refine ⟨k, v, ?_, by simpa using rankOf_spec hc hs hg hi 0⟩
    rw [select_eq_getElem t hg i, hi]
  · intro i hile
    rw [select_eq_getElem t hg i, List.getElem?_eq_none]
    rw [sz_eq_length] at hile
    exact hile

/-- The order-statistics map `{1 ↦ (), 2 ↦ ()}` built by two inserts. -/
def wc5 : Map Nat Unit Nat :=
  (Map.insert rankAug ordCmp
    ((Map.insert rankAug ordCmp Map.empty 1 ()).1) 2 ()).1

/-- Claim C5 fails on the code: the augments are correct after the two
inserts, but `remove(1)` splices the successor into the root and
rebalances without ever recomputing augments (`Node::rebalance` never
calls `bottom_up`), leaving the single-node tree with the stale subtree
size 2. -/
theorem claim_C5_counterexample :
    sizeAug wc5.root ∧
    (Map.remove rankAug ordCmp wc5 1).1.root = node nil nil 1 2 () 2 ∧
    sz (Map.remove rankAug ordCmp wc5 1).1.root = 1 ∧
    ¬ sizeAug (Map.remove rankAug ordCmp wc5 1).1.root := by
  refine ⟨by decide, by decide, by decide, by decide⟩

/-- The order-statistics map reached by inserting the keys 1–7 in order
and then removing 1: its augments are stale (claim C5), which `select`
and `rank` then consult. -/
def w8 : Map Nat Unit Nat :=
  (Map.remove rankAug ordCmp
    ((Map.insert rankAug ordCmp
      ((Map.insert rankAug ordCmp
        ((Map.insert rankAug ordCmp
          ((Map.insert rankAug ordCmp
            ((Map.insert rankAug ordCmp
              ((Map.insert rankAug ordCmp
                ((Map.insert rankAug ordCmp Map.empty 1 ()).1)
                  2 ()).1) 3 ()).1) 4 ()).1) 5 ()).1) 6 ()).1) 7 ()).1)
    1).1

/-- Claim C8 fails on the code: it promises that on the order-statistics
map `rank` and `select` are mutual inverses over valid indices and that
`select(i)` is `None` exactly for `i ≥ len()`.  On the reachable sorted
map obtained by inserting 1–7 and removing 1 (whose size augments are
stale, claim C5), `len` is 6 yet `select(2)` returns `None` — so the
in-range index 2 has no entry whose rank could return it — and
`select(6)` returns the entry `(7, ())` although `6 ≥ len()`. -/
theorem claim_C8_counterexample :
    srtd ordCmp w8.root ∧ w8.len = 6 ∧ sz w8.root = 6 ∧
    select w8.root 2 = none ∧
    select w8.root 6 = some (7, ()) := by
  refine ⟨by decide, by decide, by decide, by decide, by decide⟩

namespace Tree

variable {K V A : Type} {g : AugOps A} {c : K → K → Ordering}

@[simp] theorem lvl_nil : lvl (nil : Tree K V A) = 0 := rfl

@[simp] theorem lvl_node (l r : Tree K V A) (lv k v a) :
    lvl (node l r lv k v a) = lv := rfl

@[simp] theorem rightOf_nil : rightOf (nil : Tree K V A) = nil := rfl

@[simp] theorem rightOf_node (l r : Tree K V A) (lv k v a) :
    rightOf (node l r lv k v a) = r := rfl

@[simp] theorem lvl_bottomUp (t : Tree K V A) : lvl (bottomUp g t) = lvl t := by
  cases t <;> rfl

@[simp] theorem rightOf_bottomUp (t : Tree K V A) :
    rightOf (bottomUp g t) = rightOf t := by
  cases t <;> rfl

@[simp] theorem aa_nil : aa (nil : Tree K V A) := trivial

theorem aa_node_iff {l r : Tree K V A} {lv k v a} :
    aa (node l r lv k v a) ↔
      aa l ∧ aa r ∧ lv = lvl l + 1 ∧ (lvl r = lv ∨ lvl r + 1 = lv) ∧
        (lvl r = lv → lvl (rightOf r) + 1 = lv) := Iff.rfl

@[simp] theorem aa_bottomUp (t : Tree K V A) : aa (bottomUp g t) ↔ aa t := by
  cases t <;> rfl

theorem sngl_node_iff {l r : Tree K V A} {lv k v a} :
    sngl (node l r lv k v a) ↔ lvl r < lv := Iff.rfl

@[simp] theorem sngl_bottomUp (t : Tree K V A) : sngl (bottomUp g t) ↔ sngl t := by
  cases t <;> rfl

theorem lvl_eq_zero_iff {t : Tree K V A} (ht : aa t) : lvl t = 0 ↔ t = nil := by
  cases t with
  | nil => simp
  | node l r lv k v a =>
    obtain ⟨_, _, h3, _, _⟩ := ht
    simp
    omega

theorem lvl_rightOf_le {t : Tree K V A} (ht : aa t) : lvl (rightOf t) ≤ lvl t := by
  cases t with
  | nil => simp
  | node l r lv k v a =>
    obtain ⟨_, _, _, h4, _⟩ := ht
    simp
    omega

/-- In an AA tree every non-empty node's right child is at the node's
level or exactly one below. -/
theorem rightOf_dichotomy {t : Tree K V A} (ht : aa t) (hne : t ≠ nil) :
    lvl (rightOf t) = lvl t ∨ lvl (rightOf t) + 1 = lvl t := by
  cases t with
  | nil => exact absurd rfl hne
  | node l r lv k v a =>
    obtain ⟨_, _, _, h4, _⟩ := ht
    simpa using h4

theorem skew_fires {la lb : Tree K V A} {lv2 ka va a1} {r : Tree K V A}
    {lv k v a} (h : lv2 = lv) :
    skew g (node (node la lb lv2 ka va a1) r lv k v a) =
      node la (bottomUp g (node lb r lv k v a)) lv2 ka va a1 := by
  simp [skew, if_pos h]

theorem split_fires {l rl rr : Tree K V A} {rlv rk rv2 ra lv k v a}
    (h : lvl rr = lv) :
    split g (node l (node rl rr rlv rk rv2 ra) lv k v a) =
      node (bottomUp g (node l rl lv k v a)) rr (rlv + 1) rk rv2 ra := by
  simp [split, if_pos h]

/-- The `skew`-then-`split`-then-`bottom_up` fix after a left-child
insertion restores the AA invariant at this node; the node's level grows
only when it already carried a right-horizontal link. -/
theorem insert_fix_left {l2 l r : Tree K V A} {lv : Nat} {k : K} {v : V}
    {a : A} (hal : aa l2) (har : aa r) (h3 : lv = lvl l + 1)
    (h4 : lvl r = lv ∨ lvl r + 1 = lv)
    (h5 : lvl r = lv → lvl (rightOf r) + 1 = lv)
    (hih : lvl l2 = lvl l ∨ (lvl l2 = lvl l + 1 ∧ sngl l2)) :
    aa (bottomUp g (split g (skew g (node l2 r lv k v a)))) ∧
      (lvl (bottomUp g (split g (skew g (node l2 r lv k v a)))) = lv ∨
        (lvl (bottomUp g (split g (skew g (node l2 r lv k v a)))) = lv + 1 ∧
          sngl (bottomUp g (split g (skew g (node l2 r lv k v a)))) ∧
          lvl r = lv)) := by
  rcases hih with hA | ⟨hB1, hB2⟩
  · rw [skew_eq_self (by omega),
      split_eq_self (by have h6 := lvl_rightOf_le har; omega)]
    simp only [bottomUp_node]
    exact ⟨⟨hal, har, by omega, h4, h5⟩, Or.inl rfl⟩
  · rcases l2 with _ | ⟨la, lb, lv2, ka, va, a1⟩
    · simp only [lvl_nil] at hB1
      omega
    obtain ⟨hala, halb, hq3, hq4, hq5⟩ := hal
    rw [sngl_node_iff] at hB2
    simp only [lvl_node] at hB1
    have hp1 : lv2 = lv := by omega
    have hlb : lvl lb + 1 = lv2 := by omega
    rw [skew_fires hp1]
    simp only [bottomUp_node]
    by_cases hr : lvl r = lv
    · rw [split_fires (show lvl r = lv2 by omega)]
      simp only [bottomUp_node]
      refine ⟨?_, Or.inr ⟨by first | rfl | (simp only [lvl_node]; omega) | omega, ?_, hr⟩⟩
      · refine ⟨⟨hala, halb, hq3, Or.inr hlb, by omega⟩, har, ?_, ?_, ?_⟩
        · first | omega | (simp only [lvl_node, rightOf_node]; omega)
        · first | omega | (simp only [lvl_node, rightOf_node]; omega)
        · first | omega | (simp only [lvl_node, rightOf_node]; omega)
      · rw [sngl_node_iff]; first | omega | (simp only [lvl_node, rightOf_node]; omega)
    · rw [split_eq_self (by first | omega | (simp only [rightOf_node, lvl_node]; omega))]
      simp only [bottomUp_node]
      refine ⟨?_, Or.inl (by first | omega | (simp only [lvl_node, rightOf_node]; omega))⟩
      refine ⟨hala, ⟨halb, har, by omega, by omega, by omega⟩, hq3, ?_, ?_⟩
      · first | omega | (simp only [lvl_node, rightOf_node]; omega)
      · first | omega | (simp only [lvl_node, rightOf_node]; omega)

/-- The symmetric fix after a right-child insertion. -/
theorem insert_fix_right {l r r2 : Tree K V A} {lv : Nat} {k : K} {v : V}
    {a : A} (hal : aa l) (har : aa r) (har2 : aa r2) (h3 : lv = lvl l + 1)
    (h4 : lvl r = lv ∨ lvl r + 1 = lv)
    (h5 : lvl r = lv → lvl (rightOf r) + 1 = lv)
    (hih : lvl r2 = lvl r ∨ (lvl r2 = lvl r + 1 ∧ sngl r2 ∧ ¬ sngl r)) :
    aa (bottomUp g (split g (skew g (node l r2 lv k v a)))) ∧
      (lvl (bottomUp g (split g (skew g (node l r2 lv k v a)))) = lv ∨
        (lvl (bottomUp g (split g (skew g (node l r2 lv k v a)))) = lv + 1 ∧
          sngl (bottomUp g (split g (skew g (node l r2 lv k v a)))) ∧
          lvl r = lv)) := by
  rw [skew_eq_self (by omega)]
  rcases hih with hA | ⟨hB1, hB2, hB3⟩
  · by_cases hr : lvl r = lv
    · have h5r := h5 hr
      rcases r2 with _ | ⟨ra, rb, rlv2, rk2, rv2, ra2⟩
      · simp only [lvl_nil] at hA
        omega
      obtain ⟨hara, harb, hq3, hq4, hq5⟩ := har2
      simp only [lvl_node] at hA
      rcases hq4 with hq4 | hq4
      · rw [split_fires (show lvl rb = lv by omega)]
        simp only [bottomUp_node]
        refine ⟨?_, Or.inr ⟨by first | omega | (simp only [lvl_node, rightOf_node]; omega), ?_, hr⟩⟩
        · refine ⟨⟨hal, hara, h3, by omega, by omega⟩, harb, ?_, ?_, ?_⟩
          · first | omega | (simp only [lvl_node, rightOf_node]; omega)
          · first | omega | (simp only [lvl_node, rightOf_node]; omega)
          · first | omega | (simp only [lvl_node, rightOf_node]; omega)
        · rw [sngl_node_iff]; first | omega | (simp only [lvl_node, rightOf_node]; omega)
      · rw [split_eq_self (by first | omega | (simp only [rightOf_node, lvl_node]; omega))]
        simp only [bottomUp_node]
        refine ⟨⟨hal, ⟨hara, harb, hq3, Or.inr hq4, by omega⟩, h3, ?_, ?_⟩,
          Or.inl rfl⟩
        · first | omega | (simp only [lvl_node, rightOf_node]; omega)
        · first | omega | (simp only [lvl_node, rightOf_node]; omega)
    · rw [split_eq_self (by have h6 := lvl_rightOf_le har2; omega)]
      simp only [bottomUp_node]
      exact ⟨⟨hal, har2, h3, by omega, by omega⟩, Or.inl rfl⟩
  · have hr : lvl r + 1 = lv := by
      by_contra hcon
      have hrl : lvl r = lv := by omega
      have h5r := h5 hrl
      refine hB3 ?_
      rcases r with _ | ⟨x1, x2, x3, x4, x5, x6⟩
      · simp only [lvl_nil] at hrl
        omega
      · rw [sngl_node_iff]
        simp only [lvl_node, rightOf_node] at h5r hrl ⊢
        omega
    rcases r2 with _ | ⟨ra, rb, rlv2, rk2, rv2, ra2⟩
    · simp only [lvl_nil] at hB1
      omega
    obtain ⟨hara, harb, hq3, hq4, hq5⟩ := har2
    rw [sngl_node_iff] at hB2
    simp only [lvl_node] at hB1 hB2
    rw [split_eq_self (by first | omega | (simp only [rightOf_node, lvl_node]; omega))]
    simp only [bottomUp_node]
    refine ⟨⟨hal, ⟨hara, harb, hq3, hq4, hq5⟩, h3, ?_, ?_⟩, Or.inl rfl⟩
    · first | omega | (simp only [lvl_node, rightOf_node]; omega)
    · first | omega | (simp only [lvl_node, rightOf_node]; omega)

/-- AA insertion invariant: inserting into an AA tree yields an AA tree
whose level is unchanged, or one higher when the old root carried a
right-horizontal link, the new root then not carrying one. -/
theorem insert_aa {t : Tree K V A} (ht : aa t) (k : K) (v : V) :
    aa (insert g c t k v).1 ∧
      (lvl (insert g c t k v).1 = lvl t ∨
        (lvl (insert g c t k v).1 = lvl t + 1 ∧ sngl (insert g c t k v).1 ∧
          ¬ sngl t)) := by
  induction t with
  | nil =>
    exact ⟨⟨trivial, trivial, rfl, Or.inr rfl, by simp⟩,
      Or.inr ⟨rfl, Nat.one_pos, not_false⟩⟩
  | node l r lv k' v' a ihl ihr =>
    obtain ⟨hal, har, h3, h4, h5⟩ := ht
    simp only [insert]
    cases hcc : c k k'
    case eq => exact ⟨⟨hal, har, h3, h4, h5⟩, Or.inl rfl⟩
    case lt =>
      obtain ⟨ih1, ih2⟩ := ihl hal
      have hstep := insert_fix_left (g := g) (k := k') (v := v') (a := a)
        ih1 har h3 h4 h5
        (by
          rcases ih2 with h | ⟨hx1, hx2, _⟩
          · exact Or.inl h
          · exact Or.inr ⟨hx1, hx2⟩)
      refine ⟨hstep.1, ?_⟩
      rcases hstep.2 with h | ⟨hx1, hx2, hx3⟩
      · exact Or.inl h
      · exact Or.inr ⟨hx1, hx2, by rw [sngl_node_iff]; omega⟩
    case gt =>
      obtain ⟨ih1, ih2⟩ := ihr har
      have hstep := insert_fix_right (g := g) (k := k') (v := v') (a := a)
        hal har ih1 h3 h4 h5 ih2
      refine ⟨hstep.1, ?_⟩
      rcases hstep.2 with h | ⟨hx1, hx2, hx3⟩
      · exact Or.inl h
      · exact Or.inr ⟨hx1, hx2, by rw [sngl_node_iff]; omega⟩

@[simp] theorem onRight_node (f : Tree K V A → Tree K V A)
    (l r : Tree K V A) (lv k v a) :
    onRight f (node l r lv k v a) = node l (f r) lv k v a := rfl

@[simp] theorem setLvl_node (l r : Tree K V A) (lv k v a n) :
    setLvl (node l r lv k v a) n = node l r n k v a := rfl

theorem skew_aa_id {t : Tree K V A} (ht : aa t) : skew g t = t := by
  cases t with
  | nil => rfl
  | node l r lv k v a =>
    obtain ⟨_, _, h3, _, _⟩ := ht
    exact skew_eq_self (by omega)

theorem split_aa_id {t : Tree K V A} (ht : aa t) : split g t = t := by
  cases t with
  | nil => rfl
  | node l r lv k v a =>
    obtain ⟨_, hr, h3, h4, h5⟩ := ht
    refine split_eq_self ?_
    have h6 := lvl_rightOf_le hr
    omega

/-- On an already valid node `rebalance` does nothing at all. -/
theorem rebalance_aa_id {l r : Tree K V A} {lv : Nat} {k : K} {v : V} {a : A}
    (ht : aa (node l r lv k v a)) :
    rebalance g (node l r lv k v a) = node l r lv k v a := by
  obtain ⟨_, _, h3, h4, _⟩ := ht
  simp only [rebalance]
  rw [if_neg (by omega)]

theorem rebalance_fires {l r : Tree K V A} {lv : Nat} {k : K} {v : V} {a : A}
    (h : lvl l < lv - 1 ∨ lvl r < lv - 1) :
    rebalance g (node l r lv k v a) =
      onRight (split g) (split g (onRight (onRight (skew g))
        (onRight (skew g) (skew g (node l
          (if lvl r > lv - 1 then setLvl r (lv - 1) else r)
          (lv - 1) k v a))))) := by
  simp only [rebalance, if_pos h]

/-- What a removal leaves behind at a link: a valid AA tree whose level
dropped by at most one, an unchanged level preserving the absence of a
right-horizontal link at the root. -/
def postDel (t t2 : Tree K V A) : Prop :=
  aa t2 ∧ (lvl t2 = lvl t ∨ lvl t2 + 1 = lvl t) ∧
    (lvl t2 = lvl t → sngl t → sngl t2)

/-- Andersson's delete rebalance restores the invariant when the right
child ended up two levels low. -/
theorem rebalance_delete_right {l r2 : Tree K V A} {lv : Nat} {k : K}
    {v : V} {a : A} (hal : aa l) (har : aa r2) (h3 : lvl l + 1 = lv)
    (h7 : lvl r2 + 2 = lv) :
    aa (rebalance g (node l r2 lv k v a)) ∧
      (lvl (rebalance g (node l r2 lv k v a)) = lv ∨
        lvl (rebalance g (node l r2 lv k v a)) + 1 = lv) ∧
      (lvl (rebalance g (node l r2 lv k v a)) = lv →
        sngl (rebalance g (node l r2 lv k v a))) := by
  rcases l with _ | ⟨la, lb, L, ka, va, a1⟩
  · simp only [lvl_nil] at h3
    omega
  obtain ⟨hala, halb, hq3, hq4, hq5⟩ := hal
  simp only [lvl_node] at h3
  rw [rebalance_fires (by simp only [lvl_node]; omega)]
  rw [if_neg (by omega), show lv - 1 = L from by omega,
    skew_fires rfl]
  simp only [bottomUp_node, onRight_node]
  by_cases hb : lvl lb = L
  · rcases lb with _ | ⟨lba, lbb, Lb, lbk, lbv, alb⟩
    · simp only [lvl_nil] at hb
      omega
    obtain ⟨halba, halbb, hlb3, hlb4, hlb5⟩ := halb
    simp only [lvl_node] at hb
    have hlbb : lvl lbb + 1 = L := by
      have h9 := hq5 (by simp only [lvl_node]; omega)
      simp only [rightOf_node] at h9
      omega
    rw [skew_fires hb]
    simp only [bottomUp_node, onRight_node]
    rw [skew_eq_self (show lvl lbb ≠ L from by omega)]
    rw [split_fires (show lvl (node lbb r2 L k v
      (g.abu (aug? lbb) (aug? r2))) = L from rfl)]
    simp only [bottomUp_node, onRight_node]
    rw [split_eq_self (show lvl (rightOf r2) ≠ L from by
      have h6 := lvl_rightOf_le har; omega)]
    refine ⟨?_, ?_, ?_⟩
    · refine ⟨⟨hala, halba, hq3, Or.inr (by omega), by omega⟩,
        ⟨halbb, har, by omega, Or.inr (by omega), by omega⟩, ?_, ?_, ?_⟩
      · simp only [lvl_node]; omega
      · simp only [lvl_node]; omega
      · simp only [lvl_node, rightOf_node]; omega
    · simp only [lvl_node]; omega
    · intro h6
      rw [sngl_node_iff]
      simp only [lvl_node]
      omega
  · have hlb : lvl lb + 1 = L := by omega
    rw [skew_eq_self (show lvl lb ≠ L from by omega)]
    simp only [onRight_node]
    rw [skew_aa_id har]
    rw [split_eq_self (show lvl (rightOf (node lb r2 L k v
      (g.abu (aug? lb) (aug? r2)))) ≠ L from by
        simp only [rightOf_node]; omega)]
    simp only [onRight_node]
    rw [split_eq_self (show lvl (rightOf r2) ≠ L from by
      have h6 := lvl_rightOf_le har; omega)]
    refine ⟨?_, ?_, ?_⟩
    · refine ⟨hala, ⟨halb, har, ?_, ?_, ?_⟩, hq3, ?_, ?_⟩
      · omega
      · exact Or.inr (by omega)
      · omega
      · exact Or.inl rfl
      · simp only [lvl_node, rightOf_node]; omega
    · simp only [lvl_node]; omega
    · intro h6
      simp only [lvl_node] at h6
      omega

/-- Andersson's delete rebalance restores the invariant when the left
child ended up two levels low; the node keeps its level exactly when a
split promotes a new root, and then only because the original node
carried a right-horizontal link or the promoted root is again
non-horizontal. -/
theorem rebalance_delete_left {l r : Tree K V A} {lv : Nat} {k : K}
    {v : V} {a : A} (hal : aa l) (har : aa r) (h3 : lvl l + 2 = lv)
    (h4 : lvl r = lv ∨ lvl r + 1 = lv)
    (h5 : lvl r = lv → lvl (rightOf r) + 1 = lv) :
    aa (rebalance g (node l r lv k v a)) ∧
      (lvl (rebalance g (node l r lv k v a)) = lv ∨
        lvl (rebalance g (node l r lv k v a)) + 1 = lv) ∧
      (lvl (rebalance g (node l r lv k v a)) = lv → lvl r + 1 = lv →
        sngl (rebalance g (node l r lv k v a))) := by
  rcases r with _ | ⟨rl, rr, R, rk, rv2, ra⟩
  · simp only [lvl_nil] at h4
    omega
  have hhar := har
  obtain ⟨harl, harr, hr3, hr4, hr5⟩ := hhar
  simp only [lvl_node] at h4
  simp only [lvl_node, rightOf_node] at h5
  rw [rebalance_fires (Or.inl (show lvl l < lv - 1 from by omega))]
  rcases h4 with hcl | hcl
  · -- the right child was level-horizontal and is clamped down
    rw [if_pos (show lvl (node rl rr R rk rv2 ra) > lv - 1 from by
      simp only [lvl_node]; omega)]
    simp only [setLvl_node]
    have hrrlvl : lvl rr + 1 = lv := h5 hcl
    have hrl1 : lvl rl + 1 = lv := by omega
    rcases rl with _ | ⟨rla, rlb, RL, rlk, rlv2, rla1⟩
    · simp only [lvl_nil] at hrl1
      omega
    have hhrl := harl
    obtain ⟨harla, harlb, hrl3, hrl4, hrl5⟩ := hhrl
    simp only [lvl_node] at hrl1
    rw [skew_eq_self (show lvl l ≠ lv - 1 from by omega)]
    simp only [onRight_node]
    rw [skew_fires (show RL = lv - 1 from by omega)]
    simp only [bottomUp_node, onRight_node]
    generalize g.abu (aug? rlb) (aug? rr) = w1
    by_cases hlb : lvl rlb = lv - 1
    · -- the clamped right child is itself left-horizontal twice over
      rcases rlb with _ | ⟨rlba, rlbb, RLB, rlbk, rlbv, rlba1⟩
      · simp only [lvl_nil] at hlb
        omega
      have hhrlb := harlb
      obtain ⟨harlba, harlbb, hrlb3, hrlb4, hrlb5⟩ := hhrlb
      simp only [lvl_node] at hlb
      have hrlbb : lvl rlbb + 1 = lv - 1 := by
        have h9 := hrl5 (by simp only [lvl_node]; omega)
        simp only [rightOf_node] at h9
        omega
      rw [skew_fires hlb]
      simp only [bottomUp_node, onRight_node]
      generalize g.abu (aug? rlbb) (aug? rr) = w2
      rw [split_fires (show lvl (node rlba
        (node rlbb rr (lv - 1) rk rv2 w2) RLB rlbk rlbv rlba1) =
        lv - 1 from hlb)]
      simp only [bottomUp_node, onRight_node]
      rw [split_fires (show lvl rr = RLB from by omega)]
      simp only [bottomUp_node]
      refine ⟨?_, ?_, ?_⟩
      · refine ⟨⟨hal, harla, ?_, ?_, ?_⟩,
          ⟨⟨harlba, harlbb, hrlb3, ?_, ?_⟩, harr, ?_, ?_, ?_⟩,
          ?_, ?_, ?_⟩
        · omega
        · exact Or.inr (by omega)
        · omega
        · exact Or.inr (by omega)
        · omega
        · simp only [lvl_node]; omega
        · exact Or.inr (by omega)
        · omega
        · simp only [lvl_node]; omega
        · exact Or.inl (by simp only [lvl_node]; omega)
        · simp only [lvl_node, rightOf_node]; omega
      · exact Or.inl (by simp only [lvl_node]; omega)
      · intro h6 h7
        simp only [lvl_node] at h7
        omega
    · -- a single skew suffices below; the root split still fires
      have hrlb : lvl rlb + 1 = lv - 1 := by omega
      rw [skew_eq_self (show lvl rlb ≠ lv - 1 from hlb)]
      rcases rr with _ | ⟨rra, rrb, RR, rrk, rrv, rra1⟩
      · simp only [lvl_nil] at hrrlvl
        omega
      have hhrr := harr
      obtain ⟨harra, harrb, hrr3, hrr4, hrr5⟩ := hhrr
      simp only [lvl_node] at hrrlvl
      rw [split_fires (show lvl (node rlb
        (node rra rrb RR rrk rrv rra1) (lv - 1) rk rv2 w1) =
        lv - 1 from rfl)]
      simp only [bottomUp_node, onRight_node]
      by_cases hrrb : lvl rrb = lv - 1
      · -- the right grandchild is horizontal: the second split fires
        rw [split_fires (show lvl rrb = lv - 1 from hrrb)]
        simp only [bottomUp_node]
        have h9 := hrr5 (by omega)
        refine ⟨?_, ?_, ?_⟩
        · refine ⟨⟨hal, harla, ?_, ?_, ?_⟩,
            ⟨⟨harlb, harra, ?_, ?_, ?_⟩, harrb, ?_, ?_, ?_⟩,
            ?_, ?_, ?_⟩
          · omega
          · exact Or.inr (by omega)
          · omega
          · omega
          · exact Or.inr (by omega)
          · omega
          · simp only [lvl_node]; omega
          · exact Or.inr (by omega)
          · omega
          · simp only [lvl_node]; omega
          · exact Or.inl (by simp only [lvl_node]; omega)
          · simp only [lvl_node, rightOf_node]; omega
        · exact Or.inl (by simp only [lvl_node]; omega)
        · intro h6 h7
          simp only [lvl_node] at h7
          omega
      · -- the right grandchild sits below: the second split is idle
        have hrrb2 : lvl rrb + 1 = lv - 1 := by omega
        rw [split_eq_self (show lvl (rightOf
          (node rra rrb RR rrk rrv rra1)) ≠ lv - 1 from by
          simp only [rightOf_node]; exact hrrb)]
        refine ⟨?_, ?_, ?_⟩
        · refine ⟨⟨hal, harla, ?_, ?_, ?_⟩,
            ⟨harlb, harr, ?_, ?_, ?_⟩, ?_, ?_, ?_⟩
          · omega
          · exact Or.inr (by omega)
          · omega
          · omega
          · exact Or.inl (by simp only [lvl_node]; omega)
          · simp only [lvl_node, rightOf_node]; omega
          · simp only [lvl_node]; omega
          · exact Or.inr (by simp only [lvl_node]; omega)
          · simp only [lvl_node, rightOf_node]; omega
        · exact Or.inl (by simp only [lvl_node]; omega)
        · intro h6 h7
          simp only [lvl_node] at h7
          omega
  · -- the right child sat one below: no clamp, at most one split
    rw [if_neg (show ¬ lvl (node rl rr R rk rv2 ra) > lv - 1 from by
      simp only [lvl_node]; omega)]
    rw [skew_eq_self (show lvl l ≠ lv - 1 from by omega)]
    simp only [onRight_node]
    rw [skew_aa_id har]
    simp only [onRight_node]
    rw [skew_aa_id harr]
    by_cases hrr : lvl rr = lv - 1
    · -- the kept right child is now horizontal: the split promotes it
      rw [split_fires (show lvl rr = lv - 1 from hrr)]
      simp only [bottomUp_node, onRight_node]
      rw [split_aa_id harr]
      have h9 := hr5 (by omega)
      refine ⟨?_, ?_, ?_⟩
      · refine ⟨⟨hal, harl, ?_, ?_, ?_⟩, harr, ?_, ?_, ?_⟩
        · omega
        · exact Or.inr (by omega)
        · omega
        · simp only [lvl_node]; omega
        · exact Or.inr (by omega)
        · omega
      · exact Or.inl (by simp only [lvl_node]; omega)
      · intro h6 h7
        rw [sngl_node_iff]
        omega
    · -- nothing fires: the node simply dropped one level
      have hrr2 : lvl rr + 1 = lv - 1 := by omega
      rw [split_eq_self (show lvl (rightOf
        (node rl rr R rk rv2 ra)) ≠ lv - 1 from by
        simp only [rightOf_node]; exact hrr)]
      simp only [onRight_node]
      rw [split_aa_id har]
      refine ⟨?_, ?_, ?_⟩
      · refine ⟨hal, har, ?_, ?_, ?_⟩
        · omega
        · exact Or.inl (by simp only [lvl_node]; omega)
        · simp only [lvl_node, rightOf_node]; omega
      · exact Or.inr (by simp only [lvl_node]; omega)
      · intro h6 h7
        simp only [lvl_node] at h6
        omega

theorem sngl_lt {t : Tree K V A} (h : sngl t) : lvl (rightOf t) < lvl t := by
  cases t with
  | nil => exact absurd h id
  | node l r lv k v a => simpa [rightOf_node, lvl_node] using h

/-- Splicing the outcome of a removal back in as the left child of a
valid node and running `rebalance` (as `Path::remove_` does at every
ancestor) is again a removal outcome; the node's key, value and augment
may have been replaced by the splice. -/
theorem post_del_node_left {l l2 r : Tree K V A} {lv : Nat} {k : K}
    {v : V} {a : A} (k2 : K) (v2 : V) (a2 : A)
    (ht : aa (node l r lv k v a)) (hp : postDel l l2) :
    postDel (node l r lv k v a) (rebalance g (node l2 r lv k2 v2 a2)) := by
  obtain ⟨hal, har, h3, h4, h5⟩ := ht
  obtain ⟨hal2, hl4, hl5⟩ := hp
  rcases hl4 with he | he
  · -- the left child kept its level: the node is already valid
    have haa : aa (node l2 r lv k2 v2 a2) := by
      refine ⟨hal2, har, ?_, h4, h5⟩
      omega
    rw [rebalance_aa_id haa]
    refine ⟨haa, Or.inl rfl, ?_⟩
    intro _ hs
    rw [sngl_node_iff] at hs ⊢
    exact hs
  · -- the left child dropped a level: run the delete rebalance
    have hstep := rebalance_delete_left (g := g) (k := k2) (v := v2)
      (a := a2) hal2 har (show lvl l2 + 2 = lv from by omega) h4 h5
    refine ⟨hstep.1, hstep.2.1, ?_⟩
    intro h6 hs
    have hs2 : lvl r < lv := hs
    exact hstep.2.2 h6 (by omega)

/-- The right-child counterpart of `post_del_node_left`. -/
theorem post_del_node_right {l r r2 : Tree K V A} {lv : Nat} {k : K}
    {v : V} {a : A} (k2 : K) (v2 : V) (a2 : A)
    (ht : aa (node l r lv k v a)) (hp : postDel r r2) :
    postDel (node l r lv k v a) (rebalance g (node l r2 lv k2 v2 a2)) := by
  obtain ⟨hal, har, h3, h4, h5⟩ := ht
  obtain ⟨har2, hr4, hr5⟩ := hp
  rcases hr4 with he | he
  · -- the right child kept its level: the node is still valid
    have h52 : lvl r = lv → lvl (rightOf r2) + 1 = lv := by
      intro h4a
      have h9 := h5 h4a
      have hsr : sngl r := by
        rcases r with _ | ⟨p1, p2, p3, p4, p5, p6⟩
        · simp only [lvl_nil] at h4a
          omega
        · rw [sngl_node_iff]
          simp only [rightOf_node] at h9
          simp only [lvl_node] at h4a
          omega
      have hsr2 : sngl r2 := hr5 (by omega) hsr
      have h10 := sngl_lt hsr2
      have hne : r2 ≠ nil := by
        intro hh
        rw [hh] at hsr2
        exact hsr2
      have hdich := rightOf_dichotomy har2 hne
      omega
    have haa : aa (node l r2 lv k2 v2 a2) := by
      refine ⟨hal, har2, h3, ?_, ?_⟩
      · omega
      · intro hq
        exact h52 (by omega)
    rw [rebalance_aa_id haa]
    refine ⟨haa, Or.inl rfl, ?_⟩
    intro _ hs
    rw [sngl_node_iff] at hs ⊢
    omega
  · rcases h4 with h4a | h4a
    · -- it was horizontal and dropped: level now matches the left child
      have haa : aa (node l r2 lv k2 v2 a2) := by
        refine ⟨hal, har2, h3, ?_, ?_⟩
        · omega
        · intro hq
          omega
      rw [rebalance_aa_id haa]
      refine ⟨haa, Or.inl rfl, ?_⟩
      intro _ hs
      rw [sngl_node_iff] at hs ⊢
      omega
    · -- it sat one below and dropped: two levels low, rebalance fires
      have hstep := rebalance_delete_right (g := g) (k := k2) (v := v2)
        (a := a2) hal har2 (show lvl l + 1 = lv from by omega)
        (show lvl r2 + 2 = lv from by omega)
      refine ⟨hstep.1, hstep.2.1, ?_⟩
      intro h6 _
      exact hstep.2.2 h6

theorem postDel_refl {t : Tree K V A} (ht : aa t) : postDel t t :=
  ⟨ht, Or.inl rfl, fun _ h => h⟩

/-- Removing the maximum leaves a valid AA outcome at the link. -/
theorem removeMaxLink_post : ∀ {t : Tree K V A}, aa t →
    postDel t (removeMaxLink g t).1
  | nil, _ => ⟨trivial, Or.inl rfl, fun _ h => h⟩
  | node l (node rl rr rlv rk rv2 ra) lv k v a, ht => by
    have hp := removeMaxLink_post (t := node rl rr rlv rk rv2 ra) ht.2.1
    have hstep : removeMaxLink g (node l (node rl rr rlv rk rv2 ra) lv k v a) =
        (rebalance g (node l (removeMaxLink g (node rl rr rlv rk rv2 ra)).1
          lv k v a),
         (removeMaxLink g (node rl rr rlv rk rv2 ra)).2) := rfl
    rw [hstep]
    exact post_del_node_right k v a ht hp
  | node nil nil lv k v a, ht => by
    obtain ⟨_, _, h3, _, _⟩ := ht
    simp only [lvl_nil] at h3
    show postDel (node nil nil lv k v a) nil
    refine ⟨trivial, Or.inr ?_, ?_⟩
    · simp only [lvl_nil, lvl_node]
      omega
    · intro h6 _
      simp only [lvl_nil, lvl_node] at h6
      omega
  | node (node ll lr llv lk lv2 la) nil lv k v a, ht => by
    rcases removeMaxLink_spec (g := g) (node ll lr llv lk lv2 la) (by simp)
      with ⟨e, he1, _⟩
    have hp := removeMaxLink_post (t := node ll lr llv lk lv2 la) ht.1
    have hfull : removeMaxLink g (node ll lr llv lk lv2 la) =
        ((removeMaxLink g (node ll lr llv lk lv2 la)).1, some e) :=
      Prod.ext rfl he1
    have hstep : removeMaxLink g (node (node ll lr llv lk lv2 la) nil lv k v a) =
        (rebalance g (node (removeMaxLink g (node ll lr llv lk lv2 la)).1
          nil lv e.1 e.2 a), some (k, v)) := by
      conv_lhs => rw [show removeMaxLink g
        (node (node ll lr llv lk lv2 la) nil lv k v a) =
          (match removeMaxLink g (node ll lr llv lk lv2 la) with
            | (l2, some rep) =>
              (rebalance g (node l2 nil lv rep.1 rep.2 a), some (k, v))
            | (_, none) => (nil, some (k, v))) from rfl, hfull]
    rw [hstep]
    exact post_del_node_left e.1 e.2 a ht hp

/-- Removing the minimum leaves a valid AA outcome at the link. -/
theorem removeMinLink_post : ∀ {t : Tree K V A}, aa t →
    postDel t (removeMinLink g t).1
  | nil, _ => ⟨trivial, Or.inl rfl, fun _ h => h⟩
  | node (node ll lr llv lk lv2 la) r lv k v a, ht => by
    have hp := removeMinLink_post (t := node ll lr llv lk lv2 la) ht.1
    have hstep : removeMinLink g (node (node ll lr llv lk lv2 la) r lv k v a) =
        (rebalance g (node (removeMinLink g (node ll lr llv lk lv2 la)).1 r
          lv k v a),
         (removeMinLink g (node ll lr llv lk lv2 la)).2) := rfl
    rw [hstep]
    exact post_del_node_left k v a ht hp
  | node nil nil lv k v a, ht => by
    obtain ⟨_, _, h3, _, _⟩ := ht
    simp only [lvl_nil] at h3
    show postDel (node nil nil lv k v a) nil
    refine ⟨trivial, Or.inr ?_, ?_⟩
    · simp only [lvl_nil, lvl_node]
      omega
    · intro h6 _
      simp only [lvl_nil, lvl_node] at h6
      omega
  | node nil (node rl rr rlv rk rv2 ra) lv k v a, ht => by
    rcases removeMinLink_spec (g := g) (node rl rr rlv rk rv2 ra) (by simp)
      with ⟨e, he1, _⟩
    have hp := removeMinLink_post (t := node rl rr rlv rk rv2 ra) ht.2.1
    have hfull : removeMinLink g (node rl rr rlv rk rv2 ra) =
        ((removeMinLink g (node rl rr rlv rk rv2 ra)).1, some e) :=
      Prod.ext rfl he1
    have hstep : removeMinLink g (node nil (node rl rr rlv rk rv2 ra) lv k v a) =
        (rebalance g (node nil (removeMinLink g (node rl rr rlv rk rv2 ra)).1
          lv e.1 e.2 a), some (k, v)) := by
      conv_lhs => rw [show removeMinLink g
        (node nil (node rl rr rlv rk rv2 ra) lv k v a) =
          (match removeMinLink g (node rl rr rlv rk rv2 ra) with
            | (r2, some rep) =>
              (rebalance g (node nil r2 lv rep.1 rep.2 a), some (k, v))
            | (_, none) => (nil, some (k, v))) from rfl, hfull]
    rw [hstep]
    exact post_del_node_right e.1 e.2 a ht hp

/-- `Path::remove_` at an occupied link leaves a valid AA outcome. -/
theorem removeHere_post : ∀ {t : Tree K V A}, aa t →
    postDel t (removeHere g t).1
  | nil, _ => ⟨trivial, Or.inl rfl, fun _ h => h⟩
  | node (node ll lr llv lk lv2 la) r lv k v a, ht => by
    rcases removeMaxLink_spec (g := g) (node ll lr llv lk lv2 la) (by simp)
      with ⟨e, he1, _⟩
    have hp := removeMaxLink_post (g := g)
      (t := node ll lr llv lk lv2 la) ht.1
    have hfull : removeMaxLink g (node ll lr llv lk lv2 la) =
        ((removeMaxLink g (node ll lr llv lk lv2 la)).1, some e) :=
      Prod.ext rfl he1
    have hstep : removeHere g (node (node ll lr llv lk lv2 la) r lv k v a) =
        (rebalance g (node (removeMaxLink g (node ll lr llv lk lv2 la)).1 r
          lv e.1 e.2 a), some (k, v)) := by
      conv_lhs => rw [show removeHere g
        (node (node ll lr llv lk lv2 la) r lv k v a) =
          (match removeMaxLink g (node ll lr llv lk lv2 la) with
            | (l2, some rep) =>
              (rebalance g (node l2 r lv rep.1 rep.2 a), some (k, v))
            | (_, none) => (nil, some (k, v))) from rfl, hfull]
    rw [hstep]
    exact post_del_node_left e.1 e.2 a ht hp
  | node nil (node rl rr rlv rk rv2 ra) lv k v a, ht => by
    rcases removeMinLink_spec (g := g) (node rl rr rlv rk rv2 ra) (by simp)
      with ⟨e, he1, _⟩
    have hp := removeMinLink_post (g := g)
      (t := node rl rr rlv rk rv2 ra) ht.2.1
    have hfull : removeMinLink g (node rl rr rlv rk rv2 ra) =
        ((removeMinLink g (node rl rr rlv rk rv2 ra)).1, some e) :=
      Prod.ext rfl he1
    have hstep : removeHere g (node nil (node rl rr rlv rk rv2 ra) lv k v a) =
        (rebalance g (node nil (removeMinLink g (node rl rr rlv rk rv2 ra)).1
          lv e.1 e.2 a), some (k, v)) := by
      conv_lhs => rw [show removeHere g
        (node nil (node rl rr rlv rk rv2 ra) lv k v a) =
          (match removeMinLink g (node rl rr rlv rk rv2 ra) with
            | (r2, some rep) =>
              (rebalance g (node nil r2 lv rep.1 rep.2 a), some (k, v))
            | (_, none) => (nil, some (k, v))) from rfl, hfull]
    rw [hstep]
    exact post_del_node_right e.1 e.2 a ht hp
  | node nil nil lv k v a, ht => by
    obtain ⟨_, _, h3, _, _⟩ := ht
    simp only [lvl_nil] at h3
    show postDel (node nil nil lv k v a) nil
    refine ⟨trivial, Or.inr ?_, ?_⟩
    · simp only [lvl_nil, lvl_node]
      omega
    · intro h6 _
      simp only [lvl_nil, lvl_node] at h6
      omega

/-- `Map::remove`: the search-path rebalances keep the tree a valid AA
tree, whether or not the key was found. -/
theorem removeGo_post (k : K) : ∀ {t : Tree K V A}, aa t →
    postDel t (removeGo g c t k).1
  | nil, _ => ⟨trivial, Or.inl rfl, fun _ h => h⟩
  | node l r lv k1 v1 a, ht => by
    simp only [removeGo]
    cases hcc : c k k1
    · have hp := removeGo_post k (t := l) ht.1
      show postDel (node l r lv k1 v1 a)
        (rebalance g (node (removeGo g c l k).1 r lv k1 v1 a))
      exact post_del_node_left k1 v1 a ht hp
    · exact removeHere_post ht
    · have hp := removeGo_post k (t := r) ht.2.1
      show postDel (node l r lv k1 v1 a)
        (rebalance g (node l (removeGo g c r k).1 lv k1 v1 a))
      exact post_del_node_right k1 v1 a ht hp

/-- Entry-based removal also leaves a valid AA outcome: the vacant case
is the identity, the occupied one replays `Map::remove`. -/
theorem entryRemove_post (k : K) : ∀ {t : Tree K V A}, aa t →
    postDel t (Tree.entryRemove g c t k).1
  | nil, _ => ⟨trivial, Or.inl rfl, fun _ h => h⟩
  | node l r lv k1 v1 a, ht => by
    simp only [Tree.entryRemove]
    cases hcc : c k k1
    · have hp := entryRemove_post k (t := l) ht.1
      rcases hsub : Tree.entryRemove g c l k with ⟨l2, rep⟩
      rw [hsub] at hp
      cases rep
      · exact postDel_refl ht
      · exact post_del_node_left k1 v1 a ht hp
    · exact removeHere_post ht
    · have hp := entryRemove_post k (t := r) ht.2.1
      rcases hsub : Tree.entryRemove g c r k with ⟨r2, rep⟩
      rw [hsub] at hp
      cases rep
      · exact postDel_refl ht
      · exact post_del_node_right k1 v1 a ht hp

/-- A `Neighbor` removal traversal leaves a valid AA outcome whatever it
removed. -/
theorem removeClosest_post (isMin : Bool) (k : K) (inc : Bool) :
    ∀ {t : Tree K V A}, aa t →
      postDel t (removeClosest g c isMin t k inc).1
  | nil, _ => ⟨trivial, Or.inl rfl, fun _ h => h⟩
  | node l r lv k1 v1 a, ht => by
    simp only [removeClosest]
    cases hcc : c k k1
    case lt =>
      rcases hrc : removeClosest g c isMin l k inc with ⟨l2, out⟩
      have hp := removeClosest_post isMin k inc (t := l) ht.1
      rw [hrc] at hp
      cases out with
      | removed rk2 rv2 => exact post_del_node_left k1 v1 a ht hp
      | useSave =>
        cases isMin with
        | true => exact postDel_refl ht
        | false =>
          rcases hrh : removeHere g (node l r lv k1 v1 a) with ⟨t2, rep⟩
          have hp2 := removeHere_post (g := g) ht
          rw [hrh] at hp2
          cases rep
          · exact hp2
          · exact hp2
    case eq =>
      cases inc with
      | true =>
        rcases hrh : removeHere g (node l r lv k1 v1 a) with ⟨t2, rep⟩
        have hp2 := removeHere_post (g := g) ht
        rw [hrh] at hp2
        cases rep
        · exact hp2
        · exact hp2
      | false =>
        cases isMin with
        | true =>
          cases l with
          | nil => exact postDel_refl ht
          | node ll lr llv lk lvv la =>
            rcases hrm : removeMaxLink g (node ll lr llv lk lvv la)
              with ⟨l2, rep⟩
            have hp := removeMaxLink_post (g := g)
              (t := node ll lr llv lk lvv la) ht.1
            rw [hrm] at hp
            cases rep
            · exact post_del_node_left k1 v1 a ht hp
            · exact post_del_node_left k1 v1 a ht hp
        | false =>
          cases r with
          | nil => exact postDel_refl ht
          | node rl rr rlv rk rvv ra =>
            rcases hrm : removeMinLink g (node rl rr rlv rk rvv ra)
              with ⟨r2, rep⟩
            have hp := removeMinLink_post (g := g)
              (t := node rl rr rlv rk rvv ra) ht.2.1
            rw [hrm] at hp
            cases rep
            · exact post_del_node_right k1 v1 a ht hp
            · exact post_del_node_right k1 v1 a ht hp
    case gt =>
      rcases hrc : removeClosest g c isMin r k inc with ⟨r2, out⟩
      have hp := removeClosest_post isMin k inc (t := r) ht.2.1
      rw [hrc] at hp
      cases out with
      | removed rk2 rv2 => exact post_del_node_right k1 v1 a ht hp
      | useSave =>
        cases isMin with
        | true =>
          rcases hrh : removeHere g (node l r lv k1 v1 a) with ⟨t2, rep⟩
          have hp2 := removeHere_post (g := g) ht
          rw [hrh] at hp2
          cases rep
          · exact hp2
          · exact hp2
        | false => exact postDel_refl ht

/-- On a valid AA tree the empty-handed rebalance pass of a `Neighbor`
removal is the identity. -/
theorem rebalanceSearchPath_aa_id (k : K) : ∀ {t : Tree K V A}, aa t →
    rebalanceSearchPath g c t k = t
  | nil, _ => rfl
  | node l r lv k1 v1 a, ht => by
    simp only [rebalanceSearchPath]
    cases hcc : c k k1
    · rw [rebalanceSearchPath_aa_id k (t := l) ht.1]
      exact rebalance_aa_id ht
    · exact rebalance_aa_id ht
    · rw [rebalanceSearchPath_aa_id k (t := r) ht.2.1]
      exact rebalance_aa_id ht

/-- `Map::remove_pred` / `Map::remove_succ` leave a valid AA outcome. -/
theorem removeNeighbor_post (isMin : Bool) (k : K) (inc : Bool)
    {t : Tree K V A} (ht : aa t) :
    postDel t (removeNeighbor g c isMin t k inc).1 := by
  simp only [removeNeighbor]
  rcases hrc : removeClosest g c isMin t k inc with ⟨t2, out⟩
  have hp := removeClosest_post (g := g) (c := c) isMin k inc ht
  rw [hrc] at hp
  cases out with
  | removed rk2 rv2 => exact hp
  | useSave =>
    rw [rebalanceSearchPath_aa_id k ht]
    exact postDel_refl ht

/-- `or_insert` either returns the untouched tree with the stored value
or behaves exactly like `insert` (and then the probe reported a vacant
key). -/
theorem orInsertGo_cases (k : K) (v : V) : ∀ t : Tree K V A,
    (∃ w, orInsertGo g c t k v = (t, some w)) ∨
      ((insert g c t k v).2 = none ∧
        orInsertGo g c t k v = insert g c t k v)
  | nil => Or.inr ⟨rfl, rfl⟩
  | node l r lv k1 v1 a => by
    simp only [orInsertGo, insert]
    cases hcc : c k k1
    · rcases orInsertGo_cases k v l with ⟨w, hw⟩ | ⟨h1, h2⟩
      · rw [hw]
        exact Or.inl ⟨w, rfl⟩
      · rw [h2, show insert g c l k v = ((insert g c l k v).1, none) from
          Prod.ext rfl h1]
        exact Or.inr ⟨rfl, rfl⟩
    · exact Or.inl ⟨v1, rfl⟩
    · rcases orInsertGo_cases k v r with ⟨w, hw⟩ | ⟨h1, h2⟩
      · rw [hw]
        exact Or.inl ⟨w, rfl⟩
      · rw [h2, show insert g c r k v = ((insert g c r k v).1, none) from
          Prod.ext rfl h1]
        exact Or.inr ⟨rfl, rfl⟩

end Tree

open Tree in
/-- Claim C4: after every insert and every remove — through `Map::insert`,
`entry().or_insert`, `Map::remove`, entry-based removal,
`Map::remove_min` / `Map::remove_max` and the neighbor removals — every
node of the tree satisfies the AA level invariants: a leaf has level 1
(the level is one more than the left child's level, `nil` counting as
level 0, so the left child sits exactly one below), the right child sits
at the node's level or one below, and a right-horizontal link is never
followed by another (the right child's right child is strictly lower). -/
theorem claim_C4 {K V A : Type} (c : K → K → Ordering) (g : Tree.AugOps A)
    (m : Map K V A) (hm : Tree.aa m.root) (k : K) (v : V) (inc : Bool) :
    Tree.aa (Map.insert g c m k v).1.root ∧
      Tree.aa (Map.entryOrInsert g c m k v).1.root ∧
      Tree.aa (Map.remove g c m k).1.root ∧
      Tree.aa (Map.entryRemove g c m k).1.root ∧
      Tree.aa (Map.removeMin g m).1.root ∧
      Tree.aa (Map.removeMax g m).1.root ∧
      Tree.aa (Map.removePred g c m k inc).1.root ∧
      Tree.aa (Map.removeSucc g c m k inc).1.root := by
  refine ⟨(insert_aa hm k v).1, ?_, (removeGo_post k hm).1,
    (entryRemove_post k hm).1, (removeMinLink_post hm).1,
    (removeMaxLink_post hm).1, (removeNeighbor_post true k inc hm).1,
    (removeNeighbor_post false k inc hm).1⟩
  rcases ho : Tree.orInsertGo g c m.root k v with ⟨t2, ret⟩
  have key : aa (Tree.orInsertGo g c m.root k v).1 := by
    rcases orInsertGo_cases (g := g) (c := c) k v m.root with ⟨w, hw⟩ | ⟨_, h2⟩
    · rw [hw]
      exact hm
    · rw [h2]
      exact (insert_aa hm k v).1
  rw [ho] at key
  simp only [Map.entryOrInsert, ho]
  cases ret
  · exact key
  · exact key

/-- The AA level invariant holds on the three-key sanity map and survives
one step of each mutating operation. -/
theorem claim_C4_witness :
    Tree.aa (wm.root) ∧
      (Tree.aa (Map.insert unitAug ordCmp wm 2 9).1.root ∧
        Tree.aa (Map.entryOrInsert unitAug ordCmp wm 2 9).1.root ∧
        Tree.aa (Map.remove unitAug ordCmp wm 2).1.root ∧
        Tree.aa (Map.entryRemove unitAug ordCmp wm 2).1.root ∧
        Tree.aa (Map.removeMin unitAug wm).1.root ∧
        Tree.aa (Map.removeMax unitAug wm).1.root ∧
        Tree.aa (Map.removePred unitAug ordCmp wm 2 true).1.root ∧
        Tree.aa (Map.removeSucc unitAug ordCmp wm 2 true).1.root) :=
  ⟨by decide, claim_C4 ordCmp unitAug wm (by decide) 2 9 true⟩

namespace Tree

variable {K V A : Type} {g : AugOps A} {c : K → K → Ordering}

/-- `Path::remove_` at an occupied link never enlarges the in-order
sequence. -/
theorem removeHere_sublist (t : Tree K V A) :
    (inorder (removeHere g t).1).Sublist (inorder t) := by
  cases t with
  | nil => exact List.Sublist.refl _
  | node l r lv k v a =>
    rw [(removeHere_spec (g := g) l r lv k v a).2, inorder_node]
    exact (List.sublist_cons_self (k, v) (inorder r)).append_left (inorder l)

theorem removeMaxLink_sublist (t : Tree K V A) :
    (inorder (removeMaxLink g t).1).Sublist (inorder t) := by
  cases t with
  | nil => exact List.Sublist.refl _
  | node l r lv k v a =>
    rcases removeMaxLink_spec (g := g) (node l r lv k v a) (by simp)
      with ⟨e, _, he2⟩
    rw [he2]
    exact List.sublist_append_left _ _

theorem removeMinLink_sublist (t : Tree K V A) :
    (inorder (removeMinLink g t).1).Sublist (inorder t) := by
  cases t with
  | nil => exact List.Sublist.refl _
  | node l r lv k v a =>
    rcases removeMinLink_spec (g := g) (node l r lv k v a) (by simp)
      with ⟨e, _, he2⟩
    rw [he2]
    exact List.sublist_cons_self _ _

/-- Entry-based removal never enlarges the in-order sequence. -/
theorem entryRemove_sublist (k : K) : ∀ t : Tree K V A,
    (inorder (Tree.entryRemove g c t k).1).Sublist (inorder t)
  | nil => List.Sublist.refl _
  | node l r lv k1 v1 a => by
    simp only [Tree.entryRemove]
    cases hcc : c k k1
    · rcases hsub : Tree.entryRemove g c l k with ⟨l2, rep⟩
      have ih := entryRemove_sublist k l
      rw [hsub] at ih
      cases rep
      · exact List.Sublist.refl _
      · simp only [inorder_rebalance, inorder_node]
        exact ih.append (List.Sublist.refl _)
    · exact removeHere_sublist (g := g) (node l r lv k1 v1 a)
    · rcases hsub : Tree.entryRemove g c r k with ⟨r2, rep⟩
      have ih := entryRemove_sublist k r
      rw [hsub] at ih
      cases rep
      · exact List.Sublist.refl _
      · simp only [inorder_rebalance, inorder_node]
        exact (List.Sublist.refl _).append (ih.cons₂ _)

/-- A `Neighbor` removal traversal never enlarges the in-order
sequence. -/
theorem removeClosest_sublist (isMin : Bool) (k : K) (inc : Bool) :
    ∀ t : Tree K V A,
      (inorder (removeClosest g c isMin t k inc).1).Sublist (inorder t)
  | nil => List.Sublist.refl _
  | node l r lv k1 v1 a => by
    simp only [removeClosest]
    cases hcc : c k k1
    case lt =>
      rcases hrc : removeClosest g c isMin l k inc with ⟨l2, out⟩
      have ih := removeClosest_sublist isMin k inc l
      rw [hrc] at ih
      cases out with
      | removed rk2 rv2 =>
        simp only [inorder_rebalance, inorder_node]
        exact ih.append (List.Sublist.refl _)
      | useSave =>
        cases isMin with
        | true => exact List.Sublist.refl _
        | false =>
          rcases hrh : removeHere g (node l r lv k1 v1 a) with ⟨t2, rep⟩
          have hrs := removeHere_sublist (g := g) (node l r lv k1 v1 a)
          rw [hrh] at hrs
          cases rep
          · exact hrs
          · exact hrs
    case eq =>
      cases inc with
      | true =>
        rcases hrh : removeHere g (node l r lv k1 v1 a) with ⟨t2, rep⟩
        have hrs := removeHere_sublist (g := g) (node l r lv k1 v1 a)
        rw [hrh] at hrs
        cases rep
        · exact hrs
        · exact hrs
      | false =>
        cases isMin with
        | true =>
          cases l with
          | nil => exact List.Sublist.refl _
          | node ll lr llv lk lvv la =>
            rcases hrm : removeMaxLink g (node ll lr llv lk lvv la)
              with ⟨l2, rep⟩
            have hrs := removeMaxLink_sublist (g := g)
              (node ll lr llv lk lvv la)
            rw [hrm] at hrs
            cases rep
            · show (inorder (rebalance g (node l2 r lv k1 v1 a))).Sublist
                (inorder (node (node ll lr llv lk lvv la) r lv k1 v1 a))
              simp only [inorder_rebalance, inorder_node]
              exact hrs.append (List.Sublist.refl _)
            · show (inorder (rebalance g (node l2 r lv k1 v1 a))).Sublist
                (inorder (node (node ll lr llv lk lvv la) r lv k1 v1 a))
              simp only [inorder_rebalance, inorder_node]
              exact hrs.append (List.Sublist.refl _)
        | false =>
          cases r with
          | nil => exact List.Sublist.refl _
          | node rl rr rlv rk rvv ra =>
            rcases hrm : removeMinLink g (node rl rr rlv rk rvv ra)
              with ⟨r2, rep⟩
            have hrs := removeMinLink_sublist (g := g)
              (node rl rr rlv rk rvv ra)
            rw [hrm] at hrs
            cases rep
            · show (inorder (rebalance g (node l r2 lv k1 v1 a))).Sublist
                (inorder (node l (node rl rr rlv rk rvv ra) lv k1 v1 a))
              simp only [inorder_rebalance, inorder_node]
              exact (List.Sublist.refl _).append (hrs.cons₂ _)
            · show (inorder (rebalance g (node l r2 lv k1 v1 a))).Sublist
                (inorder (node l (node rl rr rlv rk rvv ra) lv k1 v1 a))
              simp only [inorder_rebalance, inorder_node]
              exact (List.Sublist.refl _).append (hrs.cons₂ _)
    case gt =>
      rcases hrc : removeClosest g c isMin r k inc with ⟨r2, out⟩
      have ih := removeClosest_sublist isMin k inc r
      rw [hrc] at ih
      cases out with
      | removed rk2 rv2 =>
        simp only [inorder_rebalance, inorder_node]
        exact (List.Sublist.refl _).append (ih.cons₂ _)
      | useSave =>
        cases isMin with
        | true =>
          rcases hrh : removeHere g (node l r lv k1 v1 a) with ⟨t2, rep⟩
          have hrs := removeHere_sublist (g := g) (node l r lv k1 v1 a)
          rw [hrh] at hrs
          cases rep
          · exact hrs
          · exact hrs
        | false => exact List.Sublist.refl _

/-- The empty-handed rebalance pass keeps the in-order sequence. -/
theorem inorder_rebalanceSearchPath (k : K) : ∀ t : Tree K V A,
    inorder (rebalanceSearchPath g c t k) = inorder t
  | nil => rfl
  | node l r lv k1 v1 a => by
    simp only [rebalanceSearchPath]
    cases hcc : c k k1
    · simp only [inorder_rebalance, inorder_node,
        inorder_rebalanceSearchPath k l]
    · simp only [inorder_rebalance]
    · simp only [inorder_rebalance, inorder_node,
        inorder_rebalanceSearchPath k r]

theorem removeNeighbor_sublist (isMin : Bool) (k : K) (inc : Bool)
    (t : Tree K V A) :
    (inorder (removeNeighbor g c isMin t k inc).1).Sublist (inorder t) := by
  simp only [removeNeighbor]
  rcases hrc : removeClosest g c isMin t k inc with ⟨t2, out⟩
  have hrs := removeClosest_sublist (g := g) (c := c) isMin k inc t
  rw [hrc] at hrs
  cases out with
  | removed rk2 rv2 => exact hrs
  | useSave =>
    rw [inorder_rebalanceSearchPath (g := g) (c := c) k t]

/-- Sortedness survives any shrink of the in-order sequence. -/
theorem srtd_sublist {t2 t : Tree K V A}
    (h : (inorder t2).Sublist (inorder t)) (hs : srtd c t) : srtd c t2 := by
  have hp : (inorder t).Pairwise (fun x y => c x.1 y.1 = .lt) := hs
  exact List.Pairwise.sublist h hp

/-- A strictly increasing key sequence has no duplicate keys. -/
theorem nodup_keys_of_srtd (hc : TotalCmp c) {t : Tree K V A}
    (hs : srtd c t) : (keyList t).Nodup := by
  have hp : (inorder t).Pairwise (fun x y => c x.1 y.1 = .lt) := hs
  exact List.pairwise_map.2 (hp.imp fun h => TotalCmp.lt_ne hc h)

end Tree

/-- One public mutating call of the map API, the alphabet of the spec's
"every sequence of public operations" (it mirrors the crate's own
quickcheck driver of node/test.rs). -/
inductive Op (K V : Type) where
  | ins (k : K) (v : V)
  | del (k : K)
  | entryIns (k : K) (v : V)
  | entryDel (k : K)
  | delMin
  | delMax
  | delPred (k : K) (inc : Bool)
  | delSucc (k : K) (inc : Bool)
  deriving DecidableEq

/-- Apply one public operation to a map, dropping the returned value. -/
def runOp {K V A : Type} (g : Tree.AugOps A) (c : K → K → Ordering)
    (m : Map K V A) : Op K V → Map K V A
  | .ins k v => (Map.insert g c m k v).1
  | .del k => (Map.remove g c m k).1
  | .entryIns k v => (Map.entryOrInsert g c m k v).1
  | .entryDel k => (Map.entryRemove g c m k).1
  | .delMin => (Map.removeMin g m).1
  | .delMax => (Map.removeMax g m).1
  | .delPred k inc => (Map.removePred g c m k inc).1
  | .delSucc k inc => (Map.removeSucc g c m k inc).1

/-- Run a sequence of public operations (most recent first) from the
empty map. -/
def run {K V A : Type} (g : Tree.AugOps A) (c : K → K → Ordering) :
    List (Op K V) → Map K V A
  | [] => Map.empty
  | op :: ops => runOp g c (run g c ops) op

open Tree in
/-- Every single public operation keeps the in-order entry sequence
strictly increasing. -/
theorem srtd_runOp {K V A : Type} {c : K → K → Ordering} (hc : TotalCmp c)
    (g : Tree.AugOps A) {m : Map K V A} (hs : srtd c m.root) (op : Op K V) :
    srtd c (runOp g c m op).root := by
  cases op with
  | ins k v => exact srtd_insert hc hs k v
  | del k => exact srtd_sublist (sublist_of_removeGo hc hs k) hs
  | entryIns k v =>
    rcases ho : Tree.orInsertGo g c m.root k v with ⟨t2, ret⟩
    have key : srtd c (Tree.orInsertGo g c m.root k v).1 := by
      rcases orInsertGo_cases (g := g) (c := c) k v m.root with
        ⟨w, hw⟩ | ⟨_, h2⟩
      · rw [hw]
        exact hs
      · rw [h2]
        exact srtd_insert hc hs k v
    rw [ho] at key
    show srtd c (Map.entryOrInsert g c m k v).1.root
    simp only [Map.entryOrInsert, ho]
    cases ret
    · exact key
    · exact key
  | entryDel k => exact srtd_sublist (entryRemove_sublist k m.root) hs
  | delMin => exact srtd_sublist (removeMinLink_sublist m.root) hs
  | delMax => exact srtd_sublist (removeMaxLink_sublist m.root) hs
  | delPred k inc =>
    exact srtd_sublist (removeNeighbor_sublist true k inc m.root) hs
  | delSucc k inc =>
    exact srtd_sublist (removeNeighbor_sublist false k inc m.root) hs

open Tree in
/-- Claim C3: after every call of every sequence of public operations
(insert, remove, entry-based insert and remove, remove_min/remove_max,
and the neighbor removals) the in-order key sequence of the tree is
strictly increasing under the map's comparator, with no duplicate keys.
Every such run is `run g c ops` for the list of calls made so far. -/
theorem claim_C3 {K V A : Type} (c : K → K → Ordering) (hc : TotalCmp c)
    (g : Tree.AugOps A) (ops : List (Op K V)) :
    Tree.srtd c (run (A := A) g c ops).root ∧
      (Tree.keyList (run (A := A) g c ops).root).Nodup := by
  have hs : Tree.srtd c (run (A := A) g c ops).root := by
    induction ops with
    | nil => exact List.Pairwise.nil
    | cons op ops ih => exact srtd_runOp hc g ih op
  exact ⟨hs, nodup_keys_of_srtd hc hs⟩

/-- A five-call run — three inserts, a removal and a neighbor removal —
ends sorted and duplicate-free. -/
theorem claim_C3_witness :
    TotalCmp (ordCmp (K := Nat)) ∧
      (Tree.srtd ordCmp (run (A := Unit) unitAug ordCmp
          [Op.delPred 2 true, Op.del 1, Op.ins 1 10, Op.ins 2 20,
            Op.ins 3 30]).root ∧
        (Tree.keyList (run (A := Unit) unitAug ordCmp
          [Op.delPred 2 true, Op.del 1, Op.ins 1 10, Op.ins 2 20,
            Op.ins 3 30]).root).Nodup) :=
  ⟨ordCmp_total, claim_C3 ordCmp ordCmp_total unitAug
    [Op.delPred 2 true, Op.del 1, Op.ins 1 10, Op.ins 2 20,
      Op.ins 3 30]⟩

namespace Tree

variable {K V A : Type} {g : AugOps A} {c : K → K → Ordering}

/-- `Max::extreme` returns the last in-order entry. -/
theorem extreme_max : ∀ {t : Tree K V A}, t ≠ nil →
    extreme false t = (inorder t).getLast?
  | nil, h => absurd rfl h
  | node l r lv k v a, _ => by
    cases r with
    | nil =>
      show some (k, v) = (inorder (node l nil lv k v a)).getLast?
      rw [inorder_node, List.getLast?_append_of_ne_nil _ (by simp)]
      rfl
    | node rl rr rlv rk rv2 ra =>
      show extreme false (node rl rr rlv rk rv2 ra) =
        (inorder (node l (node rl rr rlv rk rv2 ra) lv k v a)).getLast?
      rw [extreme_max (t := node rl rr rlv rk rv2 ra)
        (fun h => Tree.noConfusion h)]
      rw [inorder_node l (node rl rr rlv rk rv2 ra),
        List.getLast?_append_of_ne_nil _ (by simp),
        show ((k, v) :: inorder (node rl rr rlv rk rv2 ra)) =
          [(k, v)] ++ inorder (node rl rr rlv rk rv2 ra) from rfl,
        List.getLast?_append_of_ne_nil _ (by simp)]

/-- `Min::extreme` returns the first in-order entry. -/
theorem extreme_min : ∀ {t : Tree K V A}, t ≠ nil →
    extreme true t = (inorder t).head?
  | nil, h => absurd rfl h
  | node l r lv k v a, _ => by
    cases l with
    | nil =>
      show some (k, v) = (inorder (node nil r lv k v a)).head?
      rfl
    | node ll lr llv lk lv2 la =>
      show extreme true (node ll lr llv lk lv2 la) =
        (inorder (node (node ll lr llv lk lv2 la) r lv k v a)).head?
      rw [extreme_min (t := node ll lr llv lk lv2 la)
        (fun h => Tree.noConfusion h)]
      rw [inorder_node (node ll lr llv lk lv2 la) r,
        List.head?_append_of_ne_nil _ (by simp)]

/-- The pred-side `closest` on a sorted subtree: for any candidate
predicate that is true below the query, false above it, and decides
inclusivity at it, the traversal returns the last in-order entry
satisfying the predicate, else the saved ancestor. -/
theorem closest_pred (hc : TotalCmp c) (q : K) (inc : Bool) (p : K → Bool)
    (hplt : ∀ k2, c k2 q = Ordering.lt → p k2 = true)
    (hpgt : ∀ k2, c k2 q = Ordering.gt → p k2 = false)
    (hpq : p q = inc) :
    ∀ {t : Tree K V A}, srtd c t → ∀ save : Option (K × V),
      closest true c t q inc save =
        (((inorder t).filter fun e => p e.1).getLast?).or save
  | nil, _, save => rfl
  | node l r lv k1 v1 a, hs, save => by
    rcases ordered_node_split hs with ⟨hsl, hsr, hkl, hkr⟩
    simp only [closest, inorder_node, List.filter_append, List.filter_cons]
    cases hcc : c q k1
    case lt =>
      have hk1 : p k1 = false := hpgt k1 ((hc.lt_swap q k1).1 hcc)
      have hr0 : (inorder r).filter (fun e => p e.1) = [] := by
        rw [List.filter_eq_nil_iff]
        intro e he
        have h2 : c q e.1 = .lt := hc.lt_trans q k1 e.1 hcc (hkr e he)
        simp [hpgt e.1 ((hc.lt_swap q e.1).1 h2)]
      show closest true c l q inc save = _
      rw [hr0, hk1, if_neg Bool.false_ne_true, List.append_nil]
      exact closest_pred hc q inc p hplt hpgt hpq hsl save
    case eq =>
      have hqe : q = k1 := (hc.eq_iff q k1).1 hcc
      subst hqe
      have hl1 : (inorder l).filter (fun e => p e.1) = inorder l := by
        rw [List.filter_eq_self]
        intro e he
        exact hplt e.1 (hkl e he)
      have hr0 : (inorder r).filter (fun e => p e.1) = [] := by
        rw [List.filter_eq_nil_iff]
        intro e he
        simp [hpgt e.1 ((hc.gt_swap e.1 q).2 (hkr e he))]
      rw [hl1, hr0, hpq]
      cases inc with
      | true =>
        show some (q, v1) = _
        rw [if_pos rfl, List.getLast?_append_of_ne_nil _ (by simp)]
        rfl
      | false =>
        cases l with
        | nil =>
          show save = _
          rw [if_neg Bool.false_ne_true, List.append_nil]
          rfl
        | node ll lr llv lk lv2 la =>
          show extreme false (node ll lr llv lk lv2 la) = _
          rw [if_neg Bool.false_ne_true, List.append_nil]
          rw [extreme_max (fun h => Tree.noConfusion h)]
          rcases hL : (inorder (node ll lr llv lk lv2 la)).getLast?
            with _ | e
          · rw [List.getLast?_eq_none_iff] at hL
            exact absurd hL (by simp)
          · rfl
    case gt =>
      have hk1 : p k1 = true := hplt k1 ((hc.lt_swap k1 q).2 hcc)
      have hl1 : (inorder l).filter (fun e => p e.1) = inorder l := by
        rw [List.filter_eq_self]
        intro e he
        have h1 : c q e.1 = .gt := all_gt_of_left hc hkl hcc e he
        exact hplt e.1 ((hc.gt_swap q e.1).1 h1)
      show closest true c r q inc (some (k1, v1)) = _
      rw [hl1, hk1, if_pos rfl,
        List.getLast?_append_of_ne_nil _ (by simp),
        show ((k1, v1) :: (inorder r).filter fun e => p e.1) =
          [(k1, v1)] ++ ((inorder r).filter fun e => p e.1) from rfl,
        List.getLast?_append]
      rw [closest_pred hc q inc p hplt hpgt hpq hsr (some (k1, v1))]
      rw [Option.or_assoc]
      rfl

/-- The succ-side `closest` on a sorted subtree returns the first
in-order entry satisfying the predicate, else the saved ancestor. -/
theorem closest_succ (hc : TotalCmp c) (q : K) (inc : Bool) (p : K → Bool)
    (hpgt : ∀ k2, c k2 q = Ordering.gt → p k2 = true)
    (hplt : ∀ k2, c k2 q = Ordering.lt → p k2 = false)
    (hpq : p q = inc) :
    ∀ {t : Tree K V A}, srtd c t → ∀ save : Option (K × V),
      closest false c t q inc save =
        (((inorder t).filter fun e => p e.1).head?).or save
  | nil, _, save => rfl
  | node l r lv k1 v1 a, hs, save => by
    rcases ordered_node_split hs with ⟨hsl, hsr, hkl, hkr⟩
    simp only [closest, inorder_node, List.filter_append, List.filter_cons]
    cases hcc : c q k1
    case lt =>
      have hk1 : p k1 = true := hpgt k1 ((hc.lt_swap q k1).1 hcc)
      have hr1 : (inorder r).filter (fun e => p e.1) = inorder r := by
        rw [List.filter_eq_self]
        intro e he
        have h2 : c q e.1 = .lt := hc.lt_trans q k1 e.1 hcc (hkr e he)
        exact hpgt e.1 ((hc.lt_swap q e.1).1 h2)
      show closest false c l q inc (some (k1, v1)) = _
      rw [hr1, hk1, if_pos rfl, List.head?_append]
      rw [closest_succ hc q inc p hpgt hplt hpq hsl (some (k1, v1))]
      rw [Option.or_assoc]
      rfl
    case eq =>
      have hqe : q = k1 := (hc.eq_iff q k1).1 hcc
      subst hqe
      have hl0 : (inorder l).filter (fun e => p e.1) = [] := by
        rw [List.filter_eq_nil_iff]
        intro e he
        simp [hplt e.1 (hkl e he)]
      have hr1 : (inorder r).filter (fun e => p e.1) = inorder r := by
        rw [List.filter_eq_self]
        intro e he
        exact hpgt e.1 ((hc.gt_swap e.1 q).2 (hkr e he))
      rw [hl0, hr1, hpq, List.nil_append]
      cases inc with
      | true =>
        show some (q, v1) = _
        rw [if_pos rfl]
        rfl
      | false =>
        cases r with
        | nil =>
          show save = _
          rw [if_neg Bool.false_ne_true]
          rfl
        | node rl rr rlv rk rvv ra =>
          show extreme true (node rl rr rlv rk rvv ra) = _
          rw [if_neg Bool.false_ne_true]
          rw [extreme_min (fun h => Tree.noConfusion h)]
          rcases hL : (inorder (node rl rr rlv rk rvv ra)).head? with _ | e
          · rw [List.head?_eq_none_iff] at hL
            exact absurd hL (by simp)
          · rfl
    case gt =>
      have hk1 : p k1 = false := hplt k1 ((hc.lt_swap k1 q).2 hcc)
      have hl0 : (inorder l).filter (fun e => p e.1) = [] := by
        rw [List.filter_eq_nil_iff]
        intro e he
        have h1 : c q e.1 = .gt := all_gt_of_left hc hkl hcc e he
        simp [hplt e.1 ((hc.gt_swap q e.1).1 h1)]
      show closest false c r q inc save = _
      rw [hl0, hk1, if_neg Bool.false_ne_true, List.nil_append]
      exact closest_succ hc q inc p hpgt hplt hpq hsr save

end Tree

open Tree in
/-- Claim C7: on a sorted map, whether or not the query key is present,
`pred(q, false)` returns the entry with the greatest key strictly below
`q` and `pred(q, true)` the greatest at most `q`; `succ(q, false)`
returns the entry with the smallest key strictly above `q` and
`succ(q, true)` the smallest at least `q`; each is `None` exactly when no
such key exists (the bound-satisfying subsequence of the ascending
iteration is empty). -/
theorem claim_C7 {K V A : Type} (c : K → K → Ordering) (hc : TotalCmp c)
    (m : Map K V A) (hs : Tree.srtd c m.root) (q : K) :
    (Map.pred c m q false =
        ((Tree.inorder m.root).filter fun e =>
          c e.1 q == Ordering.lt).getLast? ∧
      Map.pred c m q true =
        ((Tree.inorder m.root).filter fun e =>
          c e.1 q != Ordering.gt).getLast?) ∧
      (Map.succ c m q false =
        ((Tree.inorder m.root).filter fun e =>
          c e.1 q == Ordering.gt).head? ∧
      Map.succ c m q true =
        ((Tree.inorder m.root).filter fun e =>
          c e.1 q != Ordering.lt).head?) := by
  refine ⟨⟨?_, ?_⟩, ?_, ?_⟩
  · have h := closest_pred hc q false (fun k2 => c k2 q == Ordering.lt)
      (fun k2 h2 => by simp only [h2]; rfl)
      (fun k2 h2 => by simp only [h2]; rfl)
      (by simp only [hc.eq_self q]; rfl) hs none
    simpa [Map.pred] using h
  · have h := closest_pred hc q true (fun k2 => c k2 q != Ordering.gt)
      (fun k2 h2 => by simp only [h2]; rfl)
      (fun k2 h2 => by simp only [h2]; rfl)
      (by simp only [hc.eq_self q]; rfl) hs none
    simpa [Map.pred] using h
  · have h := closest_succ hc q false (fun k2 => c k2 q == Ordering.gt)
      (fun k2 h2 => by simp only [h2]; rfl)
      (fun k2 h2 => by simp only [h2]; rfl)
      (by simp only [hc.eq_self q]; rfl) hs none
    simpa [Map.succ] using h
  · have h := closest_succ hc q true (fun k2 => c k2 q != Ordering.lt)
      (fun k2 h2 => by simp only [h2]; rfl)
      (fun k2 h2 => by simp only [h2]; rfl)
      (by simp only [hc.eq_self q]; rfl) hs none
    simpa [Map.succ] using h

/-- On the sorted three-key sanity map, the four neighbor queries at 2
match the filtered-subsequence reading. -/
theorem claim_C7_witness :
    Tree.srtd ordCmp wm.root ∧
      ((Map.pred ordCmp wm 2 false =
          ((Tree.inorder wm.root).filter fun e =>
            ordCmp e.1 2 == Ordering.lt).getLast? ∧
        Map.pred ordCmp wm 2 true =
          ((Tree.inorder wm.root).filter fun e =>
            ordCmp e.1 2 != Ordering.gt).getLast?) ∧
        (Map.succ ordCmp wm 2 false =
            ((Tree.inorder wm.root).filter fun e =>
              ordCmp e.1 2 == Ordering.gt).head? ∧
          Map.succ ordCmp wm 2 true =
            ((Tree.inorder wm.root).filter fun e =>
              ordCmp e.1 2 != Ordering.lt).head?)) :=
  ⟨by decide, claim_C7 ordCmp ordCmp_total wm (by decide) 2⟩

namespace Tree

variable {K V A : Type} {g : AugOps A} {c : K → K → Ordering}

/-- `Seen` (node/iter.rs, mod visit): which children of a visit have
already been handed out. -/
inductive Seen where
  | N
  | L
  | R
  | B
  deriving DecidableEq

/-- `Visit` (node/iter.rs, mod visit): one deque slot of the iterator, a
node (its fields) plus its `Seen` marker. -/
structure Visit (K V A : Type) where
  vl : Tree K V A
  vr : Tree K V A
  lv : Nat
  key : K
  val : V
  aug : A
  seen : Seen
  deriving DecidableEq

/-- `Visit::left` (node/iter.rs): hand out the left child once, marking
it seen; an absent or already-seen child is the empty link. -/
def vleft : Visit K V A → Tree K V A × Visit K V A
  | ⟨l, r, lv, k, v, a, .N⟩ => (l, ⟨l, r, lv, k, v, a, .L⟩)
  | ⟨l, r, lv, k, v, a, .R⟩ => (l, ⟨l, r, lv, k, v, a, .B⟩)
  | vis => (nil, vis)

/-- `Visit::right` (node/iter.rs). -/
def vright : Visit K V A → Tree K V A × Visit K V A
  | ⟨l, r, lv, k, v, a, .N⟩ => (r, ⟨l, r, lv, k, v, a, .R⟩)
  | ⟨l, r, lv, k, v, a, .L⟩ => (r, ⟨l, r, lv, k, v, a, .B⟩)
  | vis => (nil, vis)

/-- `Visit::new` guarded by `if let Some(node) = node_ref { push }`:
a non-empty link becomes a fresh unseen visit. -/
def pushN : Tree K V A → List (Visit K V A) → List (Visit K V A)
  | nil, vs => vs
  | node l r lv k v a, vs => ⟨l, r, lv, k, v, a, .N⟩ :: vs

/-- Entries a visit can still emit (its subtree minus the children
already handed out), in ascending order. -/
def ascV : Visit K V A → List (K × V)
  | ⟨l, r, _, k, v, _, .N⟩ => inorder l ++ (k, v) :: inorder r
  | ⟨_, r, _, k, v, _, .L⟩ => (k, v) :: inorder r
  | ⟨l, _, _, k, v, _, .R⟩ => inorder l ++ [(k, v)]
  | ⟨_, _, _, k, v, _, .B⟩ => [(k, v)]

/-- Entries a whole iterator state can still emit, ascending; the list
head is the back of the deque (the deepest pending visit). -/
def asc (vs : List (Visit K V A)) : List (K × V) :=
  (vs.map ascV).flatten

/-- Work remaining in one visit, the termination measure of the
iterator loops. -/
def wgt : Visit K V A → Nat
  | ⟨l, r, _, _, _, _, .N⟩ => 3 * (sz l + sz r) + 3
  | ⟨_, r, _, _, _, _, .L⟩ => 3 * sz r + 2
  | ⟨l, _, _, _, _, _, .R⟩ => 3 * sz l + 2
  | ⟨_, _, _, _, _, _, .B⟩ => 1

def wsum (vs : List (Visit K V A)) : Nat := (vs.map wgt).sum

@[simp] theorem wsum_nil : wsum ([] : List (Visit K V A)) = 0 := rfl

@[simp] theorem wsum_cons (vis : Visit K V A) (vs : List (Visit K V A)) :
    wsum (vis :: vs) = wgt vis + wsum vs := by
  simp [wsum]

theorem wsum_pushN (t : Tree K V A) (vs : List (Visit K V A)) :
    wsum (pushN t vs) ≤ 3 * sz t + wsum vs := by
  cases t with
  | nil => simp [pushN, sz]
  | node l r lv k v a =>
    simp only [pushN, wsum_cons, wgt, sz]
    omega

/-- `Iter::next` (node/iter.rs:140): the forward step.  The list head is
the deque's back; unseen or right-seen visits descend left, a left-seen
visit is emitted and replaced by its right child, a both-seen visit is
emitted and popped. -/
def nextIter : List (Visit K V A) → Option ((K × V) × List (Visit K V A))
  | [] => none
  | ⟨l, r, lv, k, v, a, .N⟩ :: rest =>
    match l with
    | node ll lr llv lk lv2 la =>
      nextIter (⟨ll, lr, llv, lk, lv2, la, .N⟩ ::
        ⟨l, r, lv, k, v, a, .L⟩ :: rest)
    | nil => nextIter (⟨l, r, lv, k, v, a, .L⟩ :: rest)
  | ⟨l, r, lv, k, v, a, .R⟩ :: rest =>
    match l with
    | node ll lr llv lk lv2 la =>
      nextIter (⟨ll, lr, llv, lk, lv2, la, .N⟩ ::
        ⟨l, r, lv, k, v, a, .B⟩ :: rest)
    | nil => nextIter (⟨l, r, lv, k, v, a, .B⟩ :: rest)
  | ⟨_, r, _, k, v, _, .L⟩ :: rest => some ((k, v), pushN r rest)
  | ⟨_, _, _, k, v, _, .B⟩ :: rest => some ((k, v), rest)
termination_by vs => wsum vs
decreasing_by
  all_goals simp only [wsum_cons, wgt, sz]
  all_goals omega

/-- `Iter::next_back` (node/iter.rs:173): the backward step, on the
reversed representation whose head is the deque's front. -/
def nextBackIter : List (Visit K V A) → Option ((K × V) × List (Visit K V A))
  | [] => none
  | ⟨l, r, lv, k, v, a, .N⟩ :: rest =>
    match r with
    | node rl rr rlv rk rv2 ra =>
      nextBackIter (⟨rl, rr, rlv, rk, rv2, ra, .N⟩ ::
        ⟨l, r, lv, k, v, a, .R⟩ :: rest)
    | nil => nextBackIter (⟨l, r, lv, k, v, a, .R⟩ :: rest)
  | ⟨l, r, lv, k, v, a, .L⟩ :: rest =>
    match r with
    | node rl rr rlv rk rv2 ra =>
      nextBackIter (⟨rl, rr, rlv, rk, rv2, ra, .N⟩ ::
        ⟨l, r, lv, k, v, a, .B⟩ :: rest)
    | nil => nextBackIter (⟨l, r, lv, k, v, a, .B⟩ :: rest)
  | ⟨l, _, _, k, v, _, .R⟩ :: rest => some ((k, v), pushN l rest)
  | ⟨_, _, _, k, v, _, .B⟩ :: rest => some ((k, v), rest)
termination_by vs => wsum vs
decreasing_by
  all_goals simp only [wsum_cons, wgt, sz]
  all_goals omega

/-- The min-bound trimming loop of `Iter::range` (node/iter.rs:65),
acting on the back of the deque (the list head). -/
def minTrim (c : K → K → Ordering) (mn : K) (inc : Bool) :
    List (Visit K V A) → List (Visit K V A)
  | [] => []
  | vis :: rest =>
    match c mn vis.key with
    | .eq =>
      if inc then (vleft vis).2 :: rest
      else pushN (vright vis).1 rest
    | .gt => minTrim c mn inc (pushN (vright vis).1 rest)
    | .lt =>
      match h : vleft vis with
      | (node ll lr llv lk lv2 la, vis2) =>
        minTrim c mn inc (⟨ll, lr, llv, lk, lv2, la, .N⟩ :: vis2 :: rest)
      | (nil, vis2) => vis2 :: rest
termination_by vs => wsum vs
decreasing_by
  · rcases vis with ⟨l, r, lv1, k1, v1, a1, s⟩
    have h1 := wsum_pushN (K := K) (V := V) (A := A)
      (vright ⟨l, r, lv1, k1, v1, a1, s⟩).1 rest
    cases s <;> simp only [vright, wsum_cons, wgt, sz] at h1 ⊢ <;> omega
  · rcases vis with ⟨l, r, lv1, k1, v1, a1, s⟩
    cases s <;> simp only [vleft, Prod.mk.injEq] at h <;>
      first
        | (obtain ⟨h1, h2⟩ := h
           subst h1
           subst h2
           simp only [wsum_cons, wgt, sz]
           omega)
        | (exact absurd h.1 (fun hx => Tree.noConfusion hx))

/-- The max-bound trimming loop of `Iter::range` (node/iter.rs:97),
acting on the front of the deque: here on the reversed representation
whose head is the front. -/
def maxTrim (c : K → K → Ordering) (mx : K) (inc : Bool) :
    List (Visit K V A) → List (Visit K V A)
  | [] => []
  | vis :: rest =>
    match c mx vis.key with
    | .eq =>
      if inc then (vright vis).2 :: rest
      else pushN (vleft vis).1 rest
    | .lt => maxTrim c mx inc (pushN (vleft vis).1 rest)
    | .gt =>
      match h : vright vis with
      | (node rl rr rlv rk rv2 ra, vis2) =>
        maxTrim c mx inc (⟨rl, rr, rlv, rk, rv2, ra, .N⟩ :: vis2 :: rest)
      | (nil, vis2) => vis2 :: rest
termination_by vs => wsum vs
decreasing_by
  · rcases vis with ⟨l, r, lv1, k1, v1, a1, s⟩
    have h1 := wsum_pushN (K := K) (V := V) (A := A)
      (vleft ⟨l, r, lv1, k1, v1, a1, s⟩).1 rest
    cases s <;> simp only [vleft, wsum_cons, wgt, sz] at h1 ⊢ <;> omega
  · rcases vis with ⟨l, r, lv1, k1, v1, a1, s⟩
    cases s <;> simp only [vright, Prod.mk.injEq] at h <;>
      first
        | (obtain ⟨h1, h2⟩ := h
           subst h1
           subst h2
           simp only [wsum_cons, wgt, sz]
           omega)
        | (exact absurd h.1 (fun hx => Tree.noConfusion hx))

/-- `std::collections::Bound`, the range bound alphabet of
`Map::range`. -/
inductive Bnd (K : Type) where
  | unb
  | incl (k : K)
  | excl (k : K)
  deriving DecidableEq

/-- `Iter::range` (node/iter.rs:46): start from the root visit, trim the
back by the min bound and the front by the max bound.  The state is kept
in back-first representation; the front trimming happens on the
reversal. -/
def rangeIter (c : K → K → Ordering) (t : Tree K V A) (mn mx : Bnd K) :
    List (Visit K V A) :=
  let f0 := pushN t []
  let f1 := match mn with
    | .unb => f0
    | .incl q => minTrim c q true f0
    | .excl q => minTrim c q false f0
  match mx with
  | .unb => f1
  | .incl q => (maxTrim c q true f1.reverse).reverse
  | .excl q => (maxTrim c q false f1.reverse).reverse

end Tree

namespace Tree

variable {K V A : Type} {g : AugOps A} {c : K → K → Ordering}

@[simp] theorem asc_nil : asc ([] : List (Visit K V A)) = [] := rfl

@[simp] theorem asc_cons (vis : Visit K V A) (vs : List (Visit K V A)) :
    asc (vis :: vs) = ascV vis ++ asc vs := by
  simp [asc]

theorem asc_pushN (t : Tree K V A) (vs : List (Visit K V A)) :
    asc (pushN t vs) = inorder t ++ asc vs := by
  cases t with
  | nil => simp [pushN]
  | node l r lv k v a => simp [pushN, ascV]

/-- Entries a visit can still emit backward, in descending order: the
reverse of its forward entries. -/
def descV (vis : Visit K V A) : List (K × V) := (ascV vis).reverse

/-- Entries a front-first iterator state can still emit backward, in
descending order. -/
def dsc (vs : List (Visit K V A)) : List (K × V) :=
  (vs.map descV).flatten

@[simp] theorem dsc_nil : dsc ([] : List (Visit K V A)) = [] := rfl

@[simp] theorem dsc_cons (vis : Visit K V A) (vs : List (Visit K V A)) :
    dsc (vis :: vs) = descV vis ++ dsc vs := by
  simp [dsc]

theorem dsc_pushN (t : Tree K V A) (vs : List (Visit K V A)) :
    dsc (pushN t vs) = (inorder t).reverse ++ dsc vs := by
  cases t with
  | nil => simp [pushN]
  | node l r lv k v a => simp [pushN, dsc, descV, ascV]

/-- The two representations of the deque carry mirror-image pending
sequences. -/
theorem dsc_eq_reverse_asc (vs : List (Visit K V A)) :
    dsc vs.reverse = (asc vs).reverse := by
  simp only [dsc, asc, descV, List.reverse_join, List.map_reverse,
    List.map_map]
  rfl

/-- One forward step of the iterator emits exactly the first pending
entry and shrinks the work measure. -/
theorem nextIter_asc : ∀ vs : List (Visit K V A),
    (nextIter vs = none → vs = []) ∧
    ∀ e vs2, nextIter vs = some (e, vs2) →
      asc vs = e :: asc vs2 ∧ wsum vs2 < wsum vs := by
  intro vs
  induction vs using nextIter.induct with
  | case1 =>
    refine ⟨fun _ => rfl, fun e vs2 h => ?_⟩
    rw [nextIter] at h
    cases h
  | case2 r lv k v a rest ll lr llv lk lv2 la ih =>
    have hstep : nextIter
        (⟨node ll lr llv lk lv2 la, r, lv, k, v, a, Seen.N⟩ :: rest) =
        nextIter (⟨ll, lr, llv, lk, lv2, la, Seen.N⟩ ::
          ⟨node ll lr llv lk lv2 la, r, lv, k, v, a, Seen.L⟩ :: rest) := by
      conv_lhs => rw [nextIter]
    refine ⟨fun h => ?_, fun e vs2 h => ?_⟩
    · rw [hstep] at h
      simpa using ih.1 h
    · rw [hstep] at h
      obtain ⟨h1, h2⟩ := ih.2 e vs2 h
      refine ⟨?_, ?_⟩
      · rw [← h1]
        simp [ascV, List.append_assoc]
      · refine lt_trans h2 ?_
        simp only [wsum_cons, wgt, sz]
        omega
  | case3 r lv k v a rest ih =>
    have hstep : nextIter (⟨nil, r, lv, k, v, a, Seen.N⟩ :: rest) =
        nextIter (⟨nil, r, lv, k, v, a, Seen.L⟩ :: rest) := by
      conv_lhs => rw [nextIter]
    refine ⟨fun h => ?_, fun e vs2 h => ?_⟩
    · rw [hstep] at h
      simpa using ih.1 h
    · rw [hstep] at h
      obtain ⟨h1, h2⟩ := ih.2 e vs2 h
      refine ⟨?_, ?_⟩
      · rw [← h1]
        simp [ascV]
      · refine lt_trans h2 ?_
        simp only [wsum_cons, wgt, sz]
        omega
  | case4 r lv k v a rest ll lr llv lk lv2 la ih =>
    have hstep : nextIter
        (⟨node ll lr llv lk lv2 la, r, lv, k, v, a, Seen.R⟩ :: rest) =
        nextIter (⟨ll, lr, llv, lk, lv2, la, Seen.N⟩ ::
          ⟨node ll lr llv lk lv2 la, r, lv, k, v, a, Seen.B⟩ :: rest) := by
      conv_lhs => rw [nextIter]
    refine ⟨fun h => ?_, fun e vs2 h => ?_⟩
    · rw [hstep] at h
      simpa using ih.1 h
    · rw [hstep] at h
      obtain ⟨h1, h2⟩ := ih.2 e vs2 h
      refine ⟨?_, ?_⟩
      · rw [← h1]
        simp [ascV, List.append_assoc]
      · refine lt_trans h2 ?_
        simp only [wsum_cons, wgt, sz]
        omega
  | case5 r lv k v a rest ih =>
    have hstep : nextIter (⟨nil, r, lv, k, v, a, Seen.R⟩ :: rest) =
        nextIter (⟨nil, r, lv, k, v, a, Seen.B⟩ :: rest) := by
      conv_lhs => rw [nextIter]
    refine ⟨fun h => ?_, fun e vs2 h => ?_⟩
    · rw [hstep] at h
      simpa using ih.1 h
    · rw [hstep] at h
      obtain ⟨h1, h2⟩ := ih.2 e vs2 h
      refine ⟨?_, ?_⟩
      · rw [← h1]
        simp [ascV]
      · refine lt_trans h2 ?_
        simp only [wsum_cons, wgt, sz]
        omega
  | case6 l r lv k v a rest =>
    have hstep : nextIter (⟨l, r, lv, k, v, a, Seen.L⟩ :: rest) =
        some ((k, v), pushN r rest) := by
      rw [nextIter]
    refine ⟨fun h => ?_, fun e vs2 h => ?_⟩
    · rw [hstep] at h
      cases h
    · rw [hstep] at h
      rw [Option.some.injEq, Prod.mk.injEq] at h
      obtain ⟨h3, h4⟩ := h
      subst h3
      subst h4
      refine ⟨?_, ?_⟩
      · simp [ascV, asc_pushN]
      · have h5 := wsum_pushN (K := K) (V := V) (A := A) r rest
        simp only [wsum_cons, wgt]
        omega
  | case7 l r lv k v a rest =>
    have hstep : nextIter (⟨l, r, lv, k, v, a, Seen.B⟩ :: rest) =
        some ((k, v), rest) := by
      rw [nextIter]
    refine ⟨fun h => ?_, fun e vs2 h => ?_⟩
    · rw [hstep] at h
      cases h
    · rw [hstep] at h
      rw [Option.some.injEq, Prod.mk.injEq] at h
      obtain ⟨h3, h4⟩ := h
      subst h3
      subst h4
      refine ⟨?_, ?_⟩
      · simp [ascV]
      · simp only [wsum_cons, wgt]
        omega

/-- One backward step of the iterator emits exactly the first pending
entry of the descending view and shrinks the work measure. -/
theorem nextBackIter_dsc : ∀ vs : List (Visit K V A),
    (nextBackIter vs = none → vs = []) ∧
    ∀ e vs2, nextBackIter vs = some (e, vs2) →
      dsc vs = e :: dsc vs2 ∧ wsum vs2 < wsum vs := by
  intro vs
  induction vs using nextBackIter.induct with
  | case1 =>
    refine ⟨fun _ => rfl, fun e vs2 h => ?_⟩
    rw [nextBackIter] at h
    cases h
  | case2 l lv k v a rest rl rr rlv rk rv2 ra ih =>
    have hstep : nextBackIter
        (⟨l, node rl rr rlv rk rv2 ra, lv, k, v, a, Seen.N⟩ :: rest) =
        nextBackIter (⟨rl, rr, rlv, rk, rv2, ra, Seen.N⟩ ::
          ⟨l, node rl rr rlv rk rv2 ra, lv, k, v, a, Seen.R⟩ :: rest) := by
      conv_lhs => rw [nextBackIter]
    refine ⟨fun h => ?_, fun e vs2 h => ?_⟩
    · rw [hstep] at h
      simpa using ih.1 h
    · rw [hstep] at h
      obtain ⟨h1, h2⟩ := ih.2 e vs2 h
      refine ⟨?_, ?_⟩
      · rw [← h1]
        simp [descV, ascV, List.append_assoc]
      · refine lt_trans h2 ?_
        simp only [wsum_cons, wgt, sz]
        omega
  | case3 l lv k v a rest ih =>
    have hstep : nextBackIter (⟨l, nil, lv, k, v, a, Seen.N⟩ :: rest) =
        nextBackIter (⟨l, nil, lv, k, v, a, Seen.R⟩ :: rest) := by
      conv_lhs => rw [nextBackIter]
    refine ⟨fun h => ?_, fun e vs2 h => ?_⟩
    · rw [hstep] at h
      simpa using ih.1 h
    · rw [hstep] at h
      obtain ⟨h1, h2⟩ := ih.2 e vs2 h
      refine ⟨?_, ?_⟩
      · rw [← h1]
        simp [descV, ascV]
      · refine lt_trans h2 ?_
        simp only [wsum_cons, wgt, sz]
        omega
  | case4 l lv k v a rest rl rr rlv rk rv2 ra ih =>
    have hstep : nextBackIter
        (⟨l, node rl rr rlv rk rv2 ra, lv, k, v, a, Seen.L⟩ :: rest) =
        nextBackIter (⟨rl, rr, rlv, rk, rv2, ra, Seen.N⟩ ::
          ⟨l, node rl rr rlv rk rv2 ra, lv, k, v, a, Seen.B⟩ :: rest) := by
      conv_lhs => rw [nextBackIter]
    refine ⟨fun h => ?_, fun e vs2 h => ?_⟩
    · rw [hstep] at h
      simpa using ih.1 h
    · rw [hstep] at h
      obtain ⟨h1, h2⟩ := ih.2 e vs2 h
      refine ⟨?_, ?_⟩
      · rw [← h1]
        simp [descV, ascV, List.append_assoc]
      · refine lt_trans h2 ?_
        simp only [wsum_cons, wgt, sz]
        omega
  | case5 l lv k v a rest ih =>
    have hstep : nextBackIter (⟨l, nil, lv, k, v, a, Seen.L⟩ :: rest) =
        nextBackIter (⟨l, nil, lv, k, v, a, Seen.B⟩ :: rest) := by
      conv_lhs => rw [nextBackIter]
    refine ⟨fun h => ?_, fun e vs2 h => ?_⟩
    · rw [hstep] at h
      simpa using ih.1 h
    · rw [hstep] at h
      obtain ⟨h1, h2⟩ := ih.2 e vs2 h
      refine ⟨?_, ?_⟩
      · rw [← h1]
        simp [descV, ascV]
      · refine lt_trans h2 ?_
        simp only [wsum_cons, wgt, sz]
        omega
  | case6 l r lv k v a rest =>
    have hstep : nextBackIter (⟨l, r, lv, k, v, a, Seen.R⟩ :: rest) =
        some ((k, v), pushN l rest) := by
      rw [nextBackIter]
    refine ⟨fun h => ?_, fun e vs2 h => ?_⟩
    · rw [hstep] at h
      cases h
    · rw [hstep] at h
      rw [Option.some.injEq, Prod.mk.injEq] at h
      obtain ⟨h3, h4⟩ := h
      subst h3
      subst h4
      refine ⟨?_, ?_⟩
      · simp [descV, ascV, dsc_pushN]
      · have h5 := wsum_pushN (K := K) (V := V) (A := A) l rest
        simp only [wsum_cons, wgt]
        omega
  | case7 l r lv k v a rest =>
    have hstep : nextBackIter (⟨l, r, lv, k, v, a, Seen.B⟩ :: rest) =
        some ((k, v), rest) := by
      rw [nextBackIter]
    refine ⟨fun h => ?_, fun e vs2 h => ?_⟩
    · rw [hstep] at h
      cases h
    · rw [hstep] at h
      rw [Option.some.injEq, Prod.mk.injEq] at h
      obtain ⟨h3, h4⟩ := h
      subst h3
      subst h4
      refine ⟨?_, ?_⟩
      · simp [descV, ascV]
      · simp only [wsum_cons, wgt]
        omega

/-- Collecting the iterator forward (`next` until `None`). -/
def collectF (vs : List (Visit K V A)) : List (K × V) :=
  match h : nextIter vs with
  | none => []
  | some (e, vs2) => e :: collectF vs2
termination_by wsum vs
decreasing_by exact ((nextIter_asc vs).2 e vs2 h).2

/-- Collecting the iterator backward (`next_back` until `None`), on the
front-first representation. -/
def collectB (vs : List (Visit K V A)) : List (K × V) :=
  match h : nextBackIter vs with
  | none => []
  | some (e, vs2) => e :: collectB vs2
termination_by wsum vs
decreasing_by exact ((nextBackIter_dsc vs).2 e vs2 h).2

/-- The forward iteration yields exactly the pending ascending
sequence. -/
theorem collectF_asc (vs : List (Visit K V A)) : collectF vs = asc vs := by
  rw [collectF.eq_def]
  split
  · rename_i h
    rw [(nextIter_asc vs).1 h]
    rfl
  · rename_i e vs2 h
    obtain ⟨h1, h2⟩ := (nextIter_asc vs).2 e vs2 h
    rw [h1, collectF_asc vs2]
termination_by wsum vs
decreasing_by exact h2

/-- The backward iteration yields exactly the pending descending
sequence. -/
theorem collectB_dsc (vs : List (Visit K V A)) : collectB vs = dsc vs := by
  rw [collectB.eq_def]
  split
  · rename_i h
    rw [(nextBackIter_dsc vs).1 h]
    rfl
  · rename_i e vs2 h
    obtain ⟨h1, h2⟩ := (nextBackIter_dsc vs).2 e vs2 h
    rw [h1, collectB_dsc vs2]
termination_by wsum vs
decreasing_by exact h2

theorem minTrim_eq {mn : K} {inc : Bool} {vis : Visit K V A}
    {rest : List (Visit K V A)} (h : c mn vis.key = Ordering.eq) :
    minTrim c mn inc (vis :: rest) =
      if inc then (vleft vis).2 :: rest else pushN (vright vis).1 rest := by
  conv_lhs => rw [minTrim]
  rw [h]

theorem minTrim_gt {mn : K} {inc : Bool} {vis : Visit K V A}
    {rest : List (Visit K V A)} (h : c mn vis.key = Ordering.gt) :
    minTrim c mn inc (vis :: rest) =
      minTrim c mn inc (pushN (vright vis).1 rest) := by
  conv_lhs => rw [minTrim]
  rw [h]

theorem minTrim_lt_node {mn : K} {inc : Bool} {vis vis2 : Visit K V A}
    {rest : List (Visit K V A)} {ll lr : Tree K V A} {llv : Nat} {lk : K}
    {lv2 : V} {la : A} (h : c mn vis.key = Ordering.lt)
    (h2 : vleft vis = (node ll lr llv lk lv2 la, vis2)) :
    minTrim c mn inc (vis :: rest) =
      minTrim c mn inc (⟨ll, lr, llv, lk, lv2, la, .N⟩ :: vis2 :: rest) := by
  conv_lhs => rw [minTrim]
  rw [h, h2]

theorem minTrim_lt_nil {mn : K} {inc : Bool} {vis vis2 : Visit K V A}
    {rest : List (Visit K V A)} (h : c mn vis.key = Ordering.lt)
    (h2 : vleft vis = (nil, vis2)) :
    minTrim c mn inc (vis :: rest) = vis2 :: rest := by
  conv_lhs => rw [minTrim]
  rw [h, h2]

theorem ordered_split2 {X Y : List (K × V)} {e : K × V}
    (h : ordered c (X ++ e :: Y)) :
    (∀ x ∈ X, c x.1 e.1 = Ordering.lt) ∧
      (∀ y ∈ Y, c e.1 y.1 = Ordering.lt) ∧ ordered c Y := by
  unfold ordered at *
  rw [List.pairwise_append] at h
  obtain ⟨h1, h2, h3⟩ := h
  rw [List.pairwise_cons] at h2
  exact ⟨fun x hx => h3 x hx e (by simp), h2.1, h2.2⟩

/-- Filtering a sorted split at a key equal to the bound: the lower part
goes, the pivot stays iff the predicate keeps it, the upper part stays
whole. -/
theorem filter_minsplit_eq (hc : TotalCmp c) {mn : K} {p : K → Bool}
    (hplt : ∀ k2, c mn k2 = Ordering.lt → p k2 = true)
    (hpgt : ∀ k2, c mn k2 = Ordering.gt → p k2 = false)
    {X Y : List (K × V)} {e : K × V} (ho : ordered c (X ++ e :: Y))
    (he : c mn e.1 = Ordering.eq) :
    (X ++ e :: Y).filter (fun x => p x.1) =
      if p e.1 = true then e :: Y else Y := by
  obtain ⟨hX, hY, _⟩ := ordered_split2 ho
  have hmn : mn = e.1 := (hc.eq_iff mn e.1).1 he
  have hXnil : X.filter (fun x => p x.1) = [] := by
    rw [List.filter_eq_nil_iff]
    intro x hx
    have h2 : c mn x.1 = Ordering.gt := by
      rw [hmn]
      exact (hc.gt_swap e.1 x.1).2 (hX x hx)
    simp [hpgt x.1 h2]
  have hYid : Y.filter (fun x => p x.1) = Y := by
    rw [List.filter_eq_self]
    intro y hy
    refine hplt y.1 ?_
    rw [hmn]
    exact hY y hy
  simp only [List.filter_append, List.filter_cons, hXnil, hYid,
    List.nil_append]

/-- Filtering a sorted split below the bound drops the lower part and
the pivot. -/
theorem filter_minsplit_gt (hc : TotalCmp c) {mn : K} {p : K → Bool}
    (hpgt : ∀ k2, c mn k2 = Ordering.gt → p k2 = false)
    {X Y : List (K × V)} {e : K × V} (ho : ordered c (X ++ e :: Y))
    (hg : c mn e.1 = Ordering.gt) :
    (X ++ e :: Y).filter (fun x => p x.1) = Y.filter (fun x => p x.1) := by
  obtain ⟨hX, _, _⟩ := ordered_split2 ho
  have hXnil : X.filter (fun x => p x.1) = [] := by
    rw [List.filter_eq_nil_iff]
    intro x hx
    have h2 : c mn x.1 = Ordering.gt := by
      refine (hc.gt_swap mn x.1).2 ?_
      exact hc.lt_trans x.1 e.1 mn (hX x hx) ((hc.gt_swap mn e.1).1 hg)
    simp [hpgt x.1 h2]
  simp only [List.filter_append, List.filter_cons, hXnil, hpgt e.1 hg,
    List.nil_append, Bool.false_eq_true, if_false]

/-- Above the bound, a sorted tail is kept whole. -/
theorem filter_head_lt (hc : TotalCmp c) {mn : K} {p : K → Bool}
    (hplt : ∀ k2, c mn k2 = Ordering.lt → p k2 = true)
    {Y : List (K × V)} {e : K × V} (ho : ordered c (e :: Y))
    (hl : c mn e.1 = Ordering.lt) :
    (e :: Y).filter (fun x => p x.1) = e :: Y := by
  have ho2 : (e :: Y).Pairwise (fun x y => c x.1 y.1 = Ordering.lt) := ho
  rw [List.filter_eq_self]
  intro y hy
  rcases List.mem_cons.1 hy with rfl | hy2
  · exact hplt y.1 hl
  · have h2 := (List.pairwise_cons.1 ho2).1 y hy2
    exact hplt y.1 (hc.lt_trans mn e.1 y.1 hl h2)

/-- The min-bound trimming pass restricts the pending ascending sequence
to the entries satisfying the bound (an arbitrary predicate that is true
above the bound, false below it, and `inc` at it). -/
theorem minTrim_spec (hc : TotalCmp c) {mn : K} {inc : Bool} {p : K → Bool}
    (hplt : ∀ k2, c mn k2 = Ordering.lt → p k2 = true)
    (hpgt : ∀ k2, c mn k2 = Ordering.gt → p k2 = false)
    (hpq : ∀ k2, c mn k2 = Ordering.eq → p k2 = inc) :
    ∀ vs : List (Visit K V A), ordered c (asc vs) →
      asc (minTrim c mn inc vs) = (asc vs).filter fun x : K × V => p x.1
  | [], _ => by
    rw [show minTrim c mn inc ([] : List (Visit K V A)) = [] from by
      rw [minTrim]]
    rfl
  | ⟨l, r, lv1, k1, v1, a1, s⟩ :: rest, ho => by
    cases hcc : c mn k1 with
    | eq =>
      rw [minTrim_eq (show c mn
        ((⟨l, r, lv1, k1, v1, a1, s⟩ : Visit K V A)).key = Ordering.eq
        from hcc)]
      have hpk := hpq k1 hcc
      cases inc with
      | true =>
        rw [if_pos rfl]
        cases s
        · show ((k1, v1) :: (inorder r ++ asc rest) : List (K × V)) =
            List.filter (fun x : K × V => p x.1)
              ((inorder l ++ (k1, v1) :: inorder r) ++ asc rest)
          rw [List.append_assoc, List.cons_append]
          have ho2 : ordered c
              (inorder l ++ (k1, v1) :: (inorder r ++ asc rest)) := by
            simpa [ascV, List.append_assoc] using ho
          rw [filter_minsplit_eq hc hplt hpgt ho2 hcc]
          rw [if_pos (show p ((k1, v1) : K × V).1 = true from hpk)]
        · show ((k1, v1) :: (inorder r ++ asc rest) : List (K × V)) =
            List.filter (fun x : K × V => p x.1)
              (([] : List (K × V)) ++ (k1, v1) :: (inorder r ++ asc rest))
          have ho2 : ordered c (([] : List (K × V)) ++
              (k1, v1) :: (inorder r ++ asc rest)) := by
            simpa [ascV, List.append_assoc] using ho
          rw [filter_minsplit_eq hc hplt hpgt ho2 hcc]
          rw [if_pos (show p ((k1, v1) : K × V).1 = true from hpk)]
        · show ((k1, v1) :: asc rest : List (K × V)) =
            List.filter (fun x : K × V => p x.1)
              ((inorder l ++ [(k1, v1)]) ++ asc rest)
          rw [List.append_assoc, List.cons_append, List.nil_append]
          have ho2 : ordered c (inorder l ++ (k1, v1) :: asc rest) := by
            simpa [ascV, List.append_assoc] using ho
          rw [filter_minsplit_eq hc hplt hpgt ho2 hcc]
          rw [if_pos (show p ((k1, v1) : K × V).1 = true from hpk)]
        · show ((k1, v1) :: asc rest : List (K × V)) =
            List.filter (fun x : K × V => p x.1)
              (([] : List (K × V)) ++ (k1, v1) :: asc rest)
          have ho2 : ordered c (([] : List (K × V)) ++
              (k1, v1) :: asc rest) := by
            simpa [ascV, List.append_assoc] using ho
          rw [filter_minsplit_eq hc hplt hpgt ho2 hcc]
          rw [if_pos (show p ((k1, v1) : K × V).1 = true from hpk)]
      | false =>
        rw [if_neg Bool.false_ne_true]
        cases s
        · show asc (pushN r rest) =
            List.filter (fun x : K × V => p x.1)
              ((inorder l ++ (k1, v1) :: inorder r) ++ asc rest)
          rw [asc_pushN, List.append_assoc, List.cons_append]
          have ho2 : ordered c
              (inorder l ++ (k1, v1) :: (inorder r ++ asc rest)) := by
            simpa [ascV, List.append_assoc] using ho
          rw [filter_minsplit_eq hc hplt hpgt ho2 hcc]
          rw [if_neg (show ¬ p ((k1, v1) : K × V).1 = true from by
            simp [hpk])]
        · show asc (pushN r rest) =
            List.filter (fun x : K × V => p x.1)
              (([] : List (K × V)) ++ (k1, v1) :: (inorder r ++ asc rest))
          rw [asc_pushN]
          have ho2 : ordered c (([] : List (K × V)) ++
              (k1, v1) :: (inorder r ++ asc rest)) := by
            simpa [ascV, List.append_assoc] using ho
          rw [filter_minsplit_eq hc hplt hpgt ho2 hcc]
          rw [if_neg (show ¬ p ((k1, v1) : K × V).1 = true from by
            simp [hpk])]
        · show asc rest =
            List.filter (fun x : K × V => p x.1)
              ((inorder l ++ [(k1, v1)]) ++ asc rest)
          rw [List.append_assoc, List.cons_append, List.nil_append]
          have ho2 : ordered c (inorder l ++ (k1, v1) :: asc rest) := by
            simpa [ascV, List.append_assoc] using ho
          rw [filter_minsplit_eq hc hplt hpgt ho2 hcc]
          rw [if_neg (show ¬ p ((k1, v1) : K × V).1 = true from by
            simp [hpk])]
        · show asc rest =
            List.filter (fun x : K × V => p x.1)
              (([] : List (K × V)) ++ (k1, v1) :: asc rest)
          have ho2 : ordered c (([] : List (K × V)) ++
              (k1, v1) :: asc rest) := by
            simpa [ascV, List.append_assoc] using ho
          rw [filter_minsplit_eq hc hplt hpgt ho2 hcc]
          rw [if_neg (show ¬ p ((k1, v1) : K × V).1 = true from by
            simp [hpk])]
    | gt =>
      rw [minTrim_gt (show c mn
        ((⟨l, r, lv1, k1, v1, a1, s⟩ : Visit K V A)).key = Ordering.gt
        from hcc)]
      cases s
      · show asc (minTrim c mn inc (pushN r rest)) =
          List.filter (fun x : K × V => p x.1)
            ((inorder l ++ (k1, v1) :: inorder r) ++ asc rest)
        have ho2 : ordered c
            (inorder l ++ (k1, v1) :: (inorder r ++ asc rest)) := by
          simpa [ascV, List.append_assoc] using ho
        rw [minTrim_spec hc hplt hpgt hpq (pushN r rest) (by
          rw [asc_pushN]
          exact (ordered_split2 ho2).2.2)]
        rw [asc_pushN, List.append_assoc, List.cons_append]
        rw [filter_minsplit_gt hc hpgt ho2 hcc]
      · show asc (minTrim c mn inc (pushN r rest)) =
          List.filter (fun x : K × V => p x.1)
            (([] : List (K × V)) ++ (k1, v1) :: (inorder r ++ asc rest))
        have ho2 : ordered c (([] : List (K × V)) ++
            (k1, v1) :: (inorder r ++ asc rest)) := by
          simpa [ascV, List.append_assoc] using ho
        rw [minTrim_spec hc hplt hpgt hpq (pushN r rest) (by
          rw [asc_pushN]
          exact (ordered_split2 ho2).2.2)]
        rw [asc_pushN]
        rw [filter_minsplit_gt hc hpgt ho2 hcc]
      · show asc (minTrim c mn inc rest) =
          List.filter (fun x : K × V => p x.1)
            ((inorder l ++ [(k1, v1)]) ++ asc rest)
        rw [List.append_assoc, List.cons_append, List.nil_append]
        have ho2 : ordered c (inorder l ++ (k1, v1) :: asc rest) := by
          simpa [ascV, List.append_assoc] using ho
        rw [minTrim_spec hc hplt hpgt hpq rest (ordered_split2 ho2).2.2]
        rw [filter_minsplit_gt hc hpgt ho2 hcc]
      · show asc (minTrim c mn inc rest) =
          List.filter (fun x : K × V => p x.1)
            (([] : List (K × V)) ++ (k1, v1) :: asc rest)
        have ho2 : ordered c (([] : List (K × V)) ++
            (k1, v1) :: asc rest) := by
          simpa [ascV, List.append_assoc] using ho
        rw [minTrim_spec hc hplt hpgt hpq rest (ordered_split2 ho2).2.2]
        rw [filter_minsplit_gt hc hpgt ho2 hcc]
    | lt =>
      cases s
      · cases hl : l with
        | nil =>
          rw [minTrim_lt_nil (show c mn
            ((⟨nil, r, lv1, k1, v1, a1, Seen.N⟩ : Visit K V A)).key =
              Ordering.lt from hcc) rfl]
          show ((k1, v1) :: (inorder r ++ asc rest) : List (K × V)) =
            List.filter (fun x : K × V => p x.1)
              ((k1, v1) :: (inorder r ++ asc rest))
          have ho2 : ordered c ((k1, v1) :: (inorder r ++ asc rest)) := by
            simpa [hl, ascV] using ho
          exact (filter_head_lt hc hplt ho2 hcc).symm
        | node ll lr llv lk lv2 la =>
          rw [minTrim_lt_node (show c mn
            ((⟨node ll lr llv lk lv2 la, r, lv1, k1, v1, a1, Seen.N⟩ :
              Visit K V A)).key = Ordering.lt from hcc) rfl]
          have ho2 : ordered c (asc
              ((⟨ll, lr, llv, lk, lv2, la, Seen.N⟩ : Visit K V A) ::
                ⟨node ll lr llv lk lv2 la, r, lv1, k1, v1, a1, Seen.L⟩ ::
                  rest)) := by
            simpa [hl, ascV, List.append_assoc] using ho
          rw [minTrim_spec hc hplt hpgt hpq _ ho2]
          simp [ascV, List.append_assoc]
      · rw [minTrim_lt_nil (show c mn
          ((⟨l, r, lv1, k1, v1, a1, Seen.L⟩ : Visit K V A)).key =
            Ordering.lt from hcc) rfl]
        show ((k1, v1) :: (inorder r ++ asc rest) : List (K × V)) =
          List.filter (fun x : K × V => p x.1)
            ((k1, v1) :: (inorder r ++ asc rest))
        have ho2 : ordered c ((k1, v1) :: (inorder r ++ asc rest)) := by
          simpa [ascV] using ho
        exact (filter_head_lt hc hplt ho2 hcc).symm
      · cases hl : l with
        | nil =>
          rw [minTrim_lt_nil (show c mn
            ((⟨nil, r, lv1, k1, v1, a1, Seen.R⟩ : Visit K V A)).key =
              Ordering.lt from hcc) rfl]
          show ((k1, v1) :: asc rest : List (K × V)) =
            List.filter (fun x : K × V => p x.1) ((k1, v1) :: asc rest)
          have ho2 : ordered c ((k1, v1) :: asc rest) := by
            simpa [hl, ascV] using ho
          exact (filter_head_lt hc hplt ho2 hcc).symm
        | node ll lr llv lk lv2 la =>
          rw [minTrim_lt_node (show c mn
            ((⟨node ll lr llv lk lv2 la, r, lv1, k1, v1, a1, Seen.R⟩ :
              Visit K V A)).key = Ordering.lt from hcc) rfl]
          have ho2 : ordered c (asc
              ((⟨ll, lr, llv, lk, lv2, la, Seen.N⟩ : Visit K V A) ::
                ⟨node ll lr llv lk lv2 la, r, lv1, k1, v1, a1, Seen.B⟩ ::
                  rest)) := by
            simpa [hl, ascV, List.append_assoc] using ho
          rw [minTrim_spec hc hplt hpgt hpq _ ho2]
          simp [ascV, List.append_assoc]
      · rw [minTrim_lt_nil (show c mn
          ((⟨l, r, lv1, k1, v1, a1, Seen.B⟩ : Visit K V A)).key =
            Ordering.lt from hcc) rfl]
        show ((k1, v1) :: asc rest : List (K × V)) =
          List.filter (fun x : K × V => p x.1) ((k1, v1) :: asc rest)
        have ho2 : ordered c ((k1, v1) :: asc rest) := by
          simpa [ascV] using ho
        exact (filter_head_lt hc hplt ho2 hcc).symm
termination_by vs => wsum vs
decreasing_by
  all_goals try subst_vars
  all_goals simp only [wsum_cons, wgt, sz]
  all_goals first
    | omega
    | (have h1 := wsum_pushN (K := K) (V := V) (A := A) r rest
       omega)

@[simp] theorem descV_N (l r : Tree K V A) (lv : Nat) (k : K) (v : V)
    (a : A) :
    descV (⟨l, r, lv, k, v, a, Seen.N⟩ : Visit K V A) =
      (inorder r).reverse ++ (k, v) :: (inorder l).reverse := by
  simp [descV, ascV]

@[simp] theorem descV_L (l r : Tree K V A) (lv : Nat) (k : K) (v : V)
    (a : A) :
    descV (⟨l, r, lv, k, v, a, Seen.L⟩ : Visit K V A) =
      (inorder r).reverse ++ [(k, v)] := by
  simp [descV, ascV]

@[simp] theorem descV_R (l r : Tree K V A) (lv : Nat) (k : K) (v : V)
    (a : A) :
    descV (⟨l, r, lv, k, v, a, Seen.R⟩ : Visit K V A) =
      (k, v) :: (inorder l).reverse := by
  simp [descV, ascV]

@[simp] theorem descV_B (l r : Tree K V A) (lv : Nat) (k : K) (v : V)
    (a : A) :
    descV (⟨l, r, lv, k, v, a, Seen.B⟩ : Visit K V A) = [(k, v)] := by
  simp [descV, ascV]

end Tree

/-- Strictly-decreasing key order of an entry list, the backward-facing
mirror of `ordered`. -/
def orderedD {K V : Type} (c : K → K → Ordering) (l : List (K × V)) : Prop :=
  l.Pairwise fun x y => c x.1 y.1 = .gt

namespace Tree

variable {K V A : Type} {g : AugOps A} {c : K → K → Ordering}

theorem orderedD_split2 {X Y : List (K × V)} {e : K × V}
    (h : orderedD c (X ++ e :: Y)) :
    (∀ x ∈ X, c x.1 e.1 = Ordering.gt) ∧
      (∀ y ∈ Y, c e.1 y.1 = Ordering.gt) ∧ orderedD c Y := by
  unfold orderedD at *
  rw [List.pairwise_append] at h
  obtain ⟨h1, h2, h3⟩ := h
  rw [List.pairwise_cons] at h2
  exact ⟨fun x hx => h3 x hx e (by simp), h2.1, h2.2⟩

/-- Filtering a reverse-sorted split at a key equal to the bound: the
upper part goes, the pivot stays iff the predicate keeps it, the lower
part stays whole. -/
theorem filter_maxsplit_eq (hc : TotalCmp c) {mx : K} {p : K → Bool}
    (hpgt2 : ∀ k2, c mx k2 = Ordering.gt → p k2 = true)
    (hplt2 : ∀ k2, c mx k2 = Ordering.lt → p k2 = false)
    {X Y : List (K × V)} {e : K × V} (ho : orderedD c (X ++ e :: Y))
    (he : c mx e.1 = Ordering.eq) :
    (X ++ e :: Y).filter (fun x => p x.1) =
      if p e.1 = true then e :: Y else Y := by
  obtain ⟨hX, hY, _⟩ := orderedD_split2 ho
  have hmx : mx = e.1 := (hc.eq_iff mx e.1).1 he
  have hXnil : X.filter (fun x => p x.1) = [] := by
    rw [List.filter_eq_nil_iff]
    intro x hx
    have h2 : c mx x.1 = Ordering.lt := by
      rw [hmx]
      exact (hc.gt_swap x.1 e.1).1 (hX x hx)
    simp [hplt2 x.1 h2]
  have hYid : Y.filter (fun x => p x.1) = Y := by
    rw [List.filter_eq_self]
    intro y hy
    refine hpgt2 y.1 ?_
    rw [hmx]
    exact hY y hy
  simp only [List.filter_append, List.filter_cons, hXnil, hYid,
    List.nil_append]

/-- Filtering a reverse-sorted split above the bound drops the upper
part and the pivot. -/
theorem filter_maxsplit_lt (hc : TotalCmp c) {mx : K} {p : K → Bool}
    (hplt2 : ∀ k2, c mx k2 = Ordering.lt → p k2 = false)
    {X Y : List (K × V)} {e : K × V} (ho : orderedD c (X ++ e :: Y))
    (hl : c mx e.1 = Ordering.lt) :
    (X ++ e :: Y).filter (fun x => p x.1) = Y.filter (fun x => p x.1) := by
  obtain ⟨hX, _, _⟩ := orderedD_split2 ho
  have hXnil : X.filter (fun x => p x.1) = [] := by
    rw [List.filter_eq_nil_iff]
    intro x hx
    have h2 : c mx x.1 = Ordering.lt :=
      hc.lt_trans mx e.1 x.1 hl ((hc.gt_swap x.1 e.1).1 (hX x hx))
    simp [hplt2 x.1 h2]
  simp only [List.filter_append, List.filter_cons, hXnil, hplt2 e.1 hl,
    List.nil_append, Bool.false_eq_true, if_false]

/-- Below the bound, a reverse-sorted tail is kept whole. -/
theorem filter_headD_gt (hc : TotalCmp c) {mx : K} {p : K → Bool}
    (hpgt2 : ∀ k2, c mx k2 = Ordering.gt → p k2 = true)
    {Y : List (K × V)} {e : K × V} (ho : orderedD c (e :: Y))
    (hg : c mx e.1 = Ordering.gt) :
    (e :: Y).filter (fun x => p x.1) = e :: Y := by
  have ho2 : (e :: Y).Pairwise (fun x y => c x.1 y.1 = Ordering.gt) := ho
  rw [List.filter_eq_self]
  intro y hy
  rcases List.mem_cons.1 hy with rfl | hy2
  · exact hpgt2 y.1 hg
  · have h2 := (List.pairwise_cons.1 ho2).1 y hy2
    refine hpgt2 y.1 ?_
    refine (hc.gt_swap mx y.1).2 ?_
    exact hc.lt_trans y.1 e.1 mx ((hc.gt_swap e.1 y.1).1 h2)
      ((hc.gt_swap mx e.1).1 hg)

theorem maxTrim_eq {mx : K} {inc : Bool} {vis : Visit K V A}
    {rest : List (Visit K V A)} (h : c mx vis.key = Ordering.eq) :
    maxTrim c mx inc (vis :: rest) =
      if inc then (vright vis).2 :: rest else pushN (vleft vis).1 rest := by
  conv_lhs => rw [maxTrim]
  rw [h]

theorem maxTrim_lt {mx : K} {inc : Bool} {vis : Visit K V A}
    {rest : List (Visit K V A)} (h : c mx vis.key = Ordering.lt) :
    maxTrim c mx inc (vis :: rest) =
      maxTrim c mx inc (pushN (vleft vis).1 rest) := by
  conv_lhs => rw [maxTrim]
  rw [h]

theorem maxTrim_gt_node {mx : K} {inc : Bool} {vis vis2 : Visit K V A}
    {rest : List (Visit K V A)} {rl rr : Tree K V A} {rlv : Nat} {rk : K}
    {rv2 : V} {ra : A} (h : c mx vis.key = Ordering.gt)
    (h2 : vright vis = (node rl rr rlv rk rv2 ra, vis2)) :
    maxTrim c mx inc (vis :: rest) =
      maxTrim c mx inc (⟨rl, rr, rlv, rk, rv2, ra, .N⟩ :: vis2 :: rest) := by
  conv_lhs => rw [maxTrim]
  rw [h, h2]

theorem maxTrim_gt_nil {mx : K} {inc : Bool} {vis vis2 : Visit K V A}
    {rest : List (Visit K V A)} (h : c mx vis.key = Ordering.gt)
    (h2 : vright vis = (nil, vis2)) :
    maxTrim c mx inc (vis :: rest) = vis2 :: rest := by
  conv_lhs => rw [maxTrim]
  rw [h, h2]

/-- The max-bound trimming pass restricts the pending descending
sequence to the entries satisfying the bound (a predicate that is true
below the bound, false above it, and `inc` at it). -/
theorem maxTrim_spec (hc : TotalCmp c) {mx : K} {inc : Bool} {p : K → Bool}
    (hpgt2 : ∀ k2, c mx k2 = Ordering.gt → p k2 = true)
    (hplt2 : ∀ k2, c mx k2 = Ordering.lt → p k2 = false)
    (hpq : ∀ k2, c mx k2 = Ordering.eq → p k2 = inc) :
    ∀ vs : List (Visit K V A), orderedD c (dsc vs) →
      dsc (maxTrim c mx inc vs) = (dsc vs).filter fun x : K × V => p x.1
  | [], _ => by
    rw [show maxTrim c mx inc ([] : List (Visit K V A)) = [] from by
      rw [maxTrim]]
    rfl
  | ⟨l, r, lv1, k1, v1, a1, s⟩ :: rest, ho => by
    cases hcc : c mx k1 with
    | eq =>
      rw [maxTrim_eq (show c mx
        ((⟨l, r, lv1, k1, v1, a1, s⟩ : Visit K V A)).key = Ordering.eq
        from hcc)]
      have hpk := hpq k1 hcc
      cases inc with
      | true =>
        rw [if_pos rfl]
        cases s
        · show dsc ((⟨l, r, lv1, k1, v1, a1, Seen.R⟩ : Visit K V A) ::
              rest) =
            List.filter (fun x : K × V => p x.1)
              (dsc ((⟨l, r, lv1, k1, v1, a1, Seen.N⟩ : Visit K V A) ::
                rest))
          simp only [dsc_cons, descV_R, descV_N, List.append_assoc,
            List.cons_append]
          have ho2 : orderedD c ((inorder r).reverse ++
              (k1, v1) :: ((inorder l).reverse ++ dsc rest)) := by
            simpa [descV, ascV, List.append_assoc] using ho
          rw [filter_maxsplit_eq hc hpgt2 hplt2 ho2 hcc]
          rw [if_pos (show p ((k1, v1) : K × V).1 = true from hpk)]
        · show dsc ((⟨l, r, lv1, k1, v1, a1, Seen.B⟩ : Visit K V A) ::
              rest) =
            List.filter (fun x : K × V => p x.1)
              (dsc ((⟨l, r, lv1, k1, v1, a1, Seen.L⟩ : Visit K V A) ::
                rest))
          simp only [dsc_cons, descV_B, descV_L, List.append_assoc,
            List.cons_append, List.nil_append]
          have ho2 : orderedD c ((inorder r).reverse ++
              (k1, v1) :: dsc rest) := by
            simpa [descV, ascV, List.append_assoc] using ho
          rw [filter_maxsplit_eq hc hpgt2 hplt2 ho2 hcc]
          rw [if_pos (show p ((k1, v1) : K × V).1 = true from hpk)]
        · show dsc ((⟨l, r, lv1, k1, v1, a1, Seen.R⟩ : Visit K V A) ::
              rest) =
            List.filter (fun x : K × V => p x.1)
              (dsc ((⟨l, r, lv1, k1, v1, a1, Seen.R⟩ : Visit K V A) ::
                rest))
          simp only [dsc_cons, descV_R, List.cons_append]
          rw [show ((k1, v1) :: ((inorder l).reverse ++ dsc rest) :
              List (K × V)) =
            ([] : List (K × V)) ++
              (k1, v1) :: ((inorder l).reverse ++ dsc rest) from rfl]
          have ho2 : orderedD c (([] : List (K × V)) ++
              (k1, v1) :: ((inorder l).reverse ++ dsc rest)) := by
            simpa [descV, ascV, List.append_assoc] using ho
          rw [filter_maxsplit_eq hc hpgt2 hplt2 ho2 hcc]
          rw [if_pos (show p ((k1, v1) : K × V).1 = true from hpk)]
          rfl
        · show dsc ((⟨l, r, lv1, k1, v1, a1, Seen.B⟩ : Visit K V A) ::
              rest) =
            List.filter (fun x : K × V => p x.1)
              (dsc ((⟨l, r, lv1, k1, v1, a1, Seen.B⟩ : Visit K V A) ::
                rest))
          simp only [dsc_cons, descV_B, List.cons_append, List.nil_append]
          rw [show ((k1, v1) :: dsc rest : List (K × V)) =
            ([] : List (K × V)) ++ (k1, v1) :: dsc rest from rfl]
          have ho2 : orderedD c (([] : List (K × V)) ++
              (k1, v1) :: dsc rest) := by
            simpa [descV, ascV, List.append_assoc] using ho
          rw [filter_maxsplit_eq hc hpgt2 hplt2 ho2 hcc]
          rw [if_pos (show p ((k1, v1) : K × V).1 = true from hpk)]
          rfl
      | false =>
        rw [if_neg Bool.false_ne_true]
        cases s
        · show dsc (pushN l rest) =
            List.filter (fun x : K × V => p x.1)
              (dsc ((⟨l, r, lv1, k1, v1, a1, Seen.N⟩ : Visit K V A) ::
                rest))
          rw [dsc_pushN]
          simp only [dsc_cons, descV_N, List.append_assoc,
            List.cons_append]
          have ho2 : orderedD c ((inorder r).reverse ++
              (k1, v1) :: ((inorder l).reverse ++ dsc rest)) := by
            simpa [descV, ascV, List.append_assoc] using ho
          rw [filter_maxsplit_eq hc hpgt2 hplt2 ho2 hcc]
          rw [if_neg (show ¬ p ((k1, v1) : K × V).1 = true from by
            simp [hpk])]
        · show dsc rest =
            List.filter (fun x : K × V => p x.1)
              (dsc ((⟨l, r, lv1, k1, v1, a1, Seen.L⟩ : Visit K V A) ::
                rest))
          simp only [dsc_cons, descV_L, List.append_assoc,
            List.cons_append, List.nil_append]
          have ho2 : orderedD c ((inorder r).reverse ++
              (k1, v1) :: dsc rest) := by
            simpa [descV, ascV, List.append_assoc] using ho
          rw [filter_maxsplit_eq hc hpgt2 hplt2 ho2 hcc]
          rw [if_neg (show ¬ p ((k1, v1) : K × V).1 = true from by
            simp [hpk])]
        · show dsc (pushN l rest) =
            List.filter (fun x : K × V => p x.1)
              (dsc ((⟨l, r, lv1, k1, v1, a1, Seen.R⟩ : Visit K V A) ::
                rest))
          rw [dsc_pushN]
          simp only [dsc_cons, descV_R, List.cons_append]
          rw [show List.filter (fun x : K × V => p x.1)
              ((k1, v1) :: ((inorder l).reverse ++ dsc rest)) =
            List.filter (fun x : K × V => p x.1)
              (([] : List (K × V)) ++
                (k1, v1) :: ((inorder l).reverse ++ dsc rest)) from rfl]
          have ho2 : orderedD c (([] : List (K × V)) ++
              (k1, v1) :: ((inorder l).reverse ++ dsc rest)) := by
            simpa [descV, ascV, List.append_assoc] using ho
          rw [filter_maxsplit_eq hc hpgt2 hplt2 ho2 hcc]
          rw [if_neg (show ¬ p ((k1, v1) : K × V).1 = true from by
            simp [hpk])]
        · show dsc rest =
            List.filter (fun x : K × V => p x.1)
              (dsc ((⟨l, r, lv1, k1, v1, a1, Seen.B⟩ : Visit K V A) ::
                rest))
          simp only [dsc_cons, descV_B, List.cons_append, List.nil_append]
          rw [show List.filter (fun x : K × V => p x.1)
              ((k1, v1) :: dsc rest) =
            List.filter (fun x : K × V => p x.1)
              (([] : List (K × V)) ++ (k1, v1) :: dsc rest) from rfl]
          have ho2 : orderedD c (([] : List (K × V)) ++
              (k1, v1) :: dsc rest) := by
            simpa [descV, ascV, List.append_assoc] using ho
          rw [filter_maxsplit_eq hc hpgt2 hplt2 ho2 hcc]
          rw [if_neg (show ¬ p ((k1, v1) : K × V).1 = true from by
            simp [hpk])]
    | lt =>
      rw [maxTrim_lt (show c mx
        ((⟨l, r, lv1, k1, v1, a1, s⟩ : Visit K V A)).key = Ordering.lt
        from hcc)]
      cases s
      · show dsc (maxTrim c mx inc (pushN l rest)) =
          List.filter (fun x : K × V => p x.1)
            (dsc ((⟨l, r, lv1, k1, v1, a1, Seen.N⟩ : Visit K V A) ::
              rest))
        have ho2 : orderedD c ((inorder r).reverse ++
            (k1, v1) :: ((inorder l).reverse ++ dsc rest)) := by
          simpa [descV, ascV, List.append_assoc] using ho
        rw [maxTrim_spec hc hpgt2 hplt2 hpq (pushN l rest) (by
          rw [dsc_pushN]
          exact (orderedD_split2 ho2).2.2)]
        rw [dsc_pushN]
        simp only [dsc_cons, descV_N, List.append_assoc, List.cons_append]
        rw [filter_maxsplit_lt hc hplt2 ho2 hcc]
      · show dsc (maxTrim c mx inc rest) =
          List.filter (fun x : K × V => p x.1)
            (dsc ((⟨l, r, lv1, k1, v1, a1, Seen.L⟩ : Visit K V A) ::
              rest))
        have ho2 : orderedD c ((inorder r).reverse ++
            (k1, v1) :: dsc rest) := by
          simpa [descV, ascV, List.append_assoc] using ho
        rw [maxTrim_spec hc hpgt2 hplt2 hpq rest (orderedD_split2 ho2).2.2]
        simp only [dsc_cons, descV_L, List.append_assoc, List.cons_append,
          List.nil_append]
        rw [filter_maxsplit_lt hc hplt2 ho2 hcc]
      · show dsc (maxTrim c mx inc (pushN l rest)) =
          List.filter (fun x : K × V => p x.1)
            (dsc ((⟨l, r, lv1, k1, v1, a1, Seen.R⟩ : Visit K V A) ::
              rest))
        have ho2 : orderedD c (([] : List (K × V)) ++
            (k1, v1) :: ((inorder l).reverse ++ dsc rest)) := by
          simpa [descV, ascV, List.append_assoc] using ho
        rw [maxTrim_spec hc hpgt2 hplt2 hpq (pushN l rest) (by
          rw [dsc_pushN]
          exact (orderedD_split2 ho2).2.2)]
        rw [dsc_pushN]
        simp only [dsc_cons, descV_R, List.cons_append]
        rw [show List.filter (fun x : K × V => p x.1)
            ((k1, v1) :: ((inorder l).reverse ++ dsc rest)) =
          List.filter (fun x : K × V => p x.1)
            (([] : List (K × V)) ++
              (k1, v1) :: ((inorder l).reverse ++ dsc rest)) from rfl]
        rw [filter_maxsplit_lt hc hplt2 ho2 hcc]
      · show dsc (maxTrim c mx inc rest) =
          List.filter (fun x : K × V => p x.1)
            (dsc ((⟨l, r, lv1, k1, v1, a1, Seen.B⟩ : Visit K V A) ::
              rest))
        have ho2 : orderedD c (([] : List (K × V)) ++
            (k1, v1) :: dsc rest) := by
          simpa [descV, ascV, List.append_assoc] using ho
        rw [maxTrim_spec hc hpgt2 hplt2 hpq rest (orderedD_split2 ho2).2.2]
        simp only [dsc_cons, descV_B, List.cons_append, List.nil_append]
        rw [show List.filter (fun x : K × V => p x.1)
            ((k1, v1) :: dsc rest) =
          List.filter (fun x : K × V => p x.1)
            (([] : List (K × V)) ++ (k1, v1) :: dsc rest) from rfl]
        rw [filter_maxsplit_lt hc hplt2 ho2 hcc]
    | gt =>
      cases s
      · cases hr : r with
        | nil =>
          rw [maxTrim_gt_nil (show c mx
            ((⟨l, nil, lv1, k1, v1, a1, Seen.N⟩ : Visit K V A)).key =
              Ordering.gt from hcc) rfl]
          simp only [dsc_cons, descV_R, descV_N, inorder_nil,
            List.reverse_nil, List.nil_append, List.cons_append]
          have ho2 : orderedD c
              ((k1, v1) :: ((inorder l).reverse ++ dsc rest)) := by
            simpa [hr, descV, ascV, List.append_assoc] using ho
          exact (filter_headD_gt hc hpgt2 ho2 hcc).symm
        | node rl rr rlv rk rv2 ra =>
          rw [maxTrim_gt_node (show c mx
            ((⟨l, node rl rr rlv rk rv2 ra, lv1, k1, v1, a1, Seen.N⟩ :
              Visit K V A)).key = Ordering.gt from hcc) rfl]
          have ho2 : orderedD c (dsc
              ((⟨rl, rr, rlv, rk, rv2, ra, Seen.N⟩ : Visit K V A) ::
                ⟨l, node rl rr rlv rk rv2 ra, lv1, k1, v1, a1, Seen.R⟩ ::
                  rest)) := by
            simpa [hr, descV, ascV, List.append_assoc] using ho
          rw [maxTrim_spec hc hpgt2 hplt2 hpq _ ho2]
          simp [descV, ascV, List.append_assoc]
      · cases hr : r with
        | nil =>
          rw [maxTrim_gt_nil (show c mx
            ((⟨l, nil, lv1, k1, v1, a1, Seen.L⟩ : Visit K V A)).key =
              Ordering.gt from hcc) rfl]
          simp only [dsc_cons, descV_B, descV_L, inorder_nil,
            List.reverse_nil, List.nil_append, List.cons_append]
          have ho2 : orderedD c ((k1, v1) :: dsc rest) := by
            simpa [hr, descV, ascV, List.append_assoc] using ho
          exact (filter_headD_gt hc hpgt2 ho2 hcc).symm
        | node rl rr rlv rk rv2 ra =>
          rw [maxTrim_gt_node (show c mx
            ((⟨l, node rl rr rlv rk rv2 ra, lv1, k1, v1, a1, Seen.L⟩ :
              Visit K V A)).key = Ordering.gt from hcc) rfl]
          have ho2 : orderedD c (dsc
              ((⟨rl, rr, rlv, rk, rv2, ra, Seen.N⟩ : Visit K V A) ::
                ⟨l, node rl rr rlv rk rv2 ra, lv1, k1, v1, a1, Seen.B⟩ ::
                  rest)) := by
            simpa [hr, descV, ascV, List.append_assoc] using ho
          rw [maxTrim_spec hc hpgt2 hplt2 hpq _ ho2]
          simp [descV, ascV, List.append_assoc]
      · rw [maxTrim_gt_nil (show c mx
          ((⟨l, r, lv1, k1, v1, a1, Seen.R⟩ : Visit K V A)).key =
            Ordering.gt from hcc) rfl]
        simp only [dsc_cons, descV_R, List.cons_append]
        have ho2 : orderedD c
            ((k1, v1) :: ((inorder l).reverse ++ dsc rest)) := by
          simpa [descV, ascV, List.append_assoc] using ho
        exact (filter_headD_gt hc hpgt2 ho2 hcc).symm
      · rw [maxTrim_gt_nil (show c mx
          ((⟨l, r, lv1, k1, v1, a1, Seen.B⟩ : Visit K V A)).key =
            Ordering.gt from hcc) rfl]
        simp only [dsc_cons, descV_B, List.cons_append, List.nil_append]
        have ho2 : orderedD c ((k1, v1) :: dsc rest) := by
          simpa [descV, ascV, List.append_assoc] using ho
        exact (filter_headD_gt hc hpgt2 ho2 hcc).symm
termination_by vs => wsum vs
decreasing_by
  all_goals try subst_vars
  all_goals simp only [wsum_cons, wgt, sz]
  all_goals first
    | omega
    | (have h1 := wsum_pushN (K := K) (V := V) (A := A) l rest
       omega)

/-- The min-bound predicate of `Map::range`: keys not below
(`Included`) or strictly above (`Excluded`) the bound. -/
def bndMinOK (c : K → K → Ordering) : Bnd K → K → Bool
  | Bnd.unb, _ => true
  | Bnd.incl q, k =>
    match c q k with
    | Ordering.gt => false
    | _ => true
  | Bnd.excl q, k =>
    match c q k with
    | Ordering.lt => true
    | _ => false

/-- The max-bound predicate of `Map::range`: keys not above
(`Included`) or strictly below (`Excluded`) the bound. -/
def bndMaxOK (c : K → K → Ordering) : Bnd K → K → Bool
  | Bnd.unb, _ => true
  | Bnd.incl q, k =>
    match c q k with
    | Ordering.lt => false
    | _ => true
  | Bnd.excl q, k =>
    match c q k with
    | Ordering.gt => true
    | _ => false

theorem asc_reverse (vs : List (Visit K V A)) :
    asc vs.reverse = (dsc vs).reverse := by
  have h := dsc_eq_reverse_asc vs.reverse
  rw [List.reverse_reverse] at h
  rw [h, List.reverse_reverse]

theorem ordered_rev_orderedD (hc : TotalCmp c) {l : List (K × V)}
    (h : ordered c l) : orderedD c l.reverse := by
  have hp : l.Pairwise (fun x y => c x.1 y.1 = Ordering.lt) := h
  show (l.reverse).Pairwise fun x y => c x.1 y.1 = Ordering.gt
  rw [List.pairwise_reverse]
  exact hp.imp fun hxy => (hc.gt_swap _ _).2 hxy

theorem ordered_filter {l : List (K × V)} (h : ordered c l)
    (p : K × V → Bool) : ordered c (l.filter p) := by
  have hp : l.Pairwise (fun x y => c x.1 y.1 = Ordering.lt) := h
  exact List.Pairwise.sublist (List.filter_sublist l) hp

/-- The inclusive min trim keeps exactly the keys satisfying the
`Included` bound predicate. -/
theorem minIncl_asc (hc : TotalCmp c) {t : Tree K V A} (hs : srtd c t)
    (q : K) :
    asc (minTrim c q true (pushN t ([] : List (Visit K V A)))) =
      (inorder t).filter fun e : K × V => bndMinOK c (Bnd.incl q) e.1 := by
  have hbase : ordered c (asc (pushN t ([] : List (Visit K V A)))) := by
    rw [asc_pushN, asc_nil, List.append_nil]
    exact hs
  have h1 : ∀ k2 : K, c q k2 = Ordering.lt →
      bndMinOK c (Bnd.incl q) k2 = true := fun k2 h => by
    simp [bndMinOK, h]
  have h2 : ∀ k2 : K, c q k2 = Ordering.gt →
      bndMinOK c (Bnd.incl q) k2 = false := fun k2 h => by
    simp [bndMinOK, h]
  have h3 : ∀ k2 : K, c q k2 = Ordering.eq →
      bndMinOK c (Bnd.incl q) k2 = true := fun k2 h => by
    simp [bndMinOK, h]
  rw [minTrim_spec hc h1 h2 h3 (pushN t []) hbase]
  rw [asc_pushN, asc_nil, List.append_nil]

/-- The exclusive min trim keeps exactly the keys satisfying the
`Excluded` bound predicate. -/
theorem minExcl_asc (hc : TotalCmp c) {t : Tree K V A} (hs : srtd c t)
    (q : K) :
    asc (minTrim c q false (pushN t ([] : List (Visit K V A)))) =
      (inorder t).filter fun e : K × V => bndMinOK c (Bnd.excl q) e.1 := by
  have hbase : ordered c (asc (pushN t ([] : List (Visit K V A)))) := by
    rw [asc_pushN, asc_nil, List.append_nil]
    exact hs
  have h1 : ∀ k2 : K, c q k2 = Ordering.lt →
      bndMinOK c (Bnd.excl q) k2 = true := fun k2 h => by
    simp [bndMinOK, h]
  have h2 : ∀ k2 : K, c q k2 = Ordering.gt →
      bndMinOK c (Bnd.excl q) k2 = false := fun k2 h => by
    simp [bndMinOK, h]
  have h3 : ∀ k2 : K, c q k2 = Ordering.eq →
      bndMinOK c (Bnd.excl q) k2 = false := fun k2 h => by
    simp [bndMinOK, h]
  rw [minTrim_spec hc h1 h2 h3 (pushN t []) hbase]
  rw [asc_pushN, asc_nil, List.append_nil]

/-- Front trimming acts on the reversed deque; read forward it filters
the ascending sequence by the max-bound predicate. -/
theorem maxTrim_rev_asc (hc : TotalCmp c) {ws : List (Visit K V A)}
    (ho : ordered c (asc ws)) {q : K} {b : Bool} {p2 : K → Bool}
    (h1 : ∀ k2, c q k2 = Ordering.gt → p2 k2 = true)
    (h2 : ∀ k2, c q k2 = Ordering.lt → p2 k2 = false)
    (h3 : ∀ k2, c q k2 = Ordering.eq → p2 k2 = b) :
    asc ((maxTrim c q b ws.reverse).reverse) =
      (asc ws).filter fun e : K × V => p2 e.1 := by
  rw [asc_reverse]
  have hD : orderedD c (dsc ws.reverse) := by
    rw [dsc_eq_reverse_asc]
    exact ordered_rev_orderedD hc ho
  rw [maxTrim_spec hc h1 h2 h3 ws.reverse hD]
  rw [dsc_eq_reverse_asc]
  rw [List.filter_reverse, List.reverse_reverse]

/-- `Iter::range` leaves pending exactly the in-order entries whose
keys satisfy both bound predicates. -/
theorem rangeIter_asc (hc : TotalCmp c) {t : Tree K V A} (hs : srtd c t)
    (mn mx : Bnd K) :
    asc (rangeIter c t mn mx) =
      (inorder t).filter
        fun e : K × V => bndMinOK c mn e.1 && bndMaxOK c mx e.1 := by
  have hbase : ordered c (asc (pushN t ([] : List (Visit K V A)))) := by
    rw [asc_pushN, asc_nil, List.append_nil]
    exact hs
  cases mn with
  | unb =>
    cases mx with
    | unb =>
      simp only [rangeIter]
      rw [asc_pushN, asc_nil, List.append_nil]
      exact (List.filter_eq_self.2 fun e he => by
        simp [bndMinOK, bndMaxOK]).symm
    | incl w =>
      simp only [rangeIter]
      have h1 : ∀ k2 : K, c w k2 = Ordering.gt →
          bndMaxOK c (Bnd.incl w) k2 = true := fun k2 h => by
        simp [bndMaxOK, h]
      have h2 : ∀ k2 : K, c w k2 = Ordering.lt →
          bndMaxOK c (Bnd.incl w) k2 = false := fun k2 h => by
        simp [bndMaxOK, h]
      have h3 : ∀ k2 : K, c w k2 = Ordering.eq →
          bndMaxOK c (Bnd.incl w) k2 = true := fun k2 h => by
        simp [bndMaxOK, h]
      rw [maxTrim_rev_asc hc hbase h1 h2 h3]
      rw [asc_pushN, asc_nil, List.append_nil]
      refine List.filter_congr fun e he => ?_
      simp [bndMinOK]
    | excl w =>
      simp only [rangeIter]
      have h1 : ∀ k2 : K, c w k2 = Ordering.gt →
          bndMaxOK c (Bnd.excl w) k2 = true := fun k2 h => by
        simp [bndMaxOK, h]
      have h2 : ∀ k2 : K, c w k2 = Ordering.lt →
          bndMaxOK c (Bnd.excl w) k2 = false := fun k2 h => by
        simp [bndMaxOK, h]
      have h3 : ∀ k2 : K, c w k2 = Ordering.eq →
          bndMaxOK c (Bnd.excl w) k2 = false := fun k2 h => by
        simp [bndMaxOK, h]
      rw [maxTrim_rev_asc hc hbase h1 h2 h3]
      rw [asc_pushN, asc_nil, List.append_nil]
      refine List.filter_congr fun e he => ?_
      simp [bndMinOK]
  | incl q =>
    have hmi := minIncl_asc hc hs q
    have ho1 : ordered c
        (asc (minTrim c q true (pushN t ([] : List (Visit K V A))))) := by
      rw [hmi]
      exact ordered_filter hs _
    cases mx with
    | unb =>
      simp only [rangeIter]
      rw [hmi]
      refine List.filter_congr fun e he => ?_
      simp [bndMaxOK]
    | incl w =>
      simp only [rangeIter]
      have h1 : ∀ k2 : K, c w k2 = Ordering.gt →
          bndMaxOK c (Bnd.incl w) k2 = true := fun k2 h => by
        simp [bndMaxOK, h]
      have h2 : ∀ k2 : K, c w k2 = Ordering.lt →
          bndMaxOK c (Bnd.incl w) k2 = false := fun k2 h => by
        simp [bndMaxOK, h]
      have h3 : ∀ k2 : K, c w k2 = Ordering.eq →
          bndMaxOK c (Bnd.incl w) k2 = true := fun k2 h => by
        simp [bndMaxOK, h]
      rw [maxTrim_rev_asc hc ho1 h1 h2 h3, hmi, List.filter_filter]
      refine List.filter_congr fun e he => ?_
      exact Bool.and_comm _ _
    | excl w =>
      simp only [rangeIter]
      have h1 : ∀ k2 : K, c w k2 = Ordering.gt →
          bndMaxOK c (Bnd.excl w) k2 = true := fun k2 h => by
        simp [bndMaxOK, h]
      have h2 : ∀ k2 : K, c w k2 = Ordering.lt →
          bndMaxOK c (Bnd.excl w) k2 = false := fun k2 h => by
        simp [bndMaxOK, h]
      have h3 : ∀ k2 : K, c w k2 = Ordering.eq →
          bndMaxOK c (Bnd.excl w) k2 = false := fun k2 h => by
        simp [bndMaxOK, h]
      rw [maxTrim_rev_asc hc ho1 h1 h2 h3, hmi, List.filter_filter]
      refine List.filter_congr fun e he => ?_
      exact Bool.and_comm _ _
  | excl q =>
    have hmi := minExcl_asc hc hs q
    have ho1 : ordered c
        (asc (minTrim c q false (pushN t ([] : List (Visit K V A))))) := by
      rw [hmi]
      exact ordered_filter hs _
    cases mx with
    | unb =>
      simp only [rangeIter]
      rw [hmi]
      refine List.filter_congr fun e he => ?_
      simp [bndMaxOK]
    | incl w =>
      simp only [rangeIter]
      have h1 : ∀ k2 : K, c w k2 = Ordering.gt →
          bndMaxOK c (Bnd.incl w) k2 = true := fun k2 h => by
        simp [bndMaxOK, h]
      have h2 : ∀ k2 : K, c w k2 = Ordering.lt →
          bndMaxOK c (Bnd.incl w) k2 = false := fun k2 h => by
        simp [bndMaxOK, h]
      have h3 : ∀ k2 : K, c w k2 = Ordering.eq →
          bndMaxOK c (Bnd.incl w) k2 = true := fun k2 h => by
        simp [bndMaxOK, h]
      rw [maxTrim_rev_asc hc ho1 h1 h2 h3, hmi, List.filter_filter]
      refine List.filter_congr fun e he => ?_
      exact Bool.and_comm _ _
    | excl w =>
      simp only [rangeIter]
      have h1 : ∀ k2 : K, c w k2 = Ordering.gt →
          bndMaxOK c (Bnd.excl w) k2 = true := fun k2 h => by
        simp [bndMaxOK, h]
      have h2 : ∀ k2 : K, c w k2 = Ordering.lt →
          bndMaxOK c (Bnd.excl w) k2 = false := fun k2 h => by
        simp [bndMaxOK, h]
      have h3 : ∀ k2 : K, c w k2 = Ordering.eq →
          bndMaxOK c (Bnd.excl w) k2 = false := fun k2 h => by
        simp [bndMaxOK, h]
      rw [maxTrim_rev_asc hc ho1 h1 h2 h3, hmi, List.filter_filter]
      refine List.filter_congr fun e he => ?_
      exact Bool.and_comm _ _

end Tree

open Tree in
/-- Claim C6: on a sorted tree, `range(min, max)` iterated forward
yields exactly the in-order entries whose keys satisfy both bound
predicates (each bound `Unbounded`, `Included` or `Excluded`), and
iterating the same range from the back yields exactly the reverse of
that subsequence. -/
theorem claim_C6 {K V A : Type} (c : K → K → Ordering) (hc : TotalCmp c)
    {t : Tree K V A} (hs : srtd c t) (mn mx : Bnd K) :
    collectF (rangeIter c t mn mx) =
      (inorder t).filter
        (fun e => bndMinOK c mn e.1 && bndMaxOK c mx e.1) ∧
    collectB ((rangeIter c t mn mx).reverse) =
      ((inorder t).filter
        (fun e => bndMinOK c mn e.1 && bndMaxOK c mx e.1)).reverse := by
  have h := rangeIter_asc hc hs mn mx
  refine ⟨?_, ?_⟩
  · rw [collectF_asc]
    exact h
  · rw [collectB_dsc, dsc_eq_reverse_asc, h]

theorem claim_C6_witness :
    TotalCmp (ordCmp (K := Nat)) ∧ Tree.srtd ordCmp wm.root ∧
    (Tree.collectF (Tree.rangeIter ordCmp wm.root (Tree.Bnd.incl 2)
        (Tree.Bnd.excl 9)) =
      (Tree.inorder wm.root).filter
        (fun e => Tree.bndMinOK ordCmp (Tree.Bnd.incl 2) e.1 &&
          Tree.bndMaxOK ordCmp (Tree.Bnd.excl 9) e.1) ∧
     Tree.collectB ((Tree.rangeIter ordCmp wm.root (Tree.Bnd.incl 2)
        (Tree.Bnd.excl 9)).reverse) =
      ((Tree.inorder wm.root).filter
        (fun e => Tree.bndMinOK ordCmp (Tree.Bnd.incl 2) e.1 &&
          Tree.bndMaxOK ordCmp (Tree.Bnd.excl 9) e.1)).reverse) :=
  ⟨ordCmp_total, by decide, claim_C6 ordCmp ordCmp_total (t := wm.root)
    (by decide) (Tree.Bnd.incl 2) (Tree.Bnd.excl 9)⟩

namespace Tree

end Tree

end TreeCrate
